import Mathlib

/-!
# bg-cars-discord-bot: the scraper package

A shallow embedding of `pkg/scraper/scraper.go`.

Go strings are modelled as lists of Unicode code points (`Str`), i.e. as
well-formed UTF-8 text.  The regular expressions of the package are written
as values of a small pattern type `Regex` and run by a backtracking matcher
that enumerates the successful ways of matching in priority order, which is the
leftmost-first rule of Go's `regexp` package.
-/

namespace Scraper

/-- A Go string, as its sequence of code points. -/
abbrev Str := List Char

/-! ## The `strings` functions the package calls -/

/-- Go's `unicode.IsSpace`: the Latin-1 spaces and the code points with the
White_Space property. -/
def isSpace (c : Char) : Bool :=
  let n := c.toNat
  n == 0x09 || n == 0x0A || n == 0x0B || n == 0x0C || n == 0x0D || n == 0x20 ||
  n == 0x85 || n == 0xA0 || n == 0x1680 || (0x2000 ≤ n && n ≤ 0x200A) ||
  n == 0x2028 || n == 0x2029 || n == 0x202F || n == 0x205F || n == 0x3000

/-- Go's `strings.TrimSpace`: leading and trailing white space removed. -/
def TrimSpace (s : Str) : Str :=
  ((s.dropWhile isSpace).reverse.dropWhile isSpace).reverse

/-- Whether `old` is a prefix of `s`. -/
def HasPrefix : Str → Str → Bool
  | _, [] => true
  | [], _ :: _ => false
  | c :: s, d :: old => c == d && HasPrefix s old

/-- Go's `strings.Contains`: `sub` occurs somewhere in `s`. -/
def Contains : Str → Str → Bool
  | [], sub => HasPrefix [] sub
  | c :: s, sub => HasPrefix (c :: s) sub || Contains s sub

/-- The scan of `strings.ReplaceAll` for a non-empty `old`: left to right,
non-overlapping.  `skip` counts the runes of an occurrence of `old` that has
already been replaced and is still to be stepped over. -/
def ReplaceAll.go (old new : Str) : Nat → Str → Str
  | _, [] => []
  | skip + 1, _ :: s => ReplaceAll.go old new skip s
  | 0, c :: s =>
    if HasPrefix (c :: s) old then new ++ ReplaceAll.go old new (old.length - 1) s
    else c :: ReplaceAll.go old new 0 s

/-- Go's `strings.ReplaceAll` (for a non-empty `old`). -/
def ReplaceAll (s old new : Str) : Str :=
  ReplaceAll.go old new 0 s

/-! ## Regular expressions -/

/-- The patterns of Go's `regexp` syntax that the package uses. -/
inductive Regex where
  /-- a literal rune -/
  | lit (c : Char)
  /-- a character class, given by its membership test -/
  | cls (p : Char → Bool)
  /-- concatenation `ab` -/
  | cat (a b : Regex)
  /-- alternation `a|b`, preferring `a` -/
  | alt (a b : Regex)
  /-- greedy repetition `a*` -/
  | star (a : Regex)
  /-- greedy option `a?` -/
  | opt (a : Regex)
  /-- capturing group number `i` -/
  | group (i : Nat) (a : Regex)

/-- The recorded capture groups, the most recent first. -/
abbrev Caps := List (Nat × Str)

/-- A matcher state: the text still to be read and the captures so far. -/
abbrev MState := Str × Caps

/-- The loop of a greedy `a*`: one more iteration of the body `f` is preferred
to stopping.  Every starred body in this package reads at least one rune per
iteration, so the length of the text bounds the number of iterations. -/
def starLoop (f : MState → List MState) : Nat → MState → List MState
  | 0, st => [st]
  | n + 1, st => (f st).flatMap (starLoop f n) ++ [st]

/-- All the ways for the pattern to match a prefix of the text, in priority
order: the head of the list is the match Go reports at this position. -/
def run : Regex → MState → List MState
  | .lit c, st =>
    match st.1 with
    | d :: t => if d = c then [(t, st.2)] else []
    | [] => []
  | .cls p, st =>
    match st.1 with
    | d :: t => if p d then [(t, st.2)] else []
    | [] => []
  | .cat a b, st => (run a st).flatMap (run b)
  | .alt a b, st => run a st ++ run b st
  | .star a, st => starLoop (run a) st.1.length st
  | .opt a, st => run a st ++ [st]
  | .group i a, st =>
    (run a st).map fun st' => (st'.1, (i, st.1.take (st.1.length - st'.1.length)) :: st'.2)

/-- One or more, greedy: `a+`. -/
def Regex.plus (a : Regex) : Regex := .cat a (.star a)

/-- The literal string `s` (non-empty). -/
def Regex.str : Str → Regex
  | [] => .opt (.cls fun _ => false)
  | [c] => .lit c
  | c :: s => .cat (.lit c) (Regex.str s)

/-- The match that starts exactly at the beginning of `s`, if there is one: the
text after the match and the captures. -/
def matchAt (re : Regex) (s : Str) : Option MState :=
  (run re (s, [])).head?

/-- The leftmost match in `s`: the suffix of `s` at which the match starts, and
the state after the match. -/
def search (re : Regex) : Str → Option (Str × MState)
  | [] => (matchAt re []).map fun st => ([], st)
  | c :: t =>
    match matchAt re (c :: t) with
    | some st => some (c :: t, st)
    | none => search re t

/-- The slice Go returns for one match: the whole match, then the text of each
of the `ngroups` capture groups (empty for a group that took no part). -/
def submatches (ngroups : Nat) (start : Str) (st : MState) : List Str :=
  start.take (start.length - st.1.length) ::
    (List.range ngroups).map fun i => (st.2.lookup (i + 1)).getD []

/-- The loop of `FindAll`: successive non-overlapping matches.  `adj` says that
the previous match ended where `s` starts; an empty match there is dropped, and
after any empty match the search moves on by one rune. -/
def findAllLoop (re : Regex) (ngroups : Nat) : Nat → Str → Bool → List (List Str)
  | 0, _, _ => []
  | fuel + 1, s, adj =>
    match search re s with
    | none => []
    | some (start, st) =>
      if start.length = st.1.length then
        let here := if adj && start.length = s.length then [] else [submatches ngroups start st]
        match st.1 with
        | [] => here
        | _ :: t => here ++ findAllLoop re ngroups fuel t false
      else submatches ngroups start st :: findAllLoop re ngroups fuel st.1 true

/-- Go's `(*Regexp).FindAllStringSubmatch(s, -1)`. -/
def FindAllStringSubmatch (re : Regex) (ngroups : Nat) (s : Str) : List (List Str) :=
  findAllLoop re ngroups (s.length + 1) s false

/-- Go's `(*Regexp).FindAllString(s, -1)`: the whole-match texts. -/
def FindAllString (re : Regex) (ngroups : Nat) (s : Str) : List Str :=
  (FindAllStringSubmatch re ngroups s).map fun m => m.headD []

/-- Go's `(*Regexp).FindStringSubmatch(s)`: the first match, or the empty slice. -/
def FindStringSubmatch (re : Regex) (ngroups : Nat) (s : Str) : List Str :=
  match search re s with
  | none => []
  | some (start, st) => submatches ngroups start st

/-- The class `\d`. -/
def isDigit (c : Char) : Bool := '0' ≤ c && c ≤ '9'

/-- The class `\s` of Go's `regexp`: `[\t\n\f\r ]`. -/
def isReSpace (c : Char) : Bool :=
  c = '\t' || c = '\n' || c = Char.ofNat 0x0C || c = '\r' || c = ' '

/-- The class `[,\s]`. -/
def isSeparator (c : Char) : Bool := c = ',' || isReSpace c

/-- The group `[,\s]\d{3}`. -/
def groupPattern : Regex :=
  .cat (.cls isSeparator) (.cat (.cls isDigit) (.cat (.cls isDigit) (.cls isDigit)))

/-- The fraction `\.\d{2}`. -/
def fractionPattern : Regex :=
  .cat (.lit '.') (.cat (.cls isDigit) (.cls isDigit))

/-- The amount `\d+(?:[,\s]\d{3})*(?:\.\d{2})?`. -/
def amountPattern : Regex :=
  .cat (Regex.plus (.cls isDigit)) (.cat (.star groupPattern) (.opt fractionPattern))

/-- The currency `BGN|EUR|лв\.?`. -/
def currencyPattern : Regex :=
  .alt (Regex.str "BGN".toList)
    (.alt (Regex.str "EUR".toList) (.cat (Regex.str "лв".toList) (.opt (.lit '.'))))

/-- The pattern `(\d+(?:[,\s]\d{3})*(?:\.\d{2})?)\s*(BGN|EUR|лв\.?)`. -/
def priceRegex : Regex :=
  .cat (.group 1 amountPattern) (.cat (.star (.cls isReSpace)) (.group 2 currencyPattern))

/-- The pattern `(\d+(?:[,\s]\d{3})*(?:\.\d{2})?)`. -/
def numberRegex : Regex := .group 1 amountPattern

/-- The pattern `(BGN|EUR|лв\.?)`. -/
def currencyRegex : Regex := .group 1 currencyPattern

/-! ## parsePrice -/

/-- The loop `for strings.Contains(price, "  ") { price = ReplaceAll(price, "  ", " ") }`.
Each turn shortens the text, so its length bounds the number of turns. -/
def collapseSpaces : Nat → Str → Str
  | 0, price => price
  | fuel + 1, price =>
    if Contains price "  ".toList then
      collapseSpaces fuel (ReplaceAll price "  ".toList " ".toList)
    else price

/-- The first lines of `parsePrice`: trimmed, newlines and tabs turned into
spaces, runs of spaces collapsed. -/
def cleanPrice (rawPrice : Str) : Str :=
  let price := TrimSpace rawPrice
  let price := ReplaceAll price "\n".toList " ".toList
  let price := ReplaceAll price "\t".toList " ".toList
  collapseSpaces price.length price

/-- The loop over the matches of `parsePrice`: the first match with currency
BGN or лв decides. -/
def preferBGN : List (List Str) → Option Str
  | [] => none
  | m :: rest =>
    match m with
    | _ :: amount :: currency :: _ =>
      let amount := ReplaceAll amount " ".toList ",".toList
      if currency = "BGN".toList || Contains currency "лв".toList then
        let currency := if Contains currency "лв".toList then "BGN".toList else currency
        some (amount ++ " ".toList ++ currency)
      else preferBGN rest
    | _ => preferBGN rest

/-- The function `parsePrice`. -/
def parsePrice (rawPrice : Str) : Str :=
  let price := cleanPrice rawPrice
  if price = [] then "Price not available".toList
  else
    let priceMatches := FindAllStringSubmatch priceRegex 2 price
    let tier1 : Option Str :=
      match priceMatches with
      | [] => none
      | m0 :: _ =>
        match preferBGN priceMatches with
        | some r => some r
        | none =>
          match m0 with
          | _ :: amount :: currency :: _ =>
            some (ReplaceAll amount " ".toList ",".toList ++ " ".toList ++ currency)
          | _ => none
    match tier1 with
    | some r => r
    | none =>
      let numberMatches := FindAllString numberRegex 1 price
      let currencyMatches := FindAllString currencyRegex 1 price
      match numberMatches, currencyMatches with
      | amount :: _, currency :: _ =>
        let amount := ReplaceAll amount " ".toList ",".toList
        let currency := if Contains currency "лв".toList then "BGN".toList else currency
        amount ++ " ".toList ++ currency
      | _, _ => price

/-! ## The document tree -/

/-- The node kinds of `golang.org/x/net/html`. -/
inductive NodeType where
  | ErrorNode | TextNode | DocumentNode | ElementNode | CommentNode | DoctypeNode | RawNode
  deriving DecidableEq, Repr

/-- An attribute of an element: `html.Attribute`. -/
structure Attribute where
  Namespace : Str
  Key : Str
  Val : Str
  deriving DecidableEq, Repr

/-- A node of the parsed document, `html.Node`, with its children in sibling
order (`FirstChild`, then `NextSibling`). -/
inductive Node where
  | mk (Type_ : NodeType) (Data : Str) (Attr : List Attribute) (children : List Node)

/-- The record `Offer`. -/
structure Offer where
  DataItem : Str
  Title : Str
  ImageURL : Str
  ListLink : Str
  Price : Str
  deriving DecidableEq, Repr

mutual
/-- The function `getTextContent`. -/
def getTextContent : Node → Str
  | .mk ty data _ children =>
    if ty = .TextNode then data else getTextContent.children children
/-- The loop of `getTextContent` over the children, writing into the builder. -/
def getTextContent.children : List Node → Str
  | [] => []
  | c :: cs => getTextContent c ++ getTextContent.children cs
end

/-- The test of `findPrice` on one attribute. -/
def isPriceClass (attr : Attribute) : Bool :=
  attr.Key = "class".toList &&
  Contains attr.Val "card__title".toList &&
  Contains attr.Val "mdc-typography".toList &&
  Contains attr.Val "mdc-typography--headline6".toList &&
  Contains attr.Val "price".toList

mutual
/-- The closure `f` of `findPrice`, with the captured variable `price` passed
in and out. -/
def findPrice.f : Node → Str → Str
  | .mk ty data attr children, price =>
    if ty = .ElementNode ∧ data = "h6".toList ∧ attr.any isPriceClass = true then
      getTextContent (.mk ty data attr children)
    else findPrice.children children price
/-- The loop of `findPrice`'s closure over the children. -/
def findPrice.children : List Node → Str → Str
  | [], price => price
  | c :: cs, price =>
    findPrice.children cs (if price = [] then findPrice.f c price else price)
end

/-- The function `findPrice`. -/
def findPrice (n : Node) : Str :=
  parsePrice (findPrice.f n [])

/-- The class `['"]`. -/
def isQuote (c : Char) : Bool := c = '\'' || c = '"'

/-- The pattern `url\(['"]?([^'")]+)['"]?\)`. -/
def urlRegex : Regex :=
  .cat (Regex.str "url(".toList)
    (.cat (.opt (.cls isQuote))
      (.cat (.group 1 (Regex.plus (.cls fun c => !(isQuote c || c = ')'))))
        (.cat (.opt (.cls isQuote)) (.lit ')'))))

/-- The loop of `findImageURL` over the attributes of a `div`: the first
`style` attribute with a `background-image` and a `url(...)` decides. -/
def findImageURL.attrs : List Attribute → Option Str
  | [] => none
  | attr :: rest =>
    if attr.Key = "style".toList ∧ Contains attr.Val "background-image".toList = true then
      match FindStringSubmatch urlRegex 1 attr.Val with
      | _ :: url :: _ => some url
      | _ => findImageURL.attrs rest
    else findImageURL.attrs rest

mutual
/-- The closure `f` of `findImageURL`, with the captured variable `imgURL`
passed in and out. -/
def findImageURL.f : Node → Str → Str
  | .mk ty data attr children, imgURL =>
    if ty = .ElementNode ∧ data = "div".toList then
      match findImageURL.attrs attr with
      | some url => url
      | none => findImageURL.children children imgURL
    else findImageURL.children children imgURL
/-- The loop of `findImageURL`'s closure over the children. -/
def findImageURL.children : List Node → Str → Str
  | [], imgURL => imgURL
  | c :: cs, imgURL =>
    findImageURL.children cs (if imgURL = [] then findImageURL.f c imgURL else imgURL)
end

/-- The function `findImageURL`. -/
def findImageURL (n : Node) : Str :=
  findImageURL.f n []

mutual
/-- The closure `f` of `findListLink`, with the captured variable `link` passed
in and out. -/
def findListLink.f : Node → Str → Str
  | .mk ty data attr children, link =>
    if ty = .ElementNode ∧ data = "a".toList then
      match attr.find? fun a => a.Key = "list-link".toList with
      | some a => a.Val
      | none => findListLink.children children link
    else findListLink.children children link
/-- The loop of `findListLink`'s closure over the children. -/
def findListLink.children : List Node → Str → Str
  | [], link => link
  | c :: cs, link =>
    findListLink.children cs (if link = [] then findListLink.f c link else link)
end

/-- The function `findListLink`. -/
def findListLink (n : Node) : Str :=
  findListLink.f n []

/-- The attribute loop of `findOffers`: the last `data-item` and the last
`title` value, each empty when there is none. -/
def scanAttrs : List Attribute → Str × Str → Str × Str
  | [], acc => acc
  | attr :: rest, (dataItem, title) =>
    let dataItem := if attr.Key = "data-item".toList then attr.Val else dataItem
    let title := if attr.Key = "title".toList then attr.Val else title
    scanAttrs rest (dataItem, title)

mutual
/-- The closure `findOffers` of `ExtractAllOffers`, with the captured slice
`offers` passed in and out. -/
def findOffers : Node → List Offer → List Offer
  | .mk ty data attr children, offers =>
    if ty = .ElementNode ∧ data = "div".toList ∧ (scanAttrs attr ([], [])).1 ≠ [] then
      offers ++ [{ DataItem := (scanAttrs attr ([], [])).1
                   Title := (scanAttrs attr ([], [])).2
                   ImageURL := findImageURL (.mk ty data attr children)
                   ListLink := findListLink (.mk ty data attr children)
                   Price := findPrice (.mk ty data attr children) }]
    else findOffers.children children offers
/-- The loop of `findOffers` over the children. -/
def findOffers.children : List Node → List Offer → List Offer
  | [], offers => offers
  | c :: cs, offers => findOffers.children cs (findOffers c offers)
end

/-- The function `ExtractAllOffers`, on the tree `html.Parse` returned. -/
def ExtractAllOffers (doc : Node) : List Offer :=
  findOffers doc []

/-! ## Brands, models and the search URL -/

/-- The type `CarBrand` (a Go `int`). -/
abbrev CarBrand := Int

def BrandUnknown : CarBrand := 0
def BrandBMW : CarBrand := 10
def BrandAudi : CarBrand := 20
def BrandVW : CarBrand := 30

/-- Go's `strings.ToLower`: `unicode.ToLower` on every rune.  The case table of
the Unicode library is the parameter `lower`. -/
def ToLower (lower : Char → Char) (s : Str) : Str :=
  s.map lower

/-- The function `BrandNameToID`. -/
def BrandNameToID (lower : Char → Char) (brand : Str) : CarBrand :=
  let b := ToLower lower brand
  if b = "bmw".toList then BrandBMW
  else if b = "audi".toList then BrandAudi
  else if b = "vw".toList ∨ b = "volkswagen".toList then BrandVW
  else BrandUnknown

/-- The codes of the BMW 5 series. -/
def series5 : List Str :=
  ["1000003", "122", "123", "124", "125", "126", "127", "128", "129", "130", "131", "132"].map
    String.toList

/-- The table `modelNameToIDs`. -/
def modelNameToIDs : List (Str × List Str) :=
  [("5series".toList, series5), ("5-series".toList, series5), ("5".toList, series5)]

/-- The function `ModelNameToIDs`: a missing key gives the nil slice. -/
def ModelNameToIDs (lower : Char → Char) (model : Str) : List Str :=
  (modelNameToIDs.lookup (ToLower lower model)).getD []

/-- The verb `%d` of `fmt.Sprintf`. -/
def formatInt (n : Int) : Str :=
  match n with
  | .ofNat m => Nat.toDigits 10 m
  | .negSucc m => '-' :: Nat.toDigits 10 (m + 1)

/-- The UTF-8 bytes of a code point. -/
def utf8Bytes (c : Char) : List Nat :=
  let n := c.toNat
  if n < 0x80 then [n]
  else if n < 0x800 then [0xC0 + n / 64, 0x80 + n % 64]
  else if n < 0x10000 then [0xE0 + n / 4096, 0x80 + n / 64 % 64, 0x80 + n % 64]
  else [0xF0 + n / 262144, 0x80 + n / 4096 % 64, 0x80 + n / 64 % 64, 0x80 + n % 64]

/-- An upper-case hexadecimal digit. -/
def hexDigit (n : Nat) : Char :=
  "0123456789ABCDEF".toList.getD n '0'

/-- Whether `url.QueryEscape` leaves the rune as it is: ASCII letters, digits
and `-`, `_`, `.`, `~`. -/
def isUnreserved (c : Char) : Bool :=
  ('a' ≤ c && c ≤ 'z') || ('A' ≤ c && c ≤ 'Z') || ('0' ≤ c && c ≤ '9') ||
  c = '-' || c = '_' || c = '.' || c = '~'

/-- Go's `url.QueryEscape`. -/
def QueryEscape (s : Str) : Str :=
  s.flatMap fun c =>
    if isUnreserved c then [c]
    else if c = ' ' then ['+']
    else (utf8Bytes c).flatMap fun b => ['%', hexDigit (b / 16), hexDigit (b % 16)]

/-- Go's `url.Values`, a map from keys to value lists, kept as an association
list in increasing key order (the order in which `Encode` visits the keys). -/
abbrev Values := List (Str × List Str)

/-- The method `Values.Set`: the key gets the single value. -/
def Values.Set : Values → Str → Str → Values
  | [], key, value => [(key, [value])]
  | (k, vs) :: rest, key, value =>
    if key = k then (k, [value]) :: rest
    else if key < k then (key, [value]) :: (k, vs) :: rest
    else (k, vs) :: Values.Set rest key value

/-- The method `Values.Add`: the value is appended to the values of the key. -/
def Values.Add : Values → Str → Str → Values
  | [], key, value => [(key, [value])]
  | (k, vs) :: rest, key, value =>
    if key = k then (k, vs ++ [value]) :: rest
    else if key < k then (key, [value]) :: (k, vs) :: rest
    else (k, vs) :: Values.Add rest key value

/-- The pairs `key=value` that `Values.Encode` writes, keys and values escaped. -/
def Values.pairs : Values → List Str
  | [] => []
  | (k, vs) :: rest =>
    vs.map (fun v => QueryEscape k ++ '=' :: QueryEscape v) ++ Values.pairs rest

/-- The method `Values.Encode`: the pairs joined by `&`. -/
def Values.Encode (v : Values) : Str :=
  List.intercalate ['&'] (Values.pairs v)

/-- The function `calcUrl`. -/
def calcUrl (brand : CarBrand) (page : Int) (modelIDs : List Str) : Str :=
  let base := "https://www.cars.bg/carslist.php".toList
  let params : Values := []
  let params :=
    if brand ≠ 0 then
      let params := params.Set "subm".toList "1".toList
      let params := params.Set "add_search".toList "1".toList
      let params := params.Set "typeoffer".toList "1".toList
      params.Set "brandId".toList (formatInt brand)
    else params
  let params := params.Set "page".toList (formatInt page)
  let params := modelIDs.foldl (fun ps mid => ps.Add "models[]".toList mid) params
  base ++ "?".toList ++ params.Encode

/-! ## SearchCars -/

/-- What `SearchCars` prints, one event per `fmt.Printf`. -/
inductive Event where
  /-- `Scraping page %d: %s` -/
  | scraping (page : Int) (url : Str)
  /-- `Error parsing offers on page %d: %v` -/
  | failed (page : Int) (err : Str)
  /-- `No offers found on page %d, stopping search` -/
  | stopping (page : Int)
  deriving DecidableEq, Repr

/-- The variables of `SearchCars` that its loop changes: the slice `allOffers`
and the output written so far. -/
structure SearchState where
  allOffers : List Offer
  output : List Event
  deriving DecidableEq, Repr

/-- The loop `for page := 1; page <= maxPages; page++` of `SearchCars`, from
`page` on.  `GetOffersByUrl` stands for the network: what fetching a URL gives,
an error or the offers of the page.  The loop runs at most `maxPages` times. -/
def SearchCars.loop (GetOffersByUrl : Str → Except Str (List Offer)) (carBrandId : CarBrand)
    (modelIDs : List Str) (maxPages : Int) : Nat → Int → SearchState → SearchState
  | 0, _, st => st
  | fuel + 1, page, st =>
    if page ≤ maxPages then
      let url := calcUrl carBrandId page modelIDs
      let st := { st with output := st.output ++ [Event.scraping page url] }
      match GetOffersByUrl url with
      | .error err =>
        SearchCars.loop GetOffersByUrl carBrandId modelIDs maxPages fuel (page + 1)
          { st with output := st.output ++ [Event.failed page err] }
      | .ok offersOnPage =>
        let st := { st with allOffers := st.allOffers ++ offersOnPage }
        if offersOnPage.length = 0 then
          { st with output := st.output ++ [Event.stopping page] }
        else SearchCars.loop GetOffersByUrl carBrandId modelIDs maxPages fuel (page + 1) st
    else st

/-- The function `SearchCars`: the offers, the error (always `nil`, here
`none`), and what was printed. -/
def SearchCars (lower : Char → Char) (GetOffersByUrl : Str → Except Str (List Offer))
    (maxPages : Int) (brand model : Str) : List Offer × Option Str × List Event :=
  let carBrandId := BrandNameToID lower brand
  let modelIDs := ModelNameToIDs lower model
  let st := SearchCars.loop GetOffersByUrl carBrandId modelIDs maxPages maxPages.toNat 1
    { allOffers := [], output := [] }
  (st.allOffers, none, st.output)

/-! ## Definitions used to state the properties -/

/-- The pattern has no capturing group. -/
def Regex.groupFree : Regex → Bool
  | .lit _ => true
  | .cls _ => true
  | .cat a b => a.groupFree && b.groupFree
  | .alt a b => a.groupFree && b.groupFree
  | .star a => a.groupFree
  | .opt a => a.groupFree
  | .group _ _ => false

/-- The four texts the currency group can hold. -/
def currencyTokens : List Str :=
  ["BGN".toList, "EUR".toList, "лв".toList, "лв.".toList]

/-- The text `parsePrice` builds from an amount and a currency: the spaces of
the amount replaced by commas, a space, the currency. -/
def renderPrice (amount currency : Str) : Str :=
  ReplaceAll amount " ".toList ",".toList ++ " ".toList ++ currency

/-- The currency of the match (its third text) is BGN or the Lev abbreviation,
with or without its full stop. -/
def isLevMatch (m : List Str) : Bool :=
  m.getD 2 [] = "BGN".toList || m.getD 2 [] = "лв".toList || m.getD 2 [] = "лв.".toList

/-- The children of a node. -/
def Node.children : Node → List Node
  | .mk _ _ _ cs => cs

/-- The attributes of a node. -/
def Node.attrs : Node → List Attribute
  | .mk _ _ attr _ => attr

/-- The value of the attribute `key`, of the last one when the key is repeated,
and the empty string when the element has no such attribute. -/
def attrValue (key : Str) (attrs : List Attribute) : Str :=
  match attrs.reverse.find? fun a => a.Key = key with
  | some a => a.Val
  | none => []

/-- A listing root: a `div` element whose `data-item` value is not empty. -/
def isListingRoot : Node → Bool
  | .mk ty data attr _ =>
    ty = .ElementNode && data = "div".toList && attrValue "data-item".toList attr ≠ []

/-- An element of any tag that carries a non-empty `data-item` attribute. -/
def hasMarker : Node → Bool
  | .mk ty _ attr _ =>
    ty = .ElementNode && attr.any fun a => a.Key = "data-item".toList && a.Val ≠ []

/-- The node at a path: the path lists the child indices from the root down. -/
def nodeAt : Node → List Nat → Option Node
  | n, [] => some n
  | n, i :: p =>
    match n.children[i]? with
    | some c => nodeAt c p
    | none => none

/-- The node at path `p` is a `root` and no node above it (at a proper initial
segment of `p`) is one. -/
def emittedAt (root : Node → Bool) (doc : Node) (p : List Nat) : Prop :=
  (∃ n, nodeAt doc p = some n ∧ root n = true) ∧
    ∀ q, q <+: p → q ≠ p → ∀ m, nodeAt doc q = some m → root m = false

/-- The detection rule with `root` as the test for a listing root: the offers
correspond, in order, to the paths `ps` in document order of exactly the nodes
that are roots and lie under no other root; each offer has the `data-item`
value of its node as `DataItem` and the `title` value as `Title`. -/
def ListingRule (root : Node → Bool) (doc : Node) : Prop :=
  ∃ ps : List (List Nat),
    ps.Pairwise (· < ·) ∧
    (∀ p, p ∈ ps ↔ emittedAt root doc p) ∧
    List.Forall₂ (fun p o => ∃ n, nodeAt doc p = some n ∧
        o.DataItem = attrValue "data-item".toList n.attrs ∧
        o.Title = attrValue "title".toList n.attrs)
      ps (ExtractAllOffers doc)

/-- The path of a child's descendant, seen from the next sibling list. -/
def bump : List Nat → List Nat
  | [] => []
  | i :: p => (i + 1) :: p

mutual
/-- The paths of the outermost listing roots below (or at) a node, in document
order. -/
def rootPaths : Node → List (List Nat)
  | .mk ty data attr children =>
    if isListingRoot (.mk ty data attr children) then [[]] else rootPaths.children children
/-- The paths of the outermost listing roots in a list of siblings. -/
def rootPaths.children : List Node → List (List Nat)
  | [] => []
  | c :: cs => (rootPaths c).map (0 :: ·) ++ (rootPaths.children cs).map bump
end

/-- A document with a single `span` that carries a `data-item` attribute. -/
def spanDoc : Node :=
  .mk .DocumentNode [] []
    [.mk .ElementNode "span".toList [⟨[], "data-item".toList, "x".toList⟩] []]

/-- The offer `findOffers` builds for a listing root. -/
def offerOf (n : Node) : Offer :=
  { DataItem := attrValue "data-item".toList n.attrs
    Title := attrValue "title".toList n.attrs
    ImageURL := findImageURL n
    ListLink := findListLink n
    Price := findPrice n }

/-- The offer `o` is the one built for the node at path `p`, and that node is a
listing root. -/
def builtAt (doc : Node) (p : List Nat) (o : Offer) : Prop :=
  ∃ n, nodeAt doc p = some n ∧ isListingRoot n = true ∧ o = offerOf n

/-- The list with its `i`-th node changed by `f`. -/
def modifyAt (f : Node → Node) : Nat → List Node → List Node
  | _, [] => []
  | 0, c :: cs => f c :: cs
  | i + 1, c :: cs => c :: modifyAt f i cs

/-- The tree with the children of the node at path `p` replaced by `new`. -/
def replaceChildrenAt (new : List Node) : List Nat → Node → Node
  | [], .mk ty data attr _ => .mk ty data attr new
  | i :: p, .mk ty data attr cs => .mk ty data attr (modifyAt (replaceChildrenAt new p) i cs)

/-- A listing `div` with another listing `div` and a listing `span` inside, next
to a second listing `div`. -/
def nestedDoc : Node :=
  .mk .DocumentNode [] []
    [.mk .ElementNode "div".toList [⟨[], "data-item".toList, "a".toList⟩]
       [.mk .ElementNode "div".toList [⟨[], "data-item".toList, "inner".toList⟩] [],
        .mk .ElementNode "span".toList [⟨[], "data-item".toList, "s".toList⟩] []],
     .mk .ElementNode "div".toList [⟨[], "data-item".toList, "b".toList⟩] []]

deriving instance DecidableEq for Except

/-- What fetching page `page` gives: the outcome of `GetOffersByUrl` on the URL
`SearchCars` builds for that page. -/
def pageResult (GetOffersByUrl : Str → Except Str (List Offer)) (carBrandId : CarBrand)
    (modelIDs : List Str) (page : Int) : Except Str (List Offer) :=
  GetOffersByUrl (calcUrl carBrandId page modelIDs)

/-- The listings a page contributes: its offers, and nothing for a failed fetch. -/
def listingsOf : Except Str (List Offer) → List Offer
  | .ok offers => offers
  | .error _ => []

/-- The page numbers that were requested, in order: one per `scraping` event. -/
def scrapedPages : List Event → List Int
  | [] => []
  | .scraping page _ :: rest => page :: scrapedPages rest
  | _ :: rest => scrapedPages rest

/-- An offer that carries only an identifier. -/
def sampleOffer (id : Str) : Offer :=
  { DataItem := id, Title := [], ImageURL := [], ListLink := [], Price := [] }

/-- A network for the examples, for the search without brand and model: page
`emptyPage` has no offers, page `failPage` cannot be fetched, and every other
page has one offer, identified by the URL of the page. -/
def sampleNet (emptyPage failPage : Int) (url : Str) : Except Str (List Offer) :=
  if url = calcUrl 0 emptyPage [] then .ok []
  else if url = calcUrl 0 failPage [] then .error "timeout".toList
  else .ok [sampleOffer url]

mutual
/-- The nodes of a subtree in document order (depth-first, a node before its
children). -/
def preorder : Node → List Node
  | .mk ty data attr children => .mk ty data attr children :: preorder.children children
/-- The nodes of a list of sibling subtrees in document order. -/
def preorder.children : List Node → List Node
  | [] => []
  | c :: cs => preorder c ++ preorder.children cs
end

/-- No listing root of the document lies inside another one. -/
def nonNested (doc : Node) : Prop :=
  ∀ n ∈ preorder doc, isListingRoot n = true →
    ∀ m ∈ preorder.children n.children, isListingRoot m = false

/-- A price element: an `h6` with a class attribute that holds the four class
names. -/
def isPriceElement : Node → Bool
  | .mk ty data attr _ => ty = .ElementNode && data = "h6".toList && attr.any isPriceClass

/-- An image element: a `div` with a `style` attribute that mentions
`background-image`. -/
def isImageElement : Node → Bool
  | .mk ty data attr _ =>
    ty = .ElementNode && data = "div".toList &&
      attr.any fun a => a.Key = "style".toList && Contains a.Val "background-image".toList

/-- A link element: an `a` with a `list-link` attribute. -/
def isLinkElement : Node → Bool
  | .mk ty data attr _ =>
    ty = .ElementNode && data = "a".toList && attr.any fun a => a.Key = "list-link".toList

/-- A listing `div` with the given identifier and children. -/
def listingDiv (id : String) (children : List Node) : Node :=
  .mk .ElementNode "div".toList [⟨[], "data-item".toList, id.toList⟩] children

/-- The sub-elements of a full listing: price, image and link. -/
def fullFields : List Node :=
  [.mk .ElementNode "h6".toList
      [⟨[], "class".toList,
        "card__title mdc-typography mdc-typography--headline6 price".toList⟩]
      [.mk .TextNode "12 500 лв.".toList [] []],
   .mk .ElementNode "div".toList
      [⟨[], "style".toList, "background-image: url('/img/1.jpg')".toList⟩] [],
   .mk .ElementNode "a".toList [⟨[], "list-link".toList, "/offer/1".toList⟩] []]

/-- A page with three listings; the third has no sub-elements. -/
def threeListings : Node :=
  .mk .DocumentNode [] []
    [.mk .ElementNode "body".toList []
      [listingDiv "d1" fullFields, listingDiv "d2" fullFields, listingDiv "d3" []]]

/-- A digit group of an amount: a separator and three digits. -/
def renderGroup (g : Char × Char × Char × Char) : Str :=
  [g.1, g.2.1, g.2.2.1, g.2.2.2]

/-- The fraction of an amount: nothing, or a full stop and two digits. -/
def renderFraction : Option (Char × Char) → Str
  | none => []
  | some (a, b) => ['.', a, b]

/-- An amount: leading digits, then digit groups, then the fraction. -/
def amountText (ds : Str) (groups : List (Char × Char × Char × Char))
    (frac : Option (Char × Char)) : Str :=
  ds ++ (groups.flatMap renderGroup ++ renderFraction frac)

/-- The leading digits, the groups and the fraction are made of digits, there
is at least one leading digit, and every group starts with a separator. -/
def validAmount (ds : Str) (groups : List (Char × Char × Char × Char))
    (frac : Option (Char × Char)) : Prop :=
  ds ≠ [] ∧ (∀ c ∈ ds, isDigit c = true) ∧
    (∀ g ∈ groups, isSeparator g.1 = true ∧ isDigit g.2.1 = true ∧ isDigit g.2.2.1 = true ∧
      isDigit g.2.2.2 = true) ∧
    ∀ f, frac = some f → isDigit f.1 = true ∧ isDigit f.2 = true

/-- A canonical price: leading digits, groups of three digits after a comma, an
optional fraction of two digits, a space and the currency. -/
def canonicalPrice (ds : Str) (groups : List (Char × Char × Char))
    (frac : Option (Char × Char)) (cur : Str) : Str :=
  amountText ds (groups.map fun g => (',', g)) frac ++ ' ' :: cur

/-- The three kinds of whitespace the price sentinel is stated for: space, tab
and newline. -/
def isPlainSpace (c : Char) : Bool := c = ' ' || c = '\t' || c = '\n'

/-- Whether `parsePrice` leaves through its test `price == ""`. -/
def shortCircuits (rawPrice : Str) : Bool := cleanPrice rawPrice = []

/-- The sentinel of `parsePrice`. -/
def priceNotAvailable : Str := "Price not available".toList

/-- Lower-casing of the ASCII letters, the part of `unicode.ToLower` that the
examples use. -/
def asciiLower (c : Char) : Char :=
  if 'A' ≤ c ∧ c ≤ 'Z' then Char.ofNat (c.toNat + 32) else c

/-- The lower-cased brand names that `BrandNameToID` knows. -/
def knownBrands : List Str :=
  ["bmw".toList, "audi".toList, "vw".toList, "volkswagen".toList]

/-- The lower-cased model names that `ModelNameToIDs` knows. -/
def knownModels : List Str :=
  ["5series".toList, "5-series".toList, "5".toList]

/-- The kind of a node. -/
def Node.type : Node → NodeType
  | .mk ty _ _ _ => ty

/-- The text nodes of the subtree have no children, as in every tree that
`html.Parse` builds. -/
def textLeaves (n : Node) : Prop :=
  ∀ m ∈ preorder n, m.type = .TextNode → m.children.isEmpty = true

/-- The text `findPrice` would hand to `parsePrice` if the first price element
in document order decided alone: its text content, or the empty text when the
subtree has no price element. -/
def firstPriceText (n : Node) : Str :=
  match (preorder n).find? isPriceElement with
  | some m => getTextContent m
  | none => []

/-- A price element whose text content is not empty. -/
def isFilledPriceElement (m : Node) : Bool :=
  isPriceElement m && !(getTextContent m).isEmpty

/-- The text content of the first price element in document order whose text
content is not empty, or the empty text when there is none. -/
def firstFilledPriceText (l : List Node) : Str :=
  match l.find? isFilledPriceElement with
  | some m => getTextContent m
  | none => []

/-- A price element with the given children. -/
def priceElement (children : List Node) : Node :=
  .mk .ElementNode "h6".toList
    [⟨[], "class".toList, "card__title mdc-typography mdc-typography--headline6 price".toList⟩]
    children

/-- A listing whose first price element is empty and whose second is not. -/
def emptyFirstPrice : Node :=
  listingDiv "d1" [priceElement [], priceElement [.mk .TextNode "100 лв.".toList [] []]]

/-- The class `[^'")]`. -/
def isUrlRune (c : Char) : Bool := !(isQuote c || c = ')')

/-- The test of `findImageURL` on one attribute of a `div`. -/
def isStyleImage (a : Attribute) : Bool :=
  a.Key = "style".toList && Contains a.Val "background-image".toList

/-- The style `background-image: url(X)`, with `X` between the quotes `q`. -/
def backgroundImage (q X : Str) : Str :=
  "background-image: ".toList ++ ("url(".toList ++ (q ++ (X ++ (q ++ [')']))))

/-- The text has no newline, no tab and no two consecutive spaces, and neither
begins nor ends with a space. -/
def whitespaceNormal (r : Str) : Prop :=
  '\n' ∉ r ∧ '\t' ∉ r ∧ Contains r "  ".toList = false ∧ r.head? ≠ some ' ' ∧
    r.getLast? ≠ some ' '

/-! ## The command `!cars` -/

/-- The digit loop of `strconv.Atoi`: the value of a run of decimal digits, or
nothing when a rune is not a digit. -/
def parseDigits : Str → Nat → Option Nat
  | [], n => some n
  | ch :: s, n => if isDigit ch then parseDigits s (n * 10 + (ch.toNat - 48)) else none

/-- Go's `strconv.Atoi`: an optional sign and decimal digits, within the range
of a 64-bit `int`; `none` stands for the error. -/
def Atoi (s : Str) : Option Int :=
  let neg := s.head? = some '-'
  let body := if s.head? = some '-' ∨ s.head? = some '+' then s.tail else s
  if body = [] then none
  else
    match parseDigits body 0 with
    | none => none
    | some n =>
      let v : Int := if neg then -(n : Int) else n
      if -9223372036854775808 ≤ v ∧ v ≤ 9223372036854775807 then some v else none

/-- The function `CarsCommand`, as the three values it hands to
`searchAndSendResults` (and to the message it returns): brand, model and page
count. -/
def CarsCommand (args : List Str) : Str × Str × Int :=
  let brand := if args.length ≥ 1 then args.getD 0 [] else []
  let model := if args.length ≥ 2 then args.getD 1 [] else []
  let maxPages : Int :=
    if args.length ≥ 3 then
      match Atoi (args.getD 2 []) with
      | some pages => if pages > 0 ∧ pages ≤ 10 then pages else 2
      | none => 2
    else 2
  (brand, model, maxPages)

/-- A value clamped to the range 1 to 10. -/
def clampPages (v : Int) : Int := max 1 (min 10 v)

/-! ## Reading a query string back -/

/-- The value of a hexadecimal digit. -/
def hexValue (c : Char) : Nat :=
  if '0' ≤ c ∧ c ≤ '9' then c.toNat - 48
  else if 'A' ≤ c ∧ c ≤ 'F' then c.toNat - 55
  else if 'a' ≤ c ∧ c ≤ 'f' then c.toNat - 87
  else 0

/-- The bytes an escaped text stands for, as `url.QueryUnescape` reads them:
`%XX` is the byte `XX`, `+` is a space, any other rune is itself. -/
def unescapeBytes : Str → List Nat
  | [] => []
  | '%' :: h :: l :: t => (16 * hexValue h + hexValue l) :: unescapeBytes t
  | c :: t => (if c = '+' then 32 else c.toNat) :: unescapeBytes t

/-- The code points of a UTF-8 byte sequence. -/
def utf8Decode : List Nat → Str
  | [] => []
  | [b] => [Char.ofNat b]
  | [b, b2] =>
    if b < 0x80 then Char.ofNat b :: utf8Decode [b2]
    else [Char.ofNat ((b - 0xC0) * 64 + (b2 - 0x80))]
  | [b, b2, b3] =>
    if b < 0x80 then Char.ofNat b :: utf8Decode [b2, b3]
    else if b < 0xE0 then Char.ofNat ((b - 0xC0) * 64 + (b2 - 0x80)) :: utf8Decode [b3]
    else [Char.ofNat ((b - 0xE0) * 4096 + (b2 - 0x80) * 64 + (b3 - 0x80))]
  | b :: b2 :: b3 :: b4 :: t =>
    if b < 0x80 then Char.ofNat b :: utf8Decode (b2 :: b3 :: b4 :: t)
    else if b < 0xE0 then Char.ofNat ((b - 0xC0) * 64 + (b2 - 0x80)) :: utf8Decode (b3 :: b4 :: t)
    else if b < 0xF0 then
      Char.ofNat ((b - 0xE0) * 4096 + (b2 - 0x80) * 64 + (b3 - 0x80)) :: utf8Decode (b4 :: t)
    else
      Char.ofNat ((b - 0xF0) * 262144 + (b2 - 0x80) * 4096 + (b3 - 0x80) * 64 + (b4 - 0x80)) ::
        utf8Decode t

/-- Go's `url.QueryUnescape`, on a well-formed escaped text. -/
def QueryUnescape (s : Str) : Str :=
  utf8Decode (unescapeBytes s)

/-- The text cut at the first `sep`: the part before it and the part after it
(empty when there is no `sep`). -/
def cutAt (sep : Char) : Str → Str × Str
  | [] => ([], [])
  | c :: t => if c = sep then ([], t) else ((c :: (cutAt sep t).1), (cutAt sep t).2)

/-- Go's `strings.Split` for a separator of one rune. -/
def splitOn (sep : Char) : Str → List Str
  | [] => [[]]
  | c :: t =>
    if c = sep then [] :: splitOn sep t
    else
      match splitOn sep t with
      | [] => [[c]]
      | w :: ws => (c :: w) :: ws

/-- The decoded parameters of a query string, as `url.ParseQuery` reads them, in
the order of the query: the pieces between `&`, each cut at its first `=`, key
and value unescaped. -/
def ParseQuery (query : Str) : List (Str × Str) :=
  ((splitOn '&' query).filter fun piece => !piece.isEmpty).map fun piece =>
    (QueryUnescape (cutAt '=' piece).1, QueryUnescape (cutAt '=' piece).2)

/-- The number that a text of decimal digits denotes, the most significant digit
first. -/
def digitsValue (s : Str) : Nat :=
  s.foldl (fun n c => 10 * n + (c.toNat - 48)) 0

/-- A decimal numeral of a natural number: one or more ASCII digits, the first
of them `0` only when it is the only one. -/
def isNumeral (s : Str) : Bool :=
  !s.isEmpty && s.all isDigit && (s.head? != some '0' || s.length == 1)

/-- The text is the number in decimal: the numeral of the number when it is not
negative, and a minus sign and the numeral of its absolute value when it is. -/
def isDecimalOf (s : Str) (n : Int) : Bool :=
  if n < 0 then s.head? == some '-' && isNumeral s.tail && digitsValue s.tail == n.natAbs
  else isNumeral s && digitsValue s == n.natAbs

/-- The parameters the search URL should carry for a brand, a list of model
codes and the texts of the brand and of the page: `add_search` and `brandId`
when the brand is not 0, `models[]` once per model code, `page`, and `subm` and
`typeoffer` when the brand is not 0. -/
def expectedParams (brand : CarBrand) (brandText pageText : Str) (modelIDs : List Str) :
    List (Str × Str) :=
  (if brand ≠ 0 then [("add_search".toList, "1".toList), ("brandId".toList, brandText)]
    else []) ++
  modelIDs.map (fun mid => ("models[]".toList, mid)) ++
  [("page".toList, pageText)] ++
  (if brand ≠ 0 then [("subm".toList, "1".toList), ("typeoffer".toList, "1".toList)] else [])

/-- The piece `key=value` of a query string, key and value escaped. -/
def pairText (kv : Str × Str) : Str :=
  QueryEscape kv.1 ++ '=' :: QueryEscape kv.2

/-- The separator of a group after the replacement of spaces by commas. -/
def commaGroup (g : Char × Char × Char × Char) : Char × Char × Char × Char :=
  (if g.1 = ' ' then ',' else g.1, g.2)
/-! ## Lemmas on the matcher -/

theorem head?_flatMap_of_head? {α β : Type} (f : α → List β) (l : List α) (a : α) (b : β)
    (ha : l.head? = some a) (hb : (f a).head? = some b) : (l.flatMap f).head? = some b := by
  cases l with
  | nil => simp at ha
  | cons x xs =>
    simp at ha
    subst ha
    cases h : f x with
    | nil => simp [h] at hb
    | cons y ys =>
      simp [h] at hb
      subst hb
      simp [List.flatMap, h]

theorem starLoop_suffix (f : MState → List MState)
    (hf : ∀ st st', st' ∈ f st → st'.1 <:+ st.1) :
    ∀ (n : Nat) (st st' : MState), st' ∈ starLoop f n st → st'.1 <:+ st.1 := by
  intro n
  induction n with
  | zero =>
    intro st st' h
    simp [starLoop] at h
    subst h
    exact List.suffix_refl _
  | succ n ih =>
    intro st st' h
    simp only [starLoop, List.mem_append, List.mem_flatMap, List.mem_singleton] at h
    rcases h with ⟨st1, h1, h2⟩ | h
    · exact (ih st1 st' h2).trans (hf st st1 h1)
    · subst h
      exact List.suffix_refl _

theorem run_suffix : ∀ (r : Regex) (st st' : MState), st' ∈ run r st → st'.1 <:+ st.1 := by
  intro r
  induction r with
  | lit c =>
    intro st st' h
    rcases st with ⟨s, caps⟩
    cases s with
    | nil => simp [run] at h
    | cons d t =>
      simp only [run] at h
      split at h
      · simp at h
        subst h
        exact List.suffix_cons d t
      · simp at h
  | cls p =>
    intro st st' h
    rcases st with ⟨s, caps⟩
    cases s with
    | nil => simp [run] at h
    | cons d t =>
      simp only [run] at h
      split at h
      · simp at h
        subst h
        exact List.suffix_cons d t
      · simp at h
  | cat a b iha ihb =>
    intro st st' h
    simp only [run, List.mem_flatMap] at h
    rcases h with ⟨st1, h1, h2⟩
    exact (ihb st1 st' h2).trans (iha st st1 h1)
  | alt a b iha ihb =>
    intro st st' h
    simp only [run, List.mem_append] at h
    rcases h with h | h
    · exact iha st st' h
    · exact ihb st st' h
  | star a iha =>
    intro st st' h
    simp only [run] at h
    exact starLoop_suffix (run a) iha _ st st' h
  | opt a iha =>
    intro st st' h
    simp only [run, List.mem_append, List.mem_singleton] at h
    rcases h with h | h
    · exact iha st st' h
    · subst h
      exact List.suffix_refl _
  | group i a iha =>
    intro st st' h
    simp only [run, List.mem_map] at h
    rcases h with ⟨st1, h1, h2⟩
    subst h2
    exact iha st st1 h1
theorem starLoop_caps (f : MState → List MState)
    (hf : ∀ st st', st' ∈ f st → st'.2 = st.2) :
    ∀ (n : Nat) (st st' : MState), st' ∈ starLoop f n st → st'.2 = st.2 := by
  intro n
  induction n with
  | zero =>
    intro st st' h
    simp [starLoop] at h
    rw [h]
  | succ n ih =>
    intro st st' h
    simp only [starLoop, List.mem_append, List.mem_flatMap, List.mem_singleton] at h
    rcases h with ⟨st1, h1, h2⟩ | h
    · rw [ih st1 st' h2, hf st st1 h1]
    · rw [h]

theorem run_caps : ∀ (r : Regex), r.groupFree = true →
    ∀ (st st' : MState), st' ∈ run r st → st'.2 = st.2 := by
  intro r
  induction r with
  | lit c =>
    intro _ st st' h
    rcases st with ⟨s, caps⟩
    cases s with
    | nil => simp [run] at h
    | cons d t =>
      simp only [run] at h
      split at h
      · simp at h
        rw [h]
      · simp at h
  | cls p =>
    intro _ st st' h
    rcases st with ⟨s, caps⟩
    cases s with
    | nil => simp [run] at h
    | cons d t =>
      simp only [run] at h
      split at h
      · simp at h
        rw [h]
      · simp at h
  | cat a b iha ihb =>
    intro hg st st' h
    simp only [Regex.groupFree, Bool.and_eq_true] at hg
    simp only [run, List.mem_flatMap] at h
    rcases h with ⟨st1, h1, h2⟩
    rw [ihb hg.2 st1 st' h2, iha hg.1 st st1 h1]
  | alt a b iha ihb =>
    intro hg st st' h
    simp only [Regex.groupFree, Bool.and_eq_true] at hg
    simp only [run, List.mem_append] at h
    rcases h with h | h
    · exact iha hg.1 st st' h
    · exact ihb hg.2 st st' h
  | star a iha =>
    intro hg st st' h
    simp only [Regex.groupFree] at hg
    simp only [run] at h
    exact starLoop_caps (run a) (iha hg) _ st st' h
  | opt a iha =>
    intro hg st st' h
    simp only [Regex.groupFree] at hg
    simp only [run, List.mem_append, List.mem_singleton] at h
    rcases h with h | h
    · exact iha hg st st' h
    · rw [h]
  | group i a _ =>
    intro hg
    simp [Regex.groupFree] at hg

theorem search_some (re : Regex) :
    ∀ (s start : Str) (st : MState), search re s = some (start, st) →
      matchAt re start = some st ∧ start <:+ s := by
  intro s
  induction s with
  | nil =>
    intro start st h
    simp only [search, Option.map_eq_some'] at h
    rcases h with ⟨a, ha, h⟩
    simp only [Prod.mk.injEq] at h
    rcases h with ⟨rfl, rfl⟩
    exact ⟨ha, List.suffix_refl _⟩
  | cons c t ih =>
    intro start st h
    simp only [search] at h
    split at h
    · next st0 h0 =>
      simp only [Option.some.injEq, Prod.mk.injEq] at h
      rcases h with ⟨rfl, rfl⟩
      exact ⟨h0, List.suffix_refl _⟩
    · next h0 =>
      rcases ih start st h with ⟨h1, h2⟩
      exact ⟨h1, h2.trans (List.suffix_cons c t)⟩

theorem search_none (re : Regex) :
    ∀ (s : Str), (∀ t, t <:+ s → matchAt re t = none) → search re s = none := by
  intro s
  induction s with
  | nil =>
    intro h
    simp [search, h [] (List.suffix_refl _)]
  | cons c t ih =>
    intro h
    simp only [search, h (c :: t) (List.suffix_refl _)]
    exact ih fun u hu => h u (hu.trans (List.suffix_cons c t))

theorem findAllLoop_mem (re : Regex) (ngroups : Nat) :
    ∀ (fuel : Nat) (s : Str) (adj : Bool) (m : List Str),
      m ∈ findAllLoop re ngroups fuel s adj →
      ∃ start st, matchAt re start = some st ∧ start <:+ s ∧ m = submatches ngroups start st := by
  intro fuel
  induction fuel with
  | zero =>
    intro s adj m h
    simp [findAllLoop] at h
  | succ fuel ih =>
    intro s adj m h
    simp only [findAllLoop] at h
    split at h
    · simp at h
    · next start st hs =>
      rcases search_some re s start st hs with ⟨h1, h2⟩
      have hsuf : st.1 <:+ start := by
        have := run_suffix re (start, []) st (List.mem_of_mem_head? h1)
        simpa using this
      split at h
      · have hhere : m ∈ (if (adj && decide (start.length = s.length)) = true then []
            else [submatches ngroups start st]) → m = submatches ngroups start st := by
          intro hm
          split at hm
          · simp at hm
          · simpa using hm
        split at h
        · exact ⟨start, st, h1, h2, hhere h⟩
        · next c t hst =>
          simp only [List.mem_append] at h
          rcases h with h | h
          · exact ⟨start, st, h1, h2, hhere h⟩
          · rcases ih t false m h with ⟨start', st', k1, k2, k3⟩
            refine ⟨start', st', k1, ?_, k3⟩
            have : t <:+ st.1 := by rw [hst]; exact List.suffix_cons c t
            exact k2.trans (this.trans (hsuf.trans h2))
      · simp only [List.mem_cons] at h
        rcases h with h | h
        · exact ⟨start, st, h1, h2, h⟩
        · rcases ih st.1 true m h with ⟨start', st', k1, k2, k3⟩
          exact ⟨start', st', k1, k2.trans (hsuf.trans h2), k3⟩

theorem run_cat (a b : Regex) (st : MState) :
    run (.cat a b) st = (run a st).flatMap (run b) := rfl

theorem run_alt (a b : Regex) (st : MState) : run (.alt a b) st = run a st ++ run b st := rfl

theorem run_star (a : Regex) (st : MState) :
    run (.star a) st = starLoop (run a) st.1.length st := rfl

theorem run_opt (a : Regex) (st : MState) : run (.opt a) st = run a st ++ [st] := rfl

theorem run_group (i : Nat) (a : Regex) (st : MState) :
    run (.group i a) st =
      (run a st).map fun st' => (st'.1, (i, st.1.take (st.1.length - st'.1.length)) :: st'.2) :=
  rfl

theorem run_lit_mem (c : Char) (st st' : MState) (h : st' ∈ run (.lit c) st) :
    st.1 = c :: st'.1 ∧ st'.2 = st.2 := by
  rcases st with ⟨s, caps⟩
  cases s with
  | nil => simp [run] at h
  | cons d t =>
    simp only [run] at h
    split at h
    · next hd =>
      simp at h
      subst h
      simp [hd]
    · simp at h

theorem run_cls_mem (p : Char → Bool) (st st' : MState) (h : st' ∈ run (.cls p) st) :
    ∃ c, p c = true ∧ st.1 = c :: st'.1 ∧ st'.2 = st.2 := by
  rcases st with ⟨s, caps⟩
  cases s with
  | nil => simp [run] at h
  | cons d t =>
    simp only [run] at h
    split at h
    · next hd =>
      simp at h
      subst h
      exact ⟨d, hd, rfl, rfl⟩
    · simp at h

theorem run_str_mem : ∀ (w : Str), w ≠ [] → ∀ (st st' : MState),
    st' ∈ run (Regex.str w) st → st.1 = w ++ st'.1 ∧ st'.2 = st.2 := by
  intro w
  induction w with
  | nil => intro h; exact absurd rfl h
  | cons c w ih =>
    intro _ st st' h
    cases w with
    | nil =>
      simp only [Regex.str] at h
      simpa using run_lit_mem c st st' h
    | cons d w =>
      simp only [Regex.str, run, List.mem_flatMap] at h
      rcases h with ⟨st1, h1, h2⟩
      rcases run_lit_mem c st st1 h1 with ⟨k1, k2⟩
      rcases ih (by simp) st1 st' h2 with ⟨k3, k4⟩
      rw [k1, k3, k4, k2]
      simp

theorem run_currencyPattern_mem (st st' : MState) (h : st' ∈ run currencyPattern st) :
    ∃ tok, tok ∈ currencyTokens ∧ st.1 = tok ++ st'.1 ∧ st'.2 = st.2 := by
  unfold currencyPattern at h
  rw [run_alt, run_alt, run_cat] at h
  simp only [List.mem_append, List.mem_flatMap] at h
  rcases h with h | h | ⟨st1, h1, h2⟩
  on_goal 3 =>
    rw [run_opt, List.mem_append, List.mem_singleton] at h2
    rcases h2 with h2 | h2
  · rcases run_str_mem _ (by decide) st st' h with ⟨k1, k2⟩
    exact ⟨_, by simp [currencyTokens], k1, k2⟩
  · rcases run_str_mem _ (by decide) st st' h with ⟨k1, k2⟩
    exact ⟨_, by simp [currencyTokens], k1, k2⟩
  · rcases run_str_mem _ (by decide) st st1 h1 with ⟨k1, k2⟩
    rcases run_lit_mem '.' st1 st' h2 with ⟨k3, k4⟩
    refine ⟨"лв.".toList, by simp [currencyTokens], ?_, by rw [k4, k2]⟩
    rw [k1, k3]
    rfl
  · rcases run_str_mem _ (by decide) st st1 h1 with ⟨k1, k2⟩
    subst h2
    exact ⟨_, by simp [currencyTokens], k1, k2⟩

theorem amountPattern_groupFree : amountPattern.groupFree = true := by decide

/-- Every match of `priceRegex` gives a slice of three texts: the whole match,
the amount and one of the four currency tokens. -/
theorem matchAt_priceRegex (start : Str) (st : MState) (h : matchAt priceRegex start = some st) :
    ∃ amount cur, cur ∈ currencyTokens ∧
      submatches 2 start st = [start.take (start.length - st.1.length), amount, cur] := by
  have hm := List.mem_of_mem_head? h
  unfold priceRegex at hm
  rw [run_cat, run_group] at hm
  simp only [List.mem_flatMap, List.mem_map, run_cat, run_group, run_star] at hm
  rcases hm with ⟨st1, ⟨st0, h0, rfl⟩, st2, h2, st3, h3, rfl⟩
  have c0 := run_caps amountPattern amountPattern_groupFree _ _ h0
  have c2 := starLoop_caps _ (run_caps (.cls isReSpace) rfl) _ _ _ h2
  rcases run_currencyPattern_mem _ _ h3 with ⟨tok, htok, k1, k2⟩
  refine ⟨List.take (start.length - st0.1.length) start, tok, htok, ?_⟩
  simp only [submatches, List.range, List.range.loop, List.map]
  simp [k2, c2, c0, k1, List.lookup]

theorem FindAllStringSubmatch_priceRegex_mem (s : Str) (m : List Str)
    (h : m ∈ FindAllStringSubmatch priceRegex 2 s) :
    ∃ full amount cur, cur ∈ currencyTokens ∧ m = [full, amount, cur] := by
  rcases findAllLoop_mem priceRegex 2 _ s false m h with ⟨start, st, h1, _, h3⟩
  rcases matchAt_priceRegex start st h1 with ⟨amount, cur, hc, hs⟩
  exact ⟨_, amount, cur, hc, h3.trans hs⟩

theorem preferBGN_eq_find : ∀ (l : List (List Str)),
    (∀ m ∈ l, ∃ full amount cur, cur ∈ currencyTokens ∧ m = [full, amount, cur]) →
    preferBGN l = (l.find? isLevMatch).map fun x => renderPrice (x.getD 1 []) "BGN".toList := by
  intro l
  induction l with
  | nil => intro _; rfl
  | cons m rest ih =>
    intro h
    rcases h m (List.mem_cons_self _ _) with ⟨full, amount, cur, hc, rfl⟩
    have ih' := ih fun x hx => h x (List.mem_cons_of_mem _ hx)
    simp only [currencyTokens, List.mem_cons, List.mem_singleton, List.not_mem_nil, or_false] at hc
    rcases hc with rfl | rfl | rfl | rfl
    · rfl
    · simp only [preferBGN, List.find?]
      rw [ih']
      rfl
    · rfl
    · rfl

/-- C1: when the cleaned text has at least one structured match, `parsePrice`
returns amount, space, currency built from the first match whose currency is
BGN or the Lev abbreviation (then with currency BGN), and from the first match
when there is none; the spaces of the amount are replaced by commas. -/
theorem parsePrice_tier1 (rawPrice : Str) (m : List Str) (ms : List (List Str))
    (h : FindAllStringSubmatch priceRegex 2 (cleanPrice rawPrice) = m :: ms) :
    parsePrice rawPrice =
      match (m :: ms).find? isLevMatch with
      | some x => renderPrice (x.getD 1 []) "BGN".toList
      | none => renderPrice (m.getD 1 []) (m.getD 2 []) := by
  have hne : cleanPrice rawPrice ≠ [] := by
    intro h0
    rw [h0] at h
    have h1 : FindAllStringSubmatch priceRegex 2 [] = [] := by decide
    rw [h1] at h
    exact absurd h (by simp)
  have hall : ∀ x ∈ m :: ms, ∃ full amount cur, cur ∈ currencyTokens ∧ x = [full, amount, cur] := by
    intro x hx
    rw [← h] at hx
    exact FindAllStringSubmatch_priceRegex_mem _ x hx
  have hp := preferBGN_eq_find (m :: ms) hall
  rcases hall m (List.mem_cons_self _ _) with ⟨full, amount, cur, _, rfl⟩
  unfold parsePrice
  simp only [hne, if_false, h, hp]
  cases hf : List.find? isLevMatch ([full, amount, cur] :: ms) with
  | some x => simp
  | none => simp [renderPrice]

/-- C1, the example of the specification: the Lev price is preferred to the
euro price that precedes it. -/
theorem parsePrice_tier1_witness :
    FindAllStringSubmatch priceRegex 2 (cleanPrice "1500 EUR 2700 лв".toList) =
        ["1500 EUR".toList, "1500".toList, "EUR".toList] ::
          [["2700 лв".toList, "2700".toList, "лв".toList]] ∧
      parsePrice "1500 EUR 2700 лв".toList = "2700 BGN".toList :=
  ⟨by decide,
    (parsePrice_tier1 "1500 EUR 2700 лв".toList ["1500 EUR".toList, "1500".toList, "EUR".toList]
      [["2700 лв".toList, "2700".toList, "лв".toList]] (by decide)).trans (by decide)⟩

/-- C2, as stated, fails: on the text `  12 500,00 \n BGN  ` the result of
`parsePrice` is not `12,500 BGN`. -/
theorem parsePrice_decimal_comma_counterexample :
    parsePrice "  12 500,00 \n BGN  ".toList ≠ "12,500 BGN".toList := by
  decide

/-- C2, amended: the cleaned text is `12 500,00 BGN`, its only structured match
is `00 BGN` (a comma continues an amount only before exactly three digits), and
`parsePrice` returns `00 BGN`; without the `,00` the result is `12,500 BGN`. -/
theorem parsePrice_decimal_comma :
    cleanPrice "  12 500,00 \n BGN  ".toList = "12 500,00 BGN".toList ∧
      FindAllStringSubmatch priceRegex 2 "12 500,00 BGN".toList =
        [["00 BGN".toList, "00".toList, "BGN".toList]] ∧
      parsePrice "  12 500,00 \n BGN  ".toList = "00 BGN".toList ∧
      parsePrice "  12 500 \n BGN  ".toList = "12,500 BGN".toList := by
  decide

/-! ## Lemmas on the document tree -/

theorem Node.induct (P : Node → Prop)
    (h : ∀ ty data attr cs, (∀ c ∈ cs, P c) → P (.mk ty data attr cs)) : ∀ n, P n := by
  intro n
  refine Node.rec (motive_1 := P) (motive_2 := fun cs => ∀ c ∈ cs, P c) ?_ ?_ ?_ n
  · intro ty data attr cs ih
    exact h ty data attr cs ih
  · intro c hc
    simp at hc
  · intro c cs ih1 ih2 x hx
    rcases List.mem_cons.mp hx with rfl | hx
    · exact ih1
    · exact ih2 x hx

theorem scanAttrs_eq : ∀ (attrs : List Attribute) (d t : Str),
    scanAttrs attrs (d, t) =
      (((attrs.reverse.find? fun a => a.Key = "data-item".toList).map (·.Val)).getD d,
       ((attrs.reverse.find? fun a => a.Key = "title".toList).map (·.Val)).getD t) := by
  intro attrs
  induction attrs with
  | nil => intro d t; rfl
  | cons a rest ih =>
    intro d t
    simp only [scanAttrs, ih, List.reverse_cons, List.find?_append]
    congr 1
    · cases List.find? (fun a => decide (a.Key = "data-item".toList)) rest.reverse with
      | some b => simp
      | none =>
        simp only [List.find?_cons, List.find?_nil, Option.none_or]
        split <;> simp_all
    · cases List.find? (fun a => decide (a.Key = "title".toList)) rest.reverse with
      | some b => simp
      | none =>
        simp only [List.find?_cons, List.find?_nil, Option.none_or]
        split <;> simp_all

theorem scanAttrs_attrValue (attrs : List Attribute) :
    scanAttrs attrs ([], []) =
      (attrValue "data-item".toList attrs, attrValue "title".toList attrs) := by
  rw [scanAttrs_eq]
  unfold attrValue
  congr 1
  · cases List.find? (fun a => decide (a.Key = "data-item".toList)) attrs.reverse <;> rfl
  · cases List.find? (fun a => decide (a.Key = "title".toList)) attrs.reverse <;> rfl

theorem findOffers_root (ty : NodeType) (data : Str) (attr : List Attribute) (cs : List Node)
    (offers : List Offer) (h : isListingRoot (.mk ty data attr cs) = true) :
    findOffers (.mk ty data attr cs) offers =
      offers ++ [{ DataItem := attrValue "data-item".toList attr
                   Title := attrValue "title".toList attr
                   ImageURL := findImageURL (.mk ty data attr cs)
                   ListLink := findListLink (.mk ty data attr cs)
                   Price := findPrice (.mk ty data attr cs) }] := by
  simp only [isListingRoot, Bool.and_eq_true, decide_eq_true_eq] at h
  rw [findOffers]
  simp only [scanAttrs_attrValue]
  rw [if_pos]
  exact ⟨h.1.1, h.1.2, by simpa using h.2⟩

theorem findOffers_not_root (ty : NodeType) (data : Str) (attr : List Attribute) (cs : List Node)
    (offers : List Offer) (h : isListingRoot (.mk ty data attr cs) = false) :
    findOffers (.mk ty data attr cs) offers = findOffers.children cs offers := by
  rw [findOffers]
  simp only [scanAttrs_attrValue]
  rw [if_neg]
  intro hc
  have : isListingRoot (.mk ty data attr cs) = true := by
    simp only [isListingRoot, Bool.and_eq_true, decide_eq_true_eq]
    exact ⟨⟨hc.1, hc.2.1⟩, by simpa using hc.2.2⟩
  rw [h] at this
  exact absurd this (by simp)

theorem findOffers_children_acc (cs : List Node)
    (ih : ∀ c ∈ cs, ∀ offers, findOffers c offers = offers ++ findOffers c []) :
    ∀ offers, findOffers.children cs offers = offers ++ findOffers.children cs [] := by
  induction cs with
  | nil => intro offers; simp [findOffers.children]
  | cons c cs ihc =>
    intro offers
    have hc := ih c (List.mem_cons_self _ _)
    have hcs := ihc fun x hx => ih x (List.mem_cons_of_mem _ hx)
    simp only [findOffers.children]
    rw [hcs (findOffers c offers), hcs (findOffers c []), hc offers, List.append_assoc]

theorem findOffers_acc : ∀ (n : Node) (offers : List Offer),
    findOffers n offers = offers ++ findOffers n [] := by
  intro n
  induction n using Node.induct with
  | h ty data attr cs ih =>
    intro offers
    cases hr : isListingRoot (.mk ty data attr cs) with
    | true => rw [findOffers_root _ _ _ _ _ hr, findOffers_root _ _ _ _ _ hr]; simp
    | false =>
      rw [findOffers_not_root _ _ _ _ _ hr, findOffers_not_root _ _ _ _ _ hr]
      exact findOffers_children_acc cs ih offers

theorem findOffers_children_cons (c : Node) (cs : List Node) :
    findOffers.children (c :: cs) [] = findOffers c [] ++ findOffers.children cs [] := by
  simp only [findOffers.children]
  exact findOffers_children_acc cs (fun x _ => findOffers_acc x) _

theorem emittedAt_nil (root : Node → Bool) (n : Node) :
    emittedAt root n [] ↔ root n = true := by
  constructor
  · rintro ⟨⟨m, hm, hr⟩, _⟩
    simp only [nodeAt, Option.some.injEq] at hm
    subst hm
    exact hr
  · intro h
    refine ⟨⟨n, rfl, h⟩, ?_⟩
    intro q hq hne
    exact absurd (List.prefix_nil.mp hq) hne

theorem nodeAt_cons (n : Node) (i : Nat) (p : List Nat) (c : Node) (h : n.children[i]? = some c) :
    nodeAt n (i :: p) = nodeAt c p := by
  simp only [nodeAt, h]

theorem emittedAt_cons (root : Node → Bool) (n : Node) (i : Nat) (p : List Nat) :
    emittedAt root n (i :: p) ↔
      root n = false ∧ ∃ c, n.children[i]? = some c ∧ emittedAt root c p := by
  constructor
  · rintro ⟨⟨m, hm, hr⟩, hq⟩
    refine ⟨hq [] (List.nil_prefix) (by simp) n rfl, ?_⟩
    cases hc : n.children[i]? with
    | none => simp [nodeAt, hc] at hm
    | some c =>
      refine ⟨c, rfl, ⟨m, by rw [← nodeAt_cons n i p c hc]; exact hm, hr⟩, ?_⟩
      intro q hqp hne k hk
      refine hq (i :: q) ?_ (by simpa using hne) k (by rw [nodeAt_cons n i q c hc]; exact hk)
      rcases hqp with ⟨t, rfl⟩
      exact ⟨t, rfl⟩
  · rintro ⟨hn, c, hc, ⟨m, hm, hr⟩, hq⟩
    refine ⟨⟨m, by rw [nodeAt_cons n i p c hc]; exact hm, hr⟩, ?_⟩
    intro q hqp hne k hk
    cases q with
    | nil =>
      simp only [nodeAt, Option.some.injEq] at hk
      subst hk
      exact hn
    | cons j q =>
      rcases hqp with ⟨t, ht⟩
      simp only [List.cons_append, List.cons.injEq] at ht
      rcases ht with ⟨rfl, rfl⟩
      rw [nodeAt_cons n j q c hc] at hk
      exact hq q ⟨t, rfl⟩ (by intro h; exact hne (congrArg (j :: ·) h)) k hk

theorem mem_rootPaths_children (cs : List Node)
    (ih : ∀ c ∈ cs, ∀ p, p ∈ rootPaths c ↔ emittedAt isListingRoot c p) :
    ∀ q, q ∈ rootPaths.children cs ↔
      ∃ i p c, q = i :: p ∧ cs[i]? = some c ∧ emittedAt isListingRoot c p := by
  induction cs with
  | nil =>
    intro q
    simp [rootPaths.children]
  | cons c cs ihc =>
    intro q
    have hc := ih c (List.mem_cons_self _ _)
    have hcs := ihc fun x hx => ih x (List.mem_cons_of_mem _ hx)
    simp only [rootPaths.children, List.mem_append, List.mem_map]
    constructor
    · rintro (⟨p, hp, rfl⟩ | ⟨q', hq', rfl⟩)
      · exact ⟨0, p, c, rfl, by simp, (hc p).mp hp⟩
      · rcases (hcs q').mp hq' with ⟨i, p, d, rfl, hd, he⟩
        exact ⟨i + 1, p, d, rfl, by simpa using hd, he⟩
    · rintro ⟨i, p, d, rfl, hd, he⟩
      cases i with
      | zero =>
        simp only [List.getElem?_cons_zero, Option.some.injEq] at hd
        subst hd
        exact Or.inl ⟨p, (hc p).mpr he, rfl⟩
      | succ i =>
        simp only [List.getElem?_cons_succ] at hd
        exact Or.inr ⟨i :: p, (hcs (i :: p)).mpr ⟨i, p, d, rfl, hd, he⟩, rfl⟩

theorem mem_rootPaths : ∀ (n : Node) (p : List Nat),
    p ∈ rootPaths n ↔ emittedAt isListingRoot n p := by
  intro n
  induction n using Node.induct with
  | h ty data attr cs ih =>
    intro p
    rw [rootPaths]
    cases hr : isListingRoot (.mk ty data attr cs) with
    | true =>
      simp only [if_true, List.mem_singleton]
      cases p with
      | nil => simp [emittedAt_nil, hr]
      | cons i p => simp [emittedAt_cons, hr]
    | false =>
      simp only [Bool.false_eq_true, if_false]
      rw [mem_rootPaths_children cs ih]
      cases p with
      | nil => simp [emittedAt_nil, hr]
      | cons i p =>
        rw [emittedAt_cons]
        simp only [hr, Node.children, true_and]
        constructor
        · rintro ⟨j, q, c, hjq, hc, he⟩
          simp only [List.cons.injEq] at hjq
          rcases hjq with ⟨rfl, rfl⟩
          exact ⟨c, hc, he⟩
        · rintro ⟨c, hc, he⟩
          exact ⟨i, p, c, rfl, hc, he⟩

theorem builtAt_zero (ty : NodeType) (data : Str) (attr : List Attribute) (c : Node)
    (cs : List Node) (p : List Nat) (o : Offer) (h : builtAt c p o) :
    builtAt (.mk ty data attr (c :: cs)) (0 :: p) o := by
  rcases h with ⟨n, hn, hr, ho⟩
  exact ⟨n, by simpa [nodeAt, Node.children] using hn, hr, ho⟩

theorem builtAt_bump (ty : NodeType) (data : Str) (attr : List Attribute) (c : Node)
    (cs : List Node) (i : Nat) (p : List Nat) (o : Offer)
    (h : builtAt (.mk ty data attr cs) (i :: p) o) :
    builtAt (.mk ty data attr (c :: cs)) (bump (i :: p)) o := by
  rcases h with ⟨n, hn, hr, ho⟩
  exact ⟨n, by simpa [nodeAt, Node.children, bump] using hn, hr, ho⟩

theorem rootPaths_children_ne_nil : ∀ (cs : List Node) (q : List Nat),
    q ∈ rootPaths.children cs → ∃ i p, q = i :: p := by
  intro cs q h
  rcases (mem_rootPaths_children cs (fun c _ => mem_rootPaths c) q).mp h with ⟨i, p, _, rfl, _⟩
  exact ⟨i, p, rfl⟩

theorem forall₂_rootPaths_children (ty : NodeType) (data : Str) (attr : List Attribute) :
    ∀ (cs : List Node), (∀ c ∈ cs, List.Forall₂ (builtAt c) (rootPaths c) (findOffers c [])) →
      List.Forall₂ (builtAt (.mk ty data attr cs)) (rootPaths.children cs)
        (findOffers.children cs []) := by
  intro cs
  induction cs with
  | nil =>
    intro _
    simp [rootPaths.children, findOffers.children]
  | cons c cs ihc =>
    intro ih
    have hc := ih c (List.mem_cons_self _ _)
    have hcs := ihc fun x hx => ih x (List.mem_cons_of_mem _ hx)
    rw [findOffers_children_cons, rootPaths.children]
    refine List.rel_append ?_ ?_
    · rw [List.forall₂_map_left_iff]
      exact hc.imp fun p o h => builtAt_zero ty data attr c cs p o h
    · rw [List.forall₂_map_left_iff]
      have hmem := rootPaths_children_ne_nil cs
      revert hmem hcs
      generalize rootPaths.children cs = qs
      generalize findOffers.children cs [] = os
      intro hcs
      induction hcs with
      | nil => intro _; exact List.Forall₂.nil
      | cons hab _ ih2 =>
        intro hmem
        refine List.Forall₂.cons ?_ (ih2 fun q hq => hmem q (List.mem_cons_of_mem _ hq))
        rcases hmem _ (List.mem_cons_self _ _) with ⟨i, p, rfl⟩
        exact builtAt_bump ty data attr c cs i p _ hab

theorem forall₂_rootPaths : ∀ (n : Node),
    List.Forall₂ (builtAt n) (rootPaths n) (findOffers n []) := by
  intro n
  induction n using Node.induct with
  | h ty data attr cs ih =>
    rw [rootPaths]
    cases hr : isListingRoot (.mk ty data attr cs) with
    | true =>
      rw [findOffers_root _ _ _ _ _ hr]
      simp only [if_true, List.nil_append]
      exact List.Forall₂.cons ⟨_, rfl, hr, rfl⟩ List.Forall₂.nil
    | false =>
      rw [findOffers_not_root _ _ _ _ _ hr]
      simp only [Bool.false_eq_true, if_false]
      exact forall₂_rootPaths_children ty data attr cs ih

theorem cons_lt_cons_zero (p q : List Nat) (h : p < q) : (0 :: p : List Nat) < 0 :: q :=
  List.Lex.cons h

theorem bump_lt_bump : ∀ (p q : List Nat), p < q → bump p < bump q := by
  intro p q h
  cases h with
  | nil => exact List.Lex.nil
  | cons h => exact List.Lex.cons h
  | rel h => exact List.Lex.rel (Nat.succ_lt_succ h)

theorem pairwise_rootPaths_children : ∀ (cs : List Node),
    (∀ c ∈ cs, (rootPaths c).Pairwise (· < ·)) → (rootPaths.children cs).Pairwise (· < ·) := by
  intro cs
  induction cs with
  | nil => intro _; simp [rootPaths.children]
  | cons c cs ihc =>
    intro ih
    have hc := ih c (List.mem_cons_self _ _)
    have hcs := ihc fun x hx => ih x (List.mem_cons_of_mem _ hx)
    rw [rootPaths.children, List.pairwise_append]
    refine ⟨?_, ?_, ?_⟩
    · rw [List.pairwise_map]
      exact hc.imp fun h => cons_lt_cons_zero _ _ h
    · rw [List.pairwise_map]
      exact hcs.imp fun h => bump_lt_bump _ _ h
    · intro a ha b hb
      simp only [List.mem_map] at ha hb
      rcases ha with ⟨p, _, rfl⟩
      rcases hb with ⟨q, hq, rfl⟩
      rcases rootPaths_children_ne_nil cs q hq with ⟨i, r, rfl⟩
      exact List.Lex.rel (Nat.succ_pos i)

theorem pairwise_rootPaths : ∀ (n : Node), (rootPaths n).Pairwise (· < ·) := by
  intro n
  induction n using Node.induct with
  | h ty data attr cs ih =>
    rw [rootPaths]
    split
    · simp
    · exact pairwise_rootPaths_children cs ih

/-- C3, as stated, fails: a `span` with a non-empty `data-item` attribute lies
under no other marked node, yet `ExtractAllOffers` emits no offer for it, so the
rule with "an element of any tag" does not describe the offers of `spanDoc`. -/
theorem listingRule_any_tag_counterexample :
    ExtractAllOffers spanDoc = [] ∧ emittedAt hasMarker spanDoc [0] ∧
      ¬ ListingRule hasMarker spanDoc := by
  have h0 : ExtractAllOffers spanDoc = [] := by decide
  have h1 : emittedAt hasMarker spanDoc [0] := by
    rw [emittedAt_cons]
    refine ⟨by decide, _, rfl, ?_⟩
    rw [emittedAt_nil]
    decide
  refine ⟨h0, h1, ?_⟩
  rintro ⟨ps, _, hmem, hall⟩
  rw [h0] at hall
  have hps : ps = [] := by
    cases hall
    rfl
  have := (hmem [0]).mpr h1
  rw [hps] at this
  simp at this

/-- C3, amended: for every document tree an offer is emitted for a node exactly
when the node is a `div` element whose `data-item` value (of the last such
attribute) is not empty and that lies under no other such node; the offers come
in document order, and each has that value as `DataItem` and the value of the
`title` attribute of the same element (empty if absent) as `Title`. -/
theorem listingRule_div (doc : Node) : ListingRule isListingRoot doc := by
  refine ⟨rootPaths doc, pairwise_rootPaths doc, mem_rootPaths doc, ?_⟩
  refine (forall₂_rootPaths doc).imp ?_
  rintro p o ⟨n, hn, _, rfl⟩
  exact ⟨n, hn, rfl, rfl⟩

theorem isListingRoot_children (ty : NodeType) (data : Str) (attr : List Attribute)
    (cs cs' : List Node) :
    isListingRoot (.mk ty data attr cs) = isListingRoot (.mk ty data attr cs') := rfl

theorem dataItems_modifyAt (f : Node → Node) : ∀ (cs : List Node) (i : Nat) (c : Node),
    cs[i]? = some c →
    (findOffers (f c) []).map (·.DataItem) = (findOffers c []).map (·.DataItem) →
    (findOffers.children (modifyAt f i cs) []).map (·.DataItem) =
      (findOffers.children cs []).map (·.DataItem) := by
  intro cs
  induction cs with
  | nil => intro i c h; simp at h
  | cons d cs ih =>
    intro i c h hf
    cases i with
    | zero =>
      simp only [List.getElem?_cons_zero, Option.some.injEq] at h
      subst h
      simp only [modifyAt]
      rw [findOffers_children_cons, findOffers_children_cons, List.map_append, List.map_append, hf]
    | succ i =>
      simp only [List.getElem?_cons_succ] at h
      simp only [modifyAt]
      rw [findOffers_children_cons, findOffers_children_cons, List.map_append, List.map_append,
        ih i c h hf]

theorem dataItems_replaceChildrenAt (new : List Node) : ∀ (p : List Nat) (n : Node),
    emittedAt isListingRoot n p →
    (findOffers (replaceChildrenAt new p n) []).map (·.DataItem) =
      (findOffers n []).map (·.DataItem) := by
  intro p
  induction p with
  | nil =>
    intro n h
    rw [emittedAt_nil] at h
    rcases n with ⟨ty, data, attr, cs⟩
    have h' : isListingRoot (.mk ty data attr new) = true := h
    simp only [replaceChildrenAt]
    rw [findOffers_root _ _ _ _ _ h, findOffers_root _ _ _ _ _ h']
    rfl
  | cons i p ih =>
    intro n h
    rw [emittedAt_cons] at h
    rcases h with ⟨hn, c, hc, he⟩
    rcases n with ⟨ty, data, attr, cs⟩
    have hn' : isListingRoot (.mk ty data attr (modifyAt (replaceChildrenAt new p) i cs)) = false :=
      hn
    simp only [replaceChildrenAt]
    rw [findOffers_not_root _ _ _ _ _ hn, findOffers_not_root _ _ _ _ _ hn']
    exact dataItems_modifyAt _ cs i c hc (ih c he)

/-- C4: a listing root reached by the traversal (the node `n` at a path `p` with
no listing root above it) contributes exactly one offer, whatever its subtree
holds, and the list of emitted `DataItem` values does not change when its
children are replaced by any other list of subtrees. -/
theorem findOffers_stops_at_root (doc : Node) (p : List Nat) (n : Node) (new : List Node)
    (hn : nodeAt doc p = some n) (h : emittedAt isListingRoot doc p) :
    (∀ offers, findOffers n offers = offers ++ [offerOf n]) ∧
      (ExtractAllOffers (replaceChildrenAt new p doc)).map (·.DataItem) =
        (ExtractAllOffers doc).map (·.DataItem) := by
  refine ⟨?_, dataItems_replaceChildrenAt new p doc h⟩
  rcases h with ⟨⟨m, hm, hr⟩, _⟩
  rw [hn] at hm
  simp only [Option.some.injEq] at hm
  subst hm
  rcases n with ⟨ty, data, attr, cs⟩
  intro offers
  rw [findOffers_root _ _ _ _ _ hr]
  rfl

/-- C4 on a document whose first listing `div` holds a listing `div` and a
listing `span`: one offer for it, and the same `DataItem` list once its
children are removed. -/
theorem findOffers_stops_at_root_witness :
    (ExtractAllOffers nestedDoc).map (·.DataItem) = ["a".toList, "b".toList] ∧
      (ExtractAllOffers (replaceChildrenAt [] [0] nestedDoc)).map (·.DataItem) =
        (ExtractAllOffers nestedDoc).map (·.DataItem) :=
  ⟨by decide,
    (findOffers_stops_at_root nestedDoc [0]
      (.mk .ElementNode "div".toList [⟨[], "data-item".toList, "a".toList⟩]
       [.mk .ElementNode "div".toList [⟨[], "data-item".toList, "inner".toList⟩] [],
        .mk .ElementNode "span".toList [⟨[], "data-item".toList, "s".toList⟩] []])
      [] rfl
      (by
        rw [emittedAt_cons]
        refine ⟨by decide, _, rfl, ?_⟩
        rw [emittedAt_nil]
        decide)).2⟩

/-! ## Lemmas on the page loop -/

theorem scrapedPages_append (a b : List Event) :
    scrapedPages (a ++ b) = scrapedPages a ++ scrapedPages b := by
  induction a with
  | nil => rfl
  | cons e a ih =>
    cases e <;> simp [scrapedPages, ih]

theorem range_succ_flatMap {α : Type} (f : Nat → List α) (n : Nat) :
    (List.range (n + 1)).flatMap f = f 0 ++ (List.range n).flatMap fun i => f (i + 1) := by
  rw [List.range_succ_eq_map, List.flatMap_cons, List.flatMap_map]

theorem range_succ_map {α : Type} (f : Nat → α) (n : Nat) :
    (List.range (n + 1)).map f = f 0 :: (List.range n).map fun i => f (i + 1) := by
  rw [List.range_succ_eq_map, List.map_cons, List.map_map]
  rfl

/-- The loop up to the first page that is fetched and empty, `d` pages after
`page`. -/
theorem loop_stop (fetch : Str → Except Str (List Offer)) (b : CarBrand) (ms : List Str)
    (maxPages : Int) : ∀ (d fuel : Nat) (page : Int) (st : SearchState),
    d < fuel → page + d ≤ maxPages → pageResult fetch b ms (page + d) = .ok [] →
    (∀ j : Nat, j < d → pageResult fetch b ms (page + j) ≠ .ok []) →
    (SearchCars.loop fetch b ms maxPages fuel page st).allOffers =
        st.allOffers ++ (List.range d).flatMap (fun (i : Nat) => listingsOf (pageResult fetch b ms (page + i))) ∧
      scrapedPages (SearchCars.loop fetch b ms maxPages fuel page st).output =
        scrapedPages st.output ++ (List.range (d + 1)).map fun (i : Nat) => page + (i : Int) := by
  intro d
  induction d with
  | zero =>
    intro fuel page st hf hle he _
    cases fuel with
    | zero => omega
    | succ fuel =>
      simp only [Nat.cast_zero, add_zero] at hle he
      unfold pageResult at he
      simp [SearchCars.loop, hle, he, scrapedPages_append, scrapedPages, List.range_succ]
  | succ d ih =>
    intro fuel page st hf hle he hne
    cases fuel with
    | zero => omega
    | succ fuel =>
      have hle' : page ≤ maxPages := by omega
      have h0 := hne 0 (Nat.succ_pos d)
      simp only [Nat.cast_zero, add_zero] at h0
      have hshift : ∀ i : Nat, page + 1 + (i : Int) = page + ((i + 1 : Nat) : Int) := by
        intro i; push_cast; ring
      have ih' := fun st' => ih fuel (page + 1) st' (by omega) (by push_cast at hle; omega)
        (by rw [hshift]; exact he)
        (fun j hj => by rw [hshift]; exact hne (j + 1) (by omega))
      rw [range_succ_flatMap, range_succ_map]
      simp only [Nat.cast_zero, add_zero]
      rw [SearchCars.loop, if_pos hle']
      dsimp only
      unfold pageResult at h0
      cases hr : fetch (calcUrl b page ms) with
      | error err =>
        dsimp only
        rcases ih' { allOffers := st.allOffers,
                     output := st.output ++ [Event.scraping page (calcUrl b page ms)] ++
                       [Event.failed page err] } with ⟨k1, k2⟩
        constructor
        · rw [k1]
          simp [pageResult, hr, listingsOf, hshift]
        · rw [k2]
          simp [scrapedPages_append, scrapedPages, hshift]
      | ok offersOnPage =>
        have hlen : offersOnPage.length ≠ 0 := by
          intro h
          rw [List.length_eq_zero] at h
          rw [hr, h] at h0
          exact h0 rfl
        dsimp only
        rw [if_neg hlen]
        rcases ih' { allOffers := st.allOffers ++ offersOnPage,
                     output := st.output ++ [Event.scraping page (calcUrl b page ms)] }
          with ⟨k1, k2⟩
        constructor
        · rw [k1]
          simp [pageResult, hr, listingsOf, hshift]
        · rw [k2]
          simp [scrapedPages_append, scrapedPages, hshift]

/-- The loop when no fetched page is empty: every page up to `maxPages` is
requested. -/
theorem loop_all (fetch : Str → Except Str (List Offer)) (b : CarBrand) (ms : List Str)
    (maxPages : Int) : ∀ (fuel : Nat) (page : Int) (st : SearchState),
    fuel = (maxPages + 1 - page).toNat →
    (∀ j : Nat, j < fuel → pageResult fetch b ms (page + j) ≠ .ok []) →
    (SearchCars.loop fetch b ms maxPages fuel page st).allOffers =
        st.allOffers ++
          (List.range fuel).flatMap (fun (i : Nat) => listingsOf (pageResult fetch b ms (page + i))) ∧
      scrapedPages (SearchCars.loop fetch b ms maxPages fuel page st).output =
        scrapedPages st.output ++ (List.range fuel).map fun (i : Nat) => page + (i : Int) := by
  intro fuel
  induction fuel with
  | zero =>
    intro page st _ _
    simp [SearchCars.loop]
  | succ fuel ih =>
    intro page st hf hne
    have hle' : page ≤ maxPages := by omega
    have h0 := hne 0 (Nat.succ_pos fuel)
    simp only [Nat.cast_zero, add_zero] at h0
    have hshift : ∀ i : Nat, page + 1 + (i : Int) = page + ((i + 1 : Nat) : Int) := by
      intro i; push_cast; ring
    have ih' := fun st' => ih (page + 1) st' (by omega)
      (fun j hj => by rw [hshift]; exact hne (j + 1) (by omega))
    rw [range_succ_flatMap, range_succ_map]
    simp only [Nat.cast_zero, add_zero]
    rw [SearchCars.loop, if_pos hle']
    dsimp only
    unfold pageResult at h0
    cases hr : fetch (calcUrl b page ms) with
    | error err =>
      dsimp only
      rcases ih' { allOffers := st.allOffers,
                   output := st.output ++ [Event.scraping page (calcUrl b page ms)] ++
                     [Event.failed page err] } with ⟨k1, k2⟩
      constructor
      · rw [k1]
        simp [pageResult, hr, listingsOf, hshift]
      · rw [k2]
        simp [scrapedPages_append, scrapedPages, hshift]
    | ok offersOnPage =>
      have hlen : offersOnPage.length ≠ 0 := by
        intro h
        rw [List.length_eq_zero] at h
        rw [hr, h] at h0
        exact h0 rfl
      dsimp only
      rw [if_neg hlen]
      rcases ih' { allOffers := st.allOffers ++ offersOnPage,
                   output := st.output ++ [Event.scraping page (calcUrl b page ms)] }
        with ⟨k1, k2⟩
      constructor
      · rw [k1]
        simp [pageResult, hr, listingsOf, hshift]
      · rw [k2]
        simp [scrapedPages_append, scrapedPages, hshift]

/-- C5: when page `k ≤ maxPages` is the first page whose fetch succeeds with no
listings, `SearchCars` returns the listings of the pages `1..k` in order, the
pages it requests are exactly `1, ..., k`, and the returned offers are the same
for every network that agrees on the pages `1..k`. -/
theorem SearchCars_early_termination (lower : Char → Char)
    (fetch : Str → Except Str (List Offer)) (maxPages : Int) (brand model : Str) (k : Nat)
    (hk1 : 1 ≤ k) (hk : (k : Int) ≤ maxPages)
    (hempty : pageResult fetch (BrandNameToID lower brand) (ModelNameToIDs lower model) k = .ok [])
    (hfirst : ∀ j : Nat, 1 ≤ j → j < k →
      pageResult fetch (BrandNameToID lower brand) (ModelNameToIDs lower model) j ≠ .ok []) :
    (SearchCars lower fetch maxPages brand model).1 =
        (List.range k).flatMap (fun (i : Nat) => listingsOf
          (pageResult fetch (BrandNameToID lower brand) (ModelNameToIDs lower model) ((i : Int) + 1))) ∧
      scrapedPages (SearchCars lower fetch maxPages brand model).2.2 =
        (List.range k).map (fun (i : Nat) => (i : Int) + 1) ∧
      ∀ fetch' : Str → Except Str (List Offer),
        (∀ j : Nat, 1 ≤ j → j ≤ k →
          pageResult fetch' (BrandNameToID lower brand) (ModelNameToIDs lower model) j =
            pageResult fetch (BrandNameToID lower brand) (ModelNameToIDs lower model) j) →
        (SearchCars lower fetch' maxPages brand model).1 =
          (SearchCars lower fetch maxPages brand model).1 := by
  obtain ⟨d, rfl⟩ : ∃ d, k = d + 1 := ⟨k - 1, by omega⟩
  have key : ∀ f : Str → Except Str (List Offer),
      (∀ j : Nat, 1 ≤ j → j ≤ d + 1 →
        pageResult f (BrandNameToID lower brand) (ModelNameToIDs lower model) j =
          pageResult fetch (BrandNameToID lower brand) (ModelNameToIDs lower model) j) →
      (SearchCars lower f maxPages brand model).1 =
        (List.range d).flatMap (fun (i : Nat) => listingsOf
          (pageResult fetch (BrandNameToID lower brand) (ModelNameToIDs lower model) ((i : Int) + 1))) ∧
      scrapedPages (SearchCars lower f maxPages brand model).2.2 =
        (List.range (d + 1)).map (fun (i : Nat) => (i : Int) + 1) := by
    intro f hf
    have hcast : ∀ i : Nat, (1 : Int) + (i : Int) = ((i + 1 : Nat) : Int) := by
      intro i; push_cast; ring
    have h := loop_stop f (BrandNameToID lower brand) (ModelNameToIDs lower model) maxPages d
      maxPages.toNat 1 { allOffers := [], output := [] } (by push_cast at hk; omega)
      (by push_cast at hk; omega)
      (by rw [hcast, hf (d + 1) (by omega) (by omega)]; exact hempty)
      (fun j hj => by
        rw [hcast, hf (j + 1) (by omega) (by omega)]
        exact hfirst (j + 1) (by omega) (by omega))
    simp only [SearchCars]
    rcases h with ⟨h1, h2⟩
    constructor
    · rw [h1, List.nil_append]
      refine List.flatMap_congr fun i hi => ?_
      rw [List.mem_range] at hi
      rw [hcast, hf (i + 1) (by omega) (by omega)]
      push_cast
      rfl
    · rw [h2]
      simp only [scrapedPages, List.nil_append]
      congr 1
      funext i
      ring
  have h1 := key fetch (fun _ _ _ => rfl)
  refine ⟨?_, h1.2, ?_⟩
  · rw [h1.1, List.range_succ, List.flatMap_append]
    simp only [List.flatMap_cons, List.flatMap_nil, List.append_nil]
    have : listingsOf (pageResult fetch (BrandNameToID lower brand) (ModelNameToIDs lower model)
        ((d : Int) + 1)) = [] := by
      have he := hempty
      push_cast at he
      rw [he]
      rfl
    rw [this, List.append_nil]
  · intro fetch' hf
    rw [(key fetch' hf).1, h1.1]

/-- C5, the example of the specification: with `maxPages = 5` and page 3 empty,
the offers of pages 1 to 3 are returned and pages 4 and 5 are never requested. -/
theorem SearchCars_early_termination_witness :
    (SearchCars id (sampleNet 3 100) 5 [] []).1 =
        [sampleOffer (calcUrl 0 1 []), sampleOffer (calcUrl 0 2 [])] ∧
      scrapedPages (SearchCars id (sampleNet 3 100) 5 [] []).2.2 = [1, 2, 3] := by
  have h := SearchCars_early_termination id (sampleNet 3 100) 5 [] [] 3 (by decide) (by decide)
    (by decide) (by intro j h1 h2; interval_cases j <;> decide)
  exact ⟨h.1.trans (by decide), h.2.1.trans (by decide)⟩

/-- C6: when no page among `1..maxPages` is fetched successfully with no
listings, `SearchCars` requests every page `1, ..., maxPages` and returns the
listings of the successfully fetched pages, concatenated in increasing page
order; a failed page contributes nothing. -/
theorem SearchCars_failure_isolation (lower : Char → Char)
    (fetch : Str → Except Str (List Offer)) (maxPages : Int) (brand model : Str)
    (hne : ∀ j : Nat, 1 ≤ j → (j : Int) ≤ maxPages →
      pageResult fetch (BrandNameToID lower brand) (ModelNameToIDs lower model) j ≠ .ok []) :
    (SearchCars lower fetch maxPages brand model).1 =
        (List.range maxPages.toNat).flatMap (fun (i : Nat) => listingsOf
          (pageResult fetch (BrandNameToID lower brand) (ModelNameToIDs lower model) ((i : Int) + 1))) ∧
      scrapedPages (SearchCars lower fetch maxPages brand model).2.2 =
        (List.range maxPages.toNat).map (fun (i : Nat) => (i : Int) + 1) := by
  have hcast : ∀ i : Nat, (1 : Int) + (i : Int) = ((i + 1 : Nat) : Int) := by
    intro i; push_cast; ring
  have h := loop_all fetch (BrandNameToID lower brand) (ModelNameToIDs lower model) maxPages
    maxPages.toNat 1 { allOffers := [], output := [] } (by omega)
    (fun j hj => by
      rw [hcast]
      exact hne (j + 1) (by omega) (by push_cast; omega))
  simp only [SearchCars]
  rcases h with ⟨h1, h2⟩
  constructor
  · rw [h1, List.nil_append]
    refine List.flatMap_congr fun i _ => ?_
    rw [add_comm]
  · rw [h2]
    simp only [scrapedPages, List.nil_append]
    refine List.map_congr_left fun i _ => ?_
    rw [add_comm]

/-- C6, the example of the specification: with `maxPages = 3` and a failure on
page 2 only, the result is the offers of page 1 followed by those of page 3. -/
theorem SearchCars_failure_isolation_witness :
    (SearchCars id (sampleNet 100 2) 3 [] []).1 =
        [sampleOffer (calcUrl 0 1 []), sampleOffer (calcUrl 0 3 [])] ∧
      scrapedPages (SearchCars id (sampleNet 100 2) 3 [] []).2.2 = [1, 2, 3] := by
  have h := SearchCars_failure_isolation id (sampleNet 100 2) 3 [] []
    (by
      intro j h1 h2
      have h3 : j ≤ 3 := by omega
      interval_cases j <;> decide)
  exact ⟨h.1.trans (by decide), h.2.trans (by decide)⟩

theorem findPrice_children_none (cs : List Node)
    (ih : ∀ c ∈ cs, (∀ m ∈ preorder c, isPriceElement m = false) →
      ∀ price, findPrice.f c price = price) :
    (∀ m ∈ preorder.children cs, isPriceElement m = false) →
      ∀ price, findPrice.children cs price = price := by
  induction cs with
  | nil => intro _ price; rfl
  | cons c cs ihc =>
    intro h price
    simp only [preorder.children, List.mem_append] at h
    have hc := ih c (List.mem_cons_self _ _) (fun m hm => h m (Or.inl hm))
    have hcs := ihc (fun x hx => ih x (List.mem_cons_of_mem _ hx)) (fun m hm => h m (Or.inr hm))
    simp only [findPrice.children]
    rw [hcs, hc]
    simp

theorem findPrice_f_none : ∀ (n : Node), (∀ m ∈ preorder n, isPriceElement m = false) →
    ∀ price, findPrice.f n price = price := by
  intro n
  induction n using Node.induct with
  | h ty data attr cs ih =>
    intro h price
    simp only [preorder, List.mem_cons] at h
    have h0 := h _ (Or.inl rfl)
    rw [findPrice.f, if_neg]
    · exact findPrice_children_none cs ih (fun m hm => h m (Or.inr hm)) price
    · intro hc
      simp [isPriceElement, hc.1, hc.2.1, hc.2.2] at h0

theorem findImageURL_attrs_none : ∀ (attrs : List Attribute),
    (attrs.any fun a => a.Key = "style".toList && Contains a.Val "background-image".toList) = false →
    findImageURL.attrs attrs = none := by
  intro attrs
  induction attrs with
  | nil => intro _; rfl
  | cons a rest ih =>
    intro h
    simp only [List.any_cons, Bool.or_eq_false_iff, Bool.and_eq_false_imp, decide_eq_true_eq] at h
    rw [findImageURL.attrs, if_neg]
    · exact ih h.2
    · intro hc
      have := h.1 hc.1
      rw [hc.2] at this
      exact absurd this (by simp)

theorem findImageURL_children_none (cs : List Node)
    (ih : ∀ c ∈ cs, (∀ m ∈ preorder c, isImageElement m = false) →
      ∀ url, findImageURL.f c url = url) :
    (∀ m ∈ preorder.children cs, isImageElement m = false) →
      ∀ url, findImageURL.children cs url = url := by
  induction cs with
  | nil => intro _ url; rfl
  | cons c cs ihc =>
    intro h url
    simp only [preorder.children, List.mem_append] at h
    have hc := ih c (List.mem_cons_self _ _) (fun m hm => h m (Or.inl hm))
    have hcs := ihc (fun x hx => ih x (List.mem_cons_of_mem _ hx)) (fun m hm => h m (Or.inr hm))
    simp only [findImageURL.children]
    rw [hcs, hc]
    simp

theorem findImageURL_f_none : ∀ (n : Node), (∀ m ∈ preorder n, isImageElement m = false) →
    ∀ url, findImageURL.f n url = url := by
  intro n
  induction n using Node.induct with
  | h ty data attr cs ih =>
    intro h url
    simp only [preorder, List.mem_cons] at h
    have h0 := h _ (Or.inl rfl)
    have hcs := findImageURL_children_none cs ih (fun m hm => h m (Or.inr hm)) url
    rw [findImageURL.f]
    split
    · next hc =>
      have hattr : findImageURL.attrs attr = none := by
        apply findImageURL_attrs_none
        simpa [isImageElement, hc.1, hc.2] using h0
      rw [hattr]
      exact hcs
    · exact hcs

theorem findListLink_children_none (cs : List Node)
    (ih : ∀ c ∈ cs, (∀ m ∈ preorder c, isLinkElement m = false) →
      ∀ link, findListLink.f c link = link) :
    (∀ m ∈ preorder.children cs, isLinkElement m = false) →
      ∀ link, findListLink.children cs link = link := by
  induction cs with
  | nil => intro _ link; rfl
  | cons c cs ihc =>
    intro h link
    simp only [preorder.children, List.mem_append] at h
    have hc := ih c (List.mem_cons_self _ _) (fun m hm => h m (Or.inl hm))
    have hcs := ihc (fun x hx => ih x (List.mem_cons_of_mem _ hx)) (fun m hm => h m (Or.inr hm))
    simp only [findListLink.children]
    rw [hcs, hc]
    simp

theorem findListLink_f_none : ∀ (n : Node), (∀ m ∈ preorder n, isLinkElement m = false) →
    ∀ link, findListLink.f n link = link := by
  intro n
  induction n using Node.induct with
  | h ty data attr cs ih =>
    intro h link
    simp only [preorder, List.mem_cons] at h
    have h0 := h _ (Or.inl rfl)
    have hcs := findListLink_children_none cs ih (fun m hm => h m (Or.inr hm)) link
    rw [findListLink.f]
    split
    · next hc =>
      have hfind : (attr.find? fun a => decide (a.Key = "list-link".toList)) = none := by
        rw [List.find?_eq_none]
        intro a ha
        have : (attr.any fun a => decide (a.Key = "list-link".toList)) = false := by
          simpa [isLinkElement, hc.1, hc.2] using h0
        rw [List.any_eq_false] at this
        exact this a ha
      rw [hfind]
      exact hcs
    · exact hcs

theorem mem_preorder_self (n : Node) : n ∈ preorder n := by
  rcases n with ⟨ty, data, attr, cs⟩
  simp [preorder]

theorem findOffers_children_flat (cs : List Node)
    (ih : ∀ c ∈ cs, (∀ n ∈ preorder c, isListingRoot n = true →
        ∀ m ∈ preorder.children n.children, isListingRoot m = false) →
      findOffers c [] = ((preorder c).filter isListingRoot).map offerOf) :
    (∀ n ∈ preorder.children cs, isListingRoot n = true →
        ∀ m ∈ preorder.children n.children, isListingRoot m = false) →
      findOffers.children cs [] = ((preorder.children cs).filter isListingRoot).map offerOf := by
  induction cs with
  | nil => intro _; rfl
  | cons c cs ihc =>
    intro h
    simp only [preorder.children, List.mem_append] at h
    have hc := ih c (List.mem_cons_self _ _) (fun n hn => h n (Or.inl hn))
    have hcs := ihc (fun x hx => ih x (List.mem_cons_of_mem _ hx)) (fun n hn => h n (Or.inr hn))
    rw [findOffers_children_cons, hc, hcs, preorder.children, List.filter_append, List.map_append]

theorem findOffers_flat : ∀ (doc : Node), nonNested doc →
    findOffers doc [] = ((preorder doc).filter isListingRoot).map offerOf := by
  intro doc
  unfold nonNested
  induction doc using Node.induct with
  | h ty data attr cs ih =>
    intro h
    cases hr : isListingRoot (.mk ty data attr cs) with
    | true =>
      have hin := h _ (mem_preorder_self _) hr
      simp only [Node.children] at hin
      have hnil : (preorder.children cs).filter isListingRoot = [] := by
        rw [List.filter_eq_nil_iff]
        intro m hm
        rw [hin m hm]
        simp
      rw [findOffers_root _ _ _ _ _ hr, preorder, List.filter_cons_of_pos hr, hnil]
      rfl
    | false =>
      rw [findOffers_not_root _ _ _ _ _ hr, preorder, List.filter_cons_of_neg (by simp [hr])]
      refine findOffers_children_flat cs ih ?_
      intro n hn
      exact h n (by rw [preorder]; exact List.mem_cons_of_mem _ hn)

/-- C7: when no listing root of the document lies inside another, the offers are
exactly those of the listing roots in document order, one each, with the
`data-item` values in that order; and a listing root whose subtree has no price,
image or link element gets the price `Price not available`, an empty image URL
and an empty link. -/
theorem ExtractAllOffers_document_order (doc : Node) (hflat : nonNested doc) :
    ExtractAllOffers doc = ((preorder doc).filter isListingRoot).map offerOf ∧
      (ExtractAllOffers doc).map (·.DataItem) =
        ((preorder doc).filter isListingRoot).map (fun n => attrValue "data-item".toList n.attrs) ∧
      ∀ n ∈ (preorder doc).filter isListingRoot,
        (∀ m ∈ preorder n,
          isPriceElement m = false ∧ isImageElement m = false ∧ isLinkElement m = false) →
        (offerOf n).Price = "Price not available".toList ∧ (offerOf n).ImageURL = [] ∧
          (offerOf n).ListLink = [] := by
  have h := findOffers_flat doc hflat
  refine ⟨h, ?_, ?_⟩
  · unfold ExtractAllOffers
    rw [h, List.map_map]
    rfl
  · intro n _ hn
    refine ⟨?_, ?_, ?_⟩
    · show parsePrice (findPrice.f n []) = _
      rw [findPrice_f_none n (fun m hm => (hn m hm).1)]
      decide
    · exact findImageURL_f_none n (fun m hm => (hn m hm).2.1) []
    · exact findListLink_f_none n (fun m hm => (hn m hm).2.2) []

/-- C7, the example of the specification: three listing `div`s, the third
without sub-elements, give three offers in document order, the third with the
default fields. -/
theorem ExtractAllOffers_document_order_witness :
    (ExtractAllOffers threeListings).map (·.DataItem) = ["d1".toList, "d2".toList, "d3".toList] ∧
      (ExtractAllOffers threeListings).map (·.Price) =
        ["12,500 BGN".toList, "12,500 BGN".toList, "Price not available".toList] ∧
      (ExtractAllOffers threeListings).map (·.ImageURL) = ["/img/1.jpg".toList, "/img/1.jpg".toList, []] ∧
      (ExtractAllOffers threeListings).map (·.ListLink) = ["/offer/1".toList, "/offer/1".toList, []] := by
  have h := ExtractAllOffers_document_order threeListings (by unfold nonNested; decide)
  refine ⟨h.2.1.trans (by decide), ?_, ?_, ?_⟩
  · rw [h.1]; decide
  · rw [h.1]; decide
  · rw [h.1]; decide

/-! ## Lemmas on the strings functions -/

theorem HasPrefix_iff : ∀ (s sub : Str), HasPrefix s sub = true ↔ sub <+: s := by
  intro s
  induction s with
  | nil =>
    intro sub
    cases sub with
    | nil => simp [HasPrefix]
    | cons d sub => simp [HasPrefix]
  | cons c s ih =>
    intro sub
    cases sub with
    | nil => simp [HasPrefix]
    | cons d sub =>
      simp only [HasPrefix, Bool.and_eq_true, beq_iff_eq, ih, List.cons_prefix_cons]
      exact and_congr_left fun _ => eq_comm

theorem Contains_iff : ∀ (s sub : Str), Contains s sub = true ↔ sub <:+: s := by
  intro s
  induction s with
  | nil =>
    intro sub
    simp only [Contains, HasPrefix_iff, List.prefix_nil, List.infix_nil]
  | cons c s ih =>
    intro sub
    simp only [Contains, Bool.or_eq_true, HasPrefix_iff, ih, List.infix_cons_iff]

theorem Contains_of_suffix (s t sub : Str) (hts : t <:+ s) (h : Contains t sub = true) :
    Contains s sub = true := by
  rw [Contains_iff] at h ⊢
  exact h.trans hts.isInfix

theorem Contains_false_of_suffix (s t sub : Str) (hts : t <:+ s) (h : Contains s sub = false) :
    Contains t sub = false := by
  cases ht : Contains t sub with
  | false => rfl
  | true =>
    rw [Contains_of_suffix s t sub hts ht] at h
    exact absurd h (by simp)

theorem run_amountPattern_nil (t : Str) (caps : Caps)
    (h : ∀ c r, t = c :: r → isDigit c = false) : run amountPattern (t, caps) = [] := by
  unfold amountPattern Regex.plus
  rw [run_cat, run_cat]
  cases t with
  | nil => simp [run]
  | cons c r => simp [run, h c r rfl]

theorem findAllLoop_none (re : Regex) (ngroups : Nat) (fuel : Nat) (s : Str) (adj : Bool)
    (h : search re s = none) : findAllLoop re ngroups fuel s adj = [] := by
  cases fuel with
  | zero => rfl
  | succ fuel => simp [findAllLoop, h]

theorem search_none_of_run_nil (re : Regex) (s : Str)
    (h : ∀ t, t <:+ s → run re (t, []) = []) : search re s = none := by
  apply search_none
  intro t ht
  simp [matchAt, h t ht]

theorem not_digit_of_suffix (s t : Str) (hts : t <:+ s) (h : ∀ c ∈ s, isDigit c = false) :
    ∀ c r, t = c :: r → isDigit c = false := by
  intro c r ht
  apply h
  apply hts.subset
  rw [ht]
  exact List.mem_cons_self _ _

/-- A match of `priceRegex` holds a currency token. -/
theorem run_priceRegex_token (t : Str) (caps : Caps) (st : MState)
    (h : st ∈ run priceRegex (t, caps)) : ∃ tok ∈ currencyTokens, Contains t tok = true := by
  unfold priceRegex at h
  rw [run_cat] at h
  simp only [List.mem_flatMap] at h
  rcases h with ⟨st1, h1, h⟩
  rw [run_cat] at h
  simp only [List.mem_flatMap] at h
  rcases h with ⟨st2, h2, h3⟩
  rw [run_group] at h3
  simp only [List.mem_map] at h3
  rcases h3 with ⟨st3, h3, _⟩
  rcases run_currencyPattern_mem _ _ h3 with ⟨tok, htok, k1, _⟩
  refine ⟨tok, htok, ?_⟩
  have s1 := run_suffix _ _ _ h1
  have s2 := run_suffix _ _ _ h2
  rw [Contains_iff]
  have : tok <:+: st2.1 := by
    rw [k1]
    exact (List.prefix_append _ _).isInfix
  exact this.trans (s2.trans s1).isInfix

theorem run_priceRegex_nil_of_no_token (t : Str) (caps : Caps)
    (h : ∀ tok ∈ currencyTokens, Contains t tok = false) : run priceRegex (t, caps) = [] := by
  cases hr : run priceRegex (t, caps) with
  | nil => rfl
  | cons st rest =>
    rcases run_priceRegex_token t caps st (by rw [hr]; exact List.mem_cons_self _ _)
      with ⟨tok, htok, hc⟩
    rw [h tok htok] at hc
    exact absurd hc (by simp)

theorem run_currencyPattern_nil_of_no_token (t : Str) (caps : Caps)
    (h : ∀ tok ∈ currencyTokens, Contains t tok = false) :
    run currencyRegex (t, caps) = [] := by
  cases hr : run currencyRegex (t, caps) with
  | nil => rfl
  | cons st rest =>
    have hm : st ∈ run currencyRegex (t, caps) := by rw [hr]; exact List.mem_cons_self _ _
    unfold currencyRegex at hm
    rw [run_group] at hm
    simp only [List.mem_map] at hm
    rcases hm with ⟨st3, h3, _⟩
    rcases run_currencyPattern_mem _ _ h3 with ⟨tok, htok, k1, _⟩
    have : Contains t tok = true := by
      rw [Contains_iff]
      simp only at k1
      rw [k1]
      exact (List.prefix_append _ _).isInfix
    rw [h tok htok] at this
    exact absurd this (by simp)

/-- When the text holds none of `BGN`, `EUR`, `лв`, it holds no currency token. -/
theorem no_token (p : Str) (h1 : Contains p "BGN".toList = false)
    (h2 : Contains p "EUR".toList = false) (h3 : Contains p "лв".toList = false) :
    ∀ tok ∈ currencyTokens, Contains p tok = false := by
  intro tok htok
  simp only [currencyTokens, List.mem_cons, List.mem_singleton, List.not_mem_nil, or_false] at htok
  rcases htok with rfl | rfl | rfl | rfl
  · exact h1
  · exact h2
  · exact h3
  · cases hc : Contains p "лв.".toList with
    | false => rfl
    | true =>
      rw [Contains_iff] at hc
      have : Contains p "лв".toList = true := by
        rw [Contains_iff]
        exact (List.IsPrefix.isInfix ⟨['.'], rfl⟩).trans hc
      rw [h3] at this
      exact absurd this (by simp)

theorem FindAll_nil_of_run_nil (re : Regex) (ngroups : Nat) (s : Str)
    (h : ∀ t, t <:+ s → run re (t, []) = []) : FindAllStringSubmatch re ngroups s = [] :=
  findAllLoop_none re ngroups _ s false (search_none_of_run_nil re s h)

/-- C9: when the cleaned text is not empty and holds no decimal digit, or holds
none of the currency tokens `BGN`, `EUR`, `лв`, `parsePrice` returns the
cleaned text. -/
theorem parsePrice_tier3 (rawPrice : Str) (hne : cleanPrice rawPrice ≠ [])
    (h : (∀ c ∈ cleanPrice rawPrice, isDigit c = false) ∨
      (Contains (cleanPrice rawPrice) "BGN".toList = false ∧
        Contains (cleanPrice rawPrice) "EUR".toList = false ∧
        Contains (cleanPrice rawPrice) "лв".toList = false)) :
    parsePrice rawPrice = cleanPrice rawPrice := by
  unfold parsePrice
  simp only [hne, if_false]
  rcases h with h | ⟨h1, h2, h3⟩
  · have hp : FindAllStringSubmatch priceRegex 2 (cleanPrice rawPrice) = [] := by
      apply FindAll_nil_of_run_nil
      intro t ht
      unfold priceRegex
      rw [run_cat, run_group, run_amountPattern_nil t [] (not_digit_of_suffix _ t ht h)]
      rfl
    have hn : FindAllString numberRegex 1 (cleanPrice rawPrice) = [] := by
      unfold FindAllString
      rw [FindAll_nil_of_run_nil]
      · rfl
      · intro t ht
        unfold numberRegex
        rw [run_group, run_amountPattern_nil t [] (not_digit_of_suffix _ t ht h)]
        rfl
    rw [hp, hn]
  · have hno := no_token _ h1 h2 h3
    have hp : FindAllStringSubmatch priceRegex 2 (cleanPrice rawPrice) = [] := by
      apply FindAll_nil_of_run_nil
      intro t ht
      exact run_priceRegex_nil_of_no_token t []
        fun tok htok => Contains_false_of_suffix _ t tok ht (hno tok htok)
    have hc : FindAllString currencyRegex 1 (cleanPrice rawPrice) = [] := by
      unfold FindAllString
      rw [FindAll_nil_of_run_nil]
      · rfl
      · intro t ht
        exact run_currencyPattern_nil_of_no_token t []
          fun tok htok => Contains_false_of_suffix _ t tok ht (hno tok htok)
    rw [hp, hc]
    simp only []
    split <;> first | rfl | simp_all

/-- C9 on a text without digits and on a text with digits but no currency
token. -/
theorem parsePrice_tier3_witness :
    parsePrice "  call \t\n us ".toList = "call us".toList ∧
      parsePrice "12 500 USD".toList = "12 500 USD".toList :=
  ⟨(parsePrice_tier3 "  call \t\n us ".toList (by decide) (Or.inl (by decide))).trans (by decide),
    (parsePrice_tier3 "12 500 USD".toList (by decide) (Or.inr (by decide))).trans (by decide)⟩

theorem starLoop_ne_nil (f : MState → List MState) (n : Nat) (st : MState) :
    starLoop f n st ≠ [] := by
  cases n with
  | zero => simp [starLoop]
  | succ n => simp [starLoop]

theorem flatMap_ne_nil {α β : Type} (f : α → List β) (l : List α) (hl : l ≠ [])
    (hf : ∀ a, f a ≠ []) : l.flatMap f ≠ [] := by
  cases l with
  | nil => exact absurd rfl hl
  | cons a l =>
    intro h
    rw [List.flatMap_cons, List.append_eq_nil] at h
    exact hf a h.1

theorem run_star_ne_nil (a : Regex) (st : MState) : run (.star a) st ≠ [] := by
  rw [run_star]
  exact starLoop_ne_nil _ _ _

theorem run_opt_ne_nil (a : Regex) (st : MState) : run (.opt a) st ≠ [] := by
  rw [run_opt]
  simp

theorem run_amountPattern_ne_nil (d : Char) (r : Str) (caps : Caps) (hd : isDigit d = true) :
    run amountPattern (d :: r, caps) ≠ [] := by
  unfold amountPattern Regex.plus
  rw [run_cat, run_cat]
  have h1 : run (.cls isDigit) (d :: r, caps) = [(r, caps)] := by simp [run, hd]
  rw [h1]
  refine flatMap_ne_nil _ _ ?_ ?_
  · simp only [List.flatMap_cons, List.flatMap_nil, List.append_nil]
    exact run_star_ne_nil _ _
  · intro st
    rw [run_cat]
    exact flatMap_ne_nil _ _ (run_star_ne_nil _ _) fun st' => run_opt_ne_nil _ _

theorem search_ne_none (re : Regex) : ∀ (s t : Str), t <:+ s → run re (t, []) ≠ [] →
    search re s ≠ none := by
  intro s
  induction s with
  | nil =>
    intro t ht hr
    rw [List.suffix_nil] at ht
    subst ht
    cases h : run re ([], []) with
    | nil => exact absurd h hr
    | cons a l => simp [search, matchAt, h]
  | cons c s ih =>
    intro t ht hr
    rw [search]
    cases hm : matchAt re (c :: s) with
    | some st => simp
    | none =>
      simp only
      rw [List.suffix_cons_iff] at ht
      rcases ht with rfl | ht
      · cases h : run re (c :: s, []) with
        | nil => exact absurd h hr
        | cons a l => simp [matchAt, h] at hm
      · exact ih t ht hr

theorem FindAll_cons (re : Regex) (ngroups : Nat) (s : Str) (h : search re s ≠ none) :
    ∃ start st rest, matchAt re start = some st ∧ start <:+ s ∧
      FindAllStringSubmatch re ngroups s = submatches ngroups start st :: rest := by
  cases hs : search re s with
  | none => exact absurd hs h
  | some r =>
    rcases r with ⟨start, st⟩
    rcases search_some re s start st hs with ⟨h1, h2⟩
    refine ⟨start, st, ?_⟩
    unfold FindAllStringSubmatch
    rw [findAllLoop]
    simp only [hs]
    split
    · split
      · exact ⟨[], h1, h2, by simp⟩
      · exact ⟨_, h1, h2, by simp; rfl⟩
    · exact ⟨_, h1, h2, rfl⟩

theorem run_str_append : ∀ (w : Str), w ≠ [] → ∀ (t : Str) (caps : Caps),
    run (Regex.str w) (w ++ t, caps) = [(t, caps)] := by
  intro w
  induction w with
  | nil => intro h; exact absurd rfl h
  | cons c w ih =>
    intro _ t caps
    cases w with
    | nil => simp [Regex.str, run]
    | cons d w =>
      rw [Regex.str, run_cat]
      · have : run (.lit c) (c :: d :: w ++ t, caps) = [(d :: w ++ t, caps)] := by simp [run]
        rw [this]
        simp only [List.flatMap_cons, List.flatMap_nil, List.append_nil]
        exact ih (by simp) t caps
      · simp

theorem run_currencyPattern_ne_nil (tok : Str) (htok : tok ∈ currencyTokens) (b : Str)
    (caps : Caps) : run currencyPattern (tok ++ b, caps) ≠ [] := by
  simp only [currencyTokens, List.mem_cons, List.mem_singleton, List.not_mem_nil, or_false] at htok
  unfold currencyPattern
  rw [run_alt, run_alt, run_cat]
  rcases htok with rfl | rfl | rfl | rfl
  · rw [run_str_append _ (by decide)]
    simp
  · rw [run_str_append "EUR".toList (by decide)]
    simp
  · rw [run_str_append "лв".toList (by decide)]
    simp [run_opt]
  · have : "лв.".toList ++ b = "лв".toList ++ ('.' :: b) := rfl
    rw [this, run_str_append "лв".toList (by decide)]
    simp [run_opt]

theorem FindAllString_numberRegex_cons (p : Str) (hd : ∃ c ∈ p, isDigit c = true) :
    ∃ N rest, FindAllString numberRegex 1 p = N :: rest := by
  rcases hd with ⟨c, hc, hdig⟩
  rcases List.append_of_mem hc with ⟨a, r, rfl⟩
  have hne : search numberRegex (a ++ c :: r) ≠ none := by
    refine search_ne_none numberRegex _ (c :: r) (List.suffix_append _ _) ?_
    unfold numberRegex
    rw [run_group]
    intro h
    rw [List.map_eq_nil_iff] at h
    exact run_amountPattern_ne_nil c r [] hdig h
  rcases FindAll_cons numberRegex 1 _ hne with ⟨start, st, rest, _, _, h3⟩
  exact ⟨_, _, by unfold FindAllString; rw [h3]; rfl⟩

theorem FindAllString_currencyRegex_cons (p : Str)
    (ht : ∃ tok ∈ currencyTokens, Contains p tok = true) :
    ∃ C rest, C ∈ currencyTokens ∧ FindAllString currencyRegex 1 p = C :: rest := by
  rcases ht with ⟨tok, htok, hc⟩
  rw [Contains_iff] at hc
  rcases hc with ⟨a, b, rfl⟩
  have hne : search currencyRegex (a ++ tok ++ b) ≠ none := by
    refine search_ne_none currencyRegex _ (tok ++ b) ?_ ?_
    · rw [List.append_assoc]
      exact List.suffix_append _ _
    · unfold currencyRegex
      rw [run_group]
      intro h
      rw [List.map_eq_nil_iff] at h
      exact run_currencyPattern_ne_nil tok htok b [] h
  rcases FindAll_cons currencyRegex 1 _ hne with ⟨start, st, rest, h1, _, h3⟩
  have hm := List.mem_of_mem_head? h1
  unfold currencyRegex at hm
  rw [run_group] at hm
  simp only [List.mem_map] at hm
  rcases hm with ⟨st3, hm3, rfl⟩
  rcases run_currencyPattern_mem _ _ hm3 with ⟨tok', htok', k1, _⟩
  simp only at k1
  refine ⟨tok', rest.map (fun m => m.headD []), htok', ?_⟩
  unfold FindAllString
  rw [h3]
  simp [submatches, k1]

/-- C10: when the cleaned text has no structured match but holds a digit and a
currency token, `parsePrice` returns the first match `N` of the number pattern,
its spaces replaced by commas, a space, and the first match `C` of the currency
pattern, with the Lev abbreviation rendered as `BGN`. -/
theorem parsePrice_tier2 (rawPrice : Str)
    (hnone : FindAllStringSubmatch priceRegex 2 (cleanPrice rawPrice) = [])
    (hd : ∃ c ∈ cleanPrice rawPrice, isDigit c = true)
    (ht : ∃ tok ∈ currencyTokens, Contains (cleanPrice rawPrice) tok = true) :
    ∃ N C restN restC,
      FindAllString numberRegex 1 (cleanPrice rawPrice) = N :: restN ∧
      FindAllString currencyRegex 1 (cleanPrice rawPrice) = C :: restC ∧
      C ∈ currencyTokens ∧
      parsePrice rawPrice =
        renderPrice N (if C = "лв".toList ∨ C = "лв.".toList then "BGN".toList else C) := by
  rcases FindAllString_numberRegex_cons _ hd with ⟨N, restN, hN⟩
  rcases FindAllString_currencyRegex_cons _ ht with ⟨C, restC, hC, hCm⟩
  refine ⟨N, C, restN, restC, hN, hCm, hC, ?_⟩
  have hne : cleanPrice rawPrice ≠ [] := by
    rcases hd with ⟨c, hc, _⟩
    exact List.ne_nil_of_mem hc
  unfold parsePrice
  simp only [hne, if_false, hnone, hN, hCm, renderPrice]
  simp only [currencyTokens, List.mem_cons, List.mem_singleton, List.not_mem_nil, or_false] at hC
  rcases hC with rfl | rfl | rfl | rfl <;> rfl

/-- C10, the example of the specification: `BGN 500` gives `500 BGN`. -/
theorem parsePrice_tier2_witness :
    (∃ N C restN restC,
      FindAllString numberRegex 1 (cleanPrice "BGN 500".toList) = N :: restN ∧
      FindAllString currencyRegex 1 (cleanPrice "BGN 500".toList) = C :: restC ∧
      C ∈ currencyTokens ∧
      parsePrice "BGN 500".toList =
        renderPrice N (if C = "лв".toList ∨ C = "лв.".toList then "BGN".toList else C)) ∧
      parsePrice "BGN 500".toList = "500 BGN".toList :=
  ⟨parsePrice_tier2 "BGN 500".toList (by decide) ⟨'5', by decide, by decide⟩
      ⟨"BGN".toList, by decide, by decide⟩,
    by decide⟩

/-! ## The greedy match of an amount -/

theorem head?_append_of_head? {α : Type} (l m : List α) (a : α) (h : l.head? = some a) :
    (l ++ m).head? = some a := by
  cases l with
  | nil => simp at h
  | cons x xs => simpa using h

theorem starLoop_head_step (f : MState → List MState) (n : Nat) (st st1 st2 : MState)
    (h1 : (f st).head? = some st1) (h2 : (starLoop f n st1).head? = some st2) :
    (starLoop f (n + 1) st).head? = some st2 := by
  rw [starLoop]
  exact head?_append_of_head? _ _ _ (head?_flatMap_of_head? _ _ _ _ h1 h2)

theorem starLoop_head_stop (f : MState → List MState) (n : Nat) (st : MState)
    (h : f st = []) : (starLoop f n st).head? = some st := by
  cases n with
  | zero => rfl
  | succ n => simp [starLoop, h]

theorem starLoop_cls_head (p : Char → Bool) : ∀ (ds rest : Str) (caps : Caps) (n : Nat),
    (∀ c ∈ ds, p c = true) → (∀ c r, rest = c :: r → p c = false) → ds.length ≤ n →
    (starLoop (run (.cls p)) n (ds ++ rest, caps)).head? = some (rest, caps) := by
  intro ds
  induction ds with
  | nil =>
    intro rest caps n _ hr _
    apply starLoop_head_stop
    cases rest with
    | nil => simp [run]
    | cons c r => simp [run, hr c r rfl]
  | cons d ds ih =>
    intro rest caps n hd hr hn
    cases n with
    | zero => simp at hn
    | succ n =>
      refine starLoop_head_step _ n _ (ds ++ rest, caps) _ ?_ ?_
      · simp [run, hd d (List.mem_cons_self _ _)]
      · exact ih rest caps n (fun c hc => hd c (List.mem_cons_of_mem _ hc)) hr
          (by simpa using hn)

theorem run_groupPattern_cons (g : Char × Char × Char × Char) (t : Str) (caps : Caps)
    (hg : isSeparator g.1 = true ∧ isDigit g.2.1 = true ∧ isDigit g.2.2.1 = true ∧
      isDigit g.2.2.2 = true) :
    run groupPattern (renderGroup g ++ t, caps) = [(t, caps)] := by
  rcases g with ⟨s, a, b, c⟩
  simp only at hg
  simp [groupPattern, renderGroup, run, hg.1, hg.2.1, hg.2.2.1, hg.2.2.2]

theorem starLoop_groups_head : ∀ (groups : List (Char × Char × Char × Char)) (rest : Str)
    (caps : Caps) (n : Nat),
    (∀ g ∈ groups, isSeparator g.1 = true ∧ isDigit g.2.1 = true ∧ isDigit g.2.2.1 = true ∧
      isDigit g.2.2.2 = true) →
    run groupPattern (rest, caps) = [] → groups.length ≤ n →
    (starLoop (run groupPattern) n (groups.flatMap renderGroup ++ rest, caps)).head? =
      some (rest, caps) := by
  intro groups
  induction groups with
  | nil =>
    intro rest caps n _ hr _
    exact starLoop_head_stop _ _ _ hr
  | cons g groups ih =>
    intro rest caps n hg hr hn
    cases n with
    | zero => simp at hn
    | succ n =>
      refine starLoop_head_step _ n _ (groups.flatMap renderGroup ++ rest, caps) _ ?_ ?_
      · rw [List.flatMap_cons, List.append_assoc,
          run_groupPattern_cons g _ caps (hg g (List.mem_cons_self _ _))]
        rfl
      · exact ih rest caps n (fun x hx => hg x (List.mem_cons_of_mem _ hx)) hr
          (by simpa using hn)

theorem isSeparator_not_digit (c : Char) (h : isSeparator c = true) : isDigit c = false := by
  simp only [isSeparator, isReSpace, Bool.or_eq_true, decide_eq_true_eq] at h
  rcases h with rfl | (((rfl | rfl) | rfl) | rfl) | rfl <;> decide

theorem isDigit_not_separator (c : Char) (h : isDigit c = true) : isSeparator c = false := by
  cases hs : isSeparator c with
  | false => rfl
  | true =>
    rw [isSeparator_not_digit c hs] at h
    exact absurd h (by simp)

theorem length_le_flatMap_renderGroup (groups : List (Char × Char × Char × Char)) (t : Str) :
    groups.length ≤ (groups.flatMap renderGroup ++ t).length := by
  induction groups with
  | nil => simp
  | cons g groups ih =>
    simp only [List.flatMap_cons, List.append_assoc, List.length_append, List.length_cons,
      renderGroup, List.length_nil] at ih ⊢
    omega

theorem run_fractionPattern_opt_head (frac : Option (Char × Char)) (rest : Str) (caps : Caps)
    (hf : ∀ f, frac = some f → isDigit f.1 = true ∧ isDigit f.2 = true)
    (hr : ∀ c r, rest = c :: r → c ≠ '.') :
    (run (.opt fractionPattern) (renderFraction frac ++ rest, caps)).head? = some (rest, caps) := by
  rw [run_opt]
  cases frac with
  | none =>
    have : run fractionPattern (rest, caps) = [] := by
      cases rest with
      | nil => simp [fractionPattern, run]
      | cons c r => simp [fractionPattern, run, hr c r rfl]
    simp [renderFraction, this]
  | some f =>
    rcases f with ⟨a, b⟩
    have h := hf (a, b) rfl
    simp only at h
    simp [renderFraction, fractionPattern, run, h.1, h.2]

theorem run_groupPattern_fraction_nil (frac : Option (Char × Char)) (rest : Str) (caps : Caps)
    (hr : run groupPattern (rest, caps) = []) :
    run groupPattern (renderFraction frac ++ rest, caps) = [] := by
  cases frac with
  | none => simpa [renderFraction] using hr
  | some f =>
    rcases f with ⟨a, b⟩
    have : isSeparator '.' = false := by decide
    simp [renderFraction, groupPattern, run, this]

theorem amount_tail_not_digit (groups : List (Char × Char × Char × Char))
    (frac : Option (Char × Char)) (rest : Str)
    (hg : ∀ g ∈ groups, isSeparator g.1 = true ∧ isDigit g.2.1 = true ∧ isDigit g.2.2.1 = true ∧
      isDigit g.2.2.2 = true)
    (hr : ∀ c r, rest = c :: r → isDigit c = false) :
    ∀ c r, groups.flatMap renderGroup ++ (renderFraction frac ++ rest) = c :: r →
      isDigit c = false := by
  intro c r h
  cases groups with
  | cons g groups =>
    simp only [List.flatMap_cons, renderGroup, List.cons_append, List.cons.injEq] at h
    rw [← h.1]
    exact isSeparator_not_digit _ (hg g (List.mem_cons_self _ _)).1
  | nil =>
    cases frac with
    | some f =>
      rcases f with ⟨a, b⟩
      simp only [List.flatMap_nil, renderFraction, List.nil_append, List.cons_append,
        List.cons.injEq] at h
      rw [← h.1]
      decide
    | none =>
      simp only [List.flatMap_nil, renderFraction, List.nil_append] at h
      exact hr c r h

/-- The amount pattern takes a whole amount when the text after it cannot
continue one. -/
theorem run_amountPattern_head (ds : Str) (groups : List (Char × Char × Char × Char))
    (frac : Option (Char × Char)) (rest : Str) (caps : Caps)
    (hv : validAmount ds groups frac)
    (hrd : ∀ c r, rest = c :: r → isDigit c = false ∧ c ≠ '.')
    (hrB : run groupPattern (rest, caps) = []) :
    (run amountPattern (amountText ds groups frac ++ rest, caps)).head? = some (rest, caps) := by
  rcases hv with ⟨hne, hds, hg, hf⟩
  cases ds with
  | nil => exact absurd rfl hne
  | cons d ds =>
    unfold amountPattern Regex.plus amountText
    rw [run_cat]
    refine head?_flatMap_of_head? _ _
      (groups.flatMap renderGroup ++ (renderFraction frac ++ rest), caps) _ ?_ ?_
    · rw [run_cat]
      have h1 : run (.cls isDigit)
          (d :: ds ++ (groups.flatMap renderGroup ++ renderFraction frac) ++ rest, caps) =
          [(ds ++ (groups.flatMap renderGroup ++ (renderFraction frac ++ rest)), caps)] := by
        simp [run, hds d (List.mem_cons_self _ _)]
      rw [h1]
      simp only [List.flatMap_cons, List.flatMap_nil, List.append_nil]
      rw [run_star]
      exact starLoop_cls_head isDigit ds _ caps _
        (fun c hc => hds c (List.mem_cons_of_mem _ hc))
        (amount_tail_not_digit groups frac rest hg fun c r h => (hrd c r h).1)
        (by simp)
    · rw [run_cat]
      refine head?_flatMap_of_head? _ _ (renderFraction frac ++ rest, caps) _ ?_ ?_
      · rw [run_star]
        exact starLoop_groups_head groups _ caps _ hg
          (run_groupPattern_fraction_nil frac rest caps hrB)
          (length_le_flatMap_renderGroup groups _)
      · exact run_fractionPattern_opt_head frac rest caps hf fun c r h => (hrd c r h).2

theorem run_groupPattern_space_letter (x : Char) (r : Str) (caps : Caps)
    (hx : isDigit x = false) : run groupPattern (' ' :: x :: r, caps) = [] := by
  have : isSeparator ' ' = true := by decide
  simp [groupPattern, run, this, hx]

/-- The match of `priceRegex` on an amount followed by a space and `BGN` or
`EUR`: the whole text, with the amount and the currency as groups. -/
theorem matchAt_priceRegex_amount (ds : Str) (groups : List (Char × Char × Char × Char))
    (frac : Option (Char × Char)) (cur : Str) (hv : validAmount ds groups frac)
    (hcur : cur = "BGN".toList ∨ cur = "EUR".toList) :
    matchAt priceRegex (amountText ds groups frac ++ ' ' :: cur) =
      some ([], [(2, cur), (1, amountText ds groups frac)]) := by
  have hx : ∃ x r, cur = x :: r ∧ isDigit x = false ∧ isReSpace x = false := by
    rcases hcur with rfl | rfl
    · exact ⟨'B', _, rfl, by decide, by decide⟩
    · exact ⟨'E', _, rfl, by decide, by decide⟩
  rcases hx with ⟨x, r, hxr, hxd, hxs⟩
  have h1 : (run amountPattern (amountText ds groups frac ++ ' ' :: cur, [])).head? =
      some (' ' :: cur, []) := by
    refine run_amountPattern_head ds groups frac _ [] hv ?_ ?_
    · intro c r' h
      simp only [List.cons.injEq] at h
      rw [← h.1]
      exact ⟨by decide, by decide⟩
    · rw [hxr]
      exact run_groupPattern_space_letter x r [] hxd
  unfold matchAt priceRegex
  rw [run_cat, run_group]
  refine head?_flatMap_of_head? _ _ (' ' :: cur, [(1, amountText ds groups frac)]) _ ?_ ?_
  · rw [List.head?_map, h1]
    simp
  · rw [run_cat]
    refine head?_flatMap_of_head? _ _ (cur, [(1, amountText ds groups frac)]) _ ?_ ?_
    · rw [run_star]
      refine starLoop_cls_head isReSpace [' '] cur _ _ ?_ ?_ (by simp)
      · intro c hc
        simp only [List.mem_singleton] at hc
        subst hc
        decide
      · intro c r' h
        rw [hxr] at h
        simp only [List.cons.injEq] at h
        rw [← h.1]
        exact hxs
    · rw [run_group]
      rcases hcur with rfl | rfl <;> rfl

theorem search_priceRegex_nil : search priceRegex [] = none := by decide

/-- The structured matches of an amount followed by a space and `BGN` or `EUR`:
exactly one, the whole text. -/
theorem FindAll_priceRegex_amount (ds : Str) (groups : List (Char × Char × Char × Char))
    (frac : Option (Char × Char)) (cur : Str) (hv : validAmount ds groups frac)
    (hcur : cur = "BGN".toList ∨ cur = "EUR".toList) :
    FindAllStringSubmatch priceRegex 2 (amountText ds groups frac ++ ' ' :: cur) =
      [[amountText ds groups frac ++ ' ' :: cur, amountText ds groups frac, cur]] := by
  have hm := matchAt_priceRegex_amount ds groups frac cur hv hcur
  obtain ⟨d, t, hs⟩ : ∃ d t, amountText ds groups frac ++ ' ' :: cur = d :: t := by
    rcases hv with ⟨hne, _⟩
    cases ds with
    | nil => exact absurd rfl hne
    | cons d ds => exact ⟨d, _, rfl⟩
  have hsearch : search priceRegex (amountText ds groups frac ++ ' ' :: cur) =
      some (amountText ds groups frac ++ ' ' :: cur,
        ([], [(2, cur), (1, amountText ds groups frac)])) := by
    rw [hs] at hm ⊢
    rw [search, hm]
  unfold FindAllStringSubmatch
  rw [findAllLoop]
  simp only [hsearch]
  rw [if_neg (by rw [hs]; simp)]
  rw [findAllLoop_none _ _ _ _ _ search_priceRegex_nil]
  simp [submatches, List.range, List.range.loop, List.lookup]

/-! ## Texts that the cleaning leaves as they are -/

theorem dropWhile_eq_self_of_head (p : Char → Bool) (s : Str)
    (h : ∀ c r, s = c :: r → p c = false) : s.dropWhile p = s := by
  cases s with
  | nil => rfl
  | cons c r => simp [List.dropWhile, h c r rfl]

theorem TrimSpace_eq_self (s : Str) (h1 : ∀ c r, s = c :: r → isSpace c = false)
    (h2 : ∀ c r, s.reverse = c :: r → isSpace c = false) : TrimSpace s = s := by
  unfold TrimSpace
  rw [dropWhile_eq_self_of_head isSpace s h1, dropWhile_eq_self_of_head isSpace _ h2,
    List.reverse_reverse]

theorem ReplaceAll_single_eq_self (a : Char) (new : Str) : ∀ (s : Str), a ∉ s →
    ReplaceAll s [a] new = s := by
  intro s
  unfold ReplaceAll
  induction s with
  | nil => intro _; rfl
  | cons c s ih =>
    intro h
    simp only [List.mem_cons, not_or] at h
    have hc : (c == a) = false := by
      rw [beq_eq_false_iff_ne]
      exact fun hca => h.1 hca.symm
    simp [ReplaceAll.go, HasPrefix, hc, ih h.2]

theorem Contains_two_spaces_append : ∀ (a : Str), ' ' ∉ a → ∀ (x : Char) (r : Str), x ≠ ' ' →
    Contains (x :: r) "  ".toList = false →
    Contains (a ++ ' ' :: x :: r) "  ".toList = false := by
  intro a
  induction a with
  | nil =>
    intro _ x r hx hr
    have hxb : (x == ' ') = false := by rw [beq_eq_false_iff_ne]; exact hx
    simp only [List.nil_append]
    rw [Contains, hr]
    simp [HasPrefix, hxb]
  | cons c a ih =>
    intro h x r hx hr
    simp only [List.mem_cons, not_or] at h
    have hc : (c == ' ') = false := by
      rw [beq_eq_false_iff_ne]
      exact fun hca => h.1 hca.symm
    rw [List.cons_append, Contains, ih h.2 x r hx hr]
    simp [HasPrefix, hc]

theorem collapseSpaces_eq_self (fuel : Nat) (s : Str) (h : Contains s "  ".toList = false) :
    collapseSpaces fuel s = s := by
  cases fuel with
  | zero => rfl
  | succ fuel =>
    rw [collapseSpaces, if_neg]
    rw [h]
    simp

theorem isDigit_toNat (c : Char) (h : isDigit c = true) : 48 ≤ c.toNat ∧ c.toNat ≤ 57 := by
  simp only [isDigit, Bool.and_eq_true, decide_eq_true_eq] at h
  exact h

theorem isDigit_not_space (c : Char) (h : isDigit c = true) : isSpace c = false := by
  have := isDigit_toNat c h
  simp only [isSpace, Bool.or_eq_false_iff, beq_eq_false_iff_ne, Bool.and_eq_false_imp,
    decide_eq_true_eq, decide_eq_false_iff_not]
  omega

theorem mem_amountText (ds : Str) (groups : List (Char × Char × Char × Char))
    (frac : Option (Char × Char)) (hv : validAmount ds groups frac) :
    ∀ c ∈ amountText ds groups frac, isDigit c = true ∨ isSeparator c = true ∨ c = '.' := by
  rcases hv with ⟨_, hds, hg, hf⟩
  intro c hc
  simp only [amountText, List.mem_append, List.mem_flatMap] at hc
  rcases hc with hc | ⟨g, hgm, hc⟩ | hc
  · exact Or.inl (hds c hc)
  · have h := hg g hgm
    simp only [renderGroup, List.mem_cons, List.mem_singleton, List.not_mem_nil, or_false] at hc
    rcases hc with rfl | rfl | rfl | rfl
    · exact Or.inr (Or.inl h.1)
    · exact Or.inl h.2.1
    · exact Or.inl h.2.2.1
    · exact Or.inl h.2.2.2
  · cases frac with
    | none => simp [renderFraction] at hc
    | some f =>
      rcases f with ⟨a, b⟩
      have h := hf (a, b) rfl
      simp only [renderFraction, List.mem_cons, List.mem_singleton, List.not_mem_nil,
        or_false] at hc
      rcases hc with rfl | rfl | rfl
      · exact Or.inr (Or.inr rfl)
      · exact Or.inl h.1
      · exact Or.inl h.2

theorem validAmount_comma (ds : Str) (groups : List (Char × Char × Char))
    (frac : Option (Char × Char)) (hds : ds ≠ []) (hdig : ∀ c ∈ ds, isDigit c = true)
    (hg : ∀ g ∈ groups, isDigit g.1 = true ∧ isDigit g.2.1 = true ∧ isDigit g.2.2 = true)
    (hf : ∀ f, frac = some f → isDigit f.1 = true ∧ isDigit f.2 = true) :
    validAmount ds (groups.map fun g => (',', g)) frac := by
  refine ⟨hds, hdig, ?_, hf⟩
  intro g hgm
  simp only [List.mem_map] at hgm
  rcases hgm with ⟨g', hg', rfl⟩
  have hc : isSeparator ',' = true := by decide
  exact ⟨hc, hg g' hg'⟩

theorem mem_canonical_amount (ds : Str) (groups : List (Char × Char × Char))
    (frac : Option (Char × Char))
    (hv : validAmount ds (groups.map fun g => (',', g)) frac) :
    ∀ c ∈ amountText ds (groups.map fun g => (',', g)) frac,
      isDigit c = true ∨ c = ',' ∨ c = '.' := by
  rcases hv with ⟨_, hds, hg, hf⟩
  intro c hc
  simp only [amountText, List.mem_append, List.mem_flatMap, List.mem_map] at hc
  rcases hc with hc | ⟨g, ⟨g', hgm, rfl⟩, hc⟩ | hc
  · exact Or.inl (hds c hc)
  · have h := hg (',', g') (List.mem_map.mpr ⟨g', hgm, rfl⟩)
    simp only [renderGroup, List.mem_cons, List.mem_singleton, List.not_mem_nil, or_false] at hc
    rcases hc with rfl | rfl | rfl | rfl
    · exact Or.inr (Or.inl rfl)
    · exact Or.inl h.2.1
    · exact Or.inl h.2.2.1
    · exact Or.inl h.2.2.2
  · cases frac with
    | none => simp [renderFraction] at hc
    | some f =>
      rcases f with ⟨a, b⟩
      have h := hf (a, b) rfl
      simp only [renderFraction, List.mem_cons, List.mem_singleton, List.not_mem_nil,
        or_false] at hc
      rcases hc with rfl | rfl | rfl
      · exact Or.inr (Or.inr rfl)
      · exact Or.inl h.1
      · exact Or.inl h.2

theorem not_mem_canonical_amount (ds : Str) (groups : List (Char × Char × Char))
    (frac : Option (Char × Char))
    (hv : validAmount ds (groups.map fun g => (',', g)) frac) (a : Char)
    (ha : isDigit a = false) (h1 : a ≠ ',') (h2 : a ≠ '.') :
    a ∉ amountText ds (groups.map fun g => (',', g)) frac := by
  intro hmem
  rcases mem_canonical_amount ds groups frac hv a hmem with h | h | h
  · rw [ha] at h
    exact absurd h (by simp)
  · exact h1 h
  · exact h2 h

theorem cleanPrice_canonical (ds : Str) (groups : List (Char × Char × Char))
    (frac : Option (Char × Char)) (cur : Str)
    (hv : validAmount ds (groups.map fun g => (',', g)) frac)
    (hcur : cur = "BGN".toList ∨ cur = "EUR".toList) :
    cleanPrice (canonicalPrice ds groups frac cur) = canonicalPrice ds groups frac cur := by
  have hnot := not_mem_canonical_amount ds groups frac hv
  have hmem : ∀ a : Char, isDigit a = false → a ≠ ',' → a ≠ '.' → a ≠ ' ' → a ∉ cur →
      a ∉ canonicalPrice ds groups frac cur := by
    intro a h1 h2 h3 h4 h5
    unfold canonicalPrice
    simp only [List.mem_append, List.mem_cons, not_or]
    exact ⟨hnot a h1 h2 h3, h4, h5⟩
  have htrim : TrimSpace (canonicalPrice ds groups frac cur) = canonicalPrice ds groups frac cur := by
    apply TrimSpace_eq_self
    · rcases hv with ⟨hne, hds, _, _⟩
      cases ds with
      | nil => exact absurd rfl hne
      | cons d ds =>
        intro c r h
        simp only [canonicalPrice, amountText, List.cons_append, List.cons.injEq] at h
        rw [← h.1]
        exact isDigit_not_space d (hds d (List.mem_cons_self _ _))
    · intro c r h
      rcases hcur with rfl | rfl
      · simp only [canonicalPrice, List.reverse_append, List.reverse_cons, String.toList,
          List.reverse_nil, List.nil_append, List.cons_append, List.cons.injEq,
          List.append_assoc] at h
        rw [← h.1]
        decide
      · simp only [canonicalPrice, List.reverse_append, List.reverse_cons, String.toList,
          List.reverse_nil, List.nil_append, List.cons_append, List.cons.injEq,
          List.append_assoc] at h
        rw [← h.1]
        decide
  have hcurmem : ∀ a : Char, a = '\n' ∨ a = '\t' → a ∉ cur := by
    intro a ha
    rcases hcur with rfl | rfl <;> rcases ha with rfl | rfl <;> decide
  have hnl : '\n' ∉ canonicalPrice ds groups frac cur :=
    hmem _ (by decide) (by decide) (by decide) (by decide) (hcurmem _ (Or.inl rfl))
  have htab : '\t' ∉ canonicalPrice ds groups frac cur :=
    hmem _ (by decide) (by decide) (by decide) (by decide) (hcurmem _ (Or.inr rfl))
  have hsp : Contains (canonicalPrice ds groups frac cur) "  ".toList = false := by
    unfold canonicalPrice
    rcases hcur with rfl | rfl
    · exact Contains_two_spaces_append _ (hnot ' ' (by decide) (by decide) (by decide)) 'B' _
        (by decide) (by decide)
    · exact Contains_two_spaces_append _ (hnot ' ' (by decide) (by decide) (by decide)) 'E' _
        (by decide) (by decide)
  unfold cleanPrice
  simp only [htrim]
  have e1 : ReplaceAll (canonicalPrice ds groups frac cur) "\n".toList " ".toList =
      canonicalPrice ds groups frac cur := ReplaceAll_single_eq_self '\n' _ _ hnl
  have e2 : ReplaceAll (canonicalPrice ds groups frac cur) "\t".toList " ".toList =
      canonicalPrice ds groups frac cur := ReplaceAll_single_eq_self '\t' _ _ htab
  rw [e1, e2]
  exact collapseSpaces_eq_self _ _ hsp

/-- C8: a canonical price (one or more digits, groups of a comma and three
digits, an optional fraction of a full stop and two digits, a space, `BGN` or
`EUR`) is returned unchanged by `parsePrice`. -/
theorem parsePrice_canonical (ds : Str) (groups : List (Char × Char × Char))
    (frac : Option (Char × Char)) (cur : Str) (hds : ds ≠ [])
    (hdig : ∀ c ∈ ds, isDigit c = true)
    (hg : ∀ g ∈ groups, isDigit g.1 = true ∧ isDigit g.2.1 = true ∧ isDigit g.2.2 = true)
    (hf : ∀ f, frac = some f → isDigit f.1 = true ∧ isDigit f.2 = true)
    (hcur : cur = "BGN".toList ∨ cur = "EUR".toList) :
    parsePrice (canonicalPrice ds groups frac cur) = canonicalPrice ds groups frac cur := by
  have hv := validAmount_comma ds groups frac hds hdig hg hf
  have hclean := cleanPrice_canonical ds groups frac cur hv hcur
  have hall := FindAll_priceRegex_amount ds _ frac cur hv hcur
  have hrep : ReplaceAll (amountText ds (groups.map fun g => (',', g)) frac) " ".toList
      ",".toList = amountText ds (groups.map fun g => (',', g)) frac :=
    ReplaceAll_single_eq_self ' ' _ _
      (not_mem_canonical_amount ds groups frac hv ' ' (by decide) (by decide) (by decide))
  have hne : canonicalPrice ds groups frac cur ≠ [] := by
    unfold canonicalPrice
    simp
  unfold parsePrice
  simp only [hclean, hne, if_false]
  unfold canonicalPrice at hall ⊢
  rw [hall]
  rcases hcur with rfl | rfl
  · simp only [preferBGN]
    rw [hrep]
    simp
  · have hno : Contains "EUR".toList "лв".toList = false := by decide
    simp only [preferBGN]
    rw [hrep, hno]
    simp

/-- C8, the example of the specification: `1,234 BGN` is returned unchanged. -/
theorem parsePrice_canonical_witness :
    canonicalPrice "1".toList [('2', '3', '4')] none "BGN".toList = "1,234 BGN".toList ∧
      parsePrice "1,234 BGN".toList = "1,234 BGN".toList :=
  ⟨by decide,
    parsePrice_canonical "1".toList [('2', '3', '4')] none "BGN".toList (by decide) (by decide)
      (by decide) (by intro f h; exact absurd h (by simp)) (Or.inl rfl)⟩

/-! ## The iteration bounds are never reached -/

/-- A greedy loop whose body always reads something gives the same result for
every bound at least the length of the text. -/
theorem starLoop_bound (f : MState → List MState)
    (hf : ∀ st st', st' ∈ f st → st'.1.length < st.1.length) :
    ∀ (n m : Nat) (st : MState), st.1.length ≤ n → st.1.length ≤ m →
      starLoop f n st = starLoop f m st := by
  have hnil : ∀ st : MState, st.1.length = 0 → f st = [] := by
    intro st h0
    cases hfs : f st with
    | nil => rfl
    | cons a l =>
      have := hf st a (by rw [hfs]; exact List.mem_cons_self _ _)
      omega
  have hzero : ∀ (m : Nat) (st : MState), st.1.length = 0 → starLoop f m st = [st] := by
    intro m st h0
    cases m with
    | zero => rfl
    | succ m => simp [starLoop, hnil st h0]
  intro n
  induction n with
  | zero =>
    intro m st hn _
    rw [hzero 0 st (by omega), hzero m st (by omega)]
  | succ n ih =>
    intro m st hn hm
    cases m with
    | zero => rw [hzero 0 st (by omega), hzero (n + 1) st (by omega)]
    | succ m =>
      simp only [starLoop]
      congr 1
      refine List.flatMap_congr fun st' hst' => ?_
      have := hf st st' hst'
      exact ih m st' (by omega) (by omega)

theorem run_cls_shorter (p : Char → Bool) (st st' : MState) (h : st' ∈ run (.cls p) st) :
    st'.1.length < st.1.length := by
  rcases run_cls_mem p st st' h with ⟨c, _, hc, _⟩
  rw [hc]
  simp

theorem run_groupPattern_shorter (st st' : MState) (h : st' ∈ run groupPattern st) :
    st'.1.length < st.1.length := by
  unfold groupPattern at h
  rw [run_cat] at h
  simp only [List.mem_flatMap] at h
  rcases h with ⟨st1, h1, h2⟩
  have k1 := run_cls_shorter _ _ _ h1
  have k2 := (run_suffix _ _ _ h2).length_le
  omega

/-- The successive matches are the same for every bound above the length of the
text: the bound `s.length + 1` of `FindAllStringSubmatch` is never reached. -/
theorem findAllLoop_bound (re : Regex) (ngroups : Nat) :
    ∀ (fuel fuel' : Nat) (s : Str) (adj : Bool), s.length < fuel → s.length < fuel' →
      findAllLoop re ngroups fuel s adj = findAllLoop re ngroups fuel' s adj := by
  intro fuel
  induction fuel with
  | zero => intro fuel' s adj h; omega
  | succ fuel ih =>
    intro fuel' s adj h h'
    cases fuel' with
    | zero => omega
    | succ fuel' =>
      simp only [findAllLoop]
      cases hs : search re s with
      | none => rfl
      | some r =>
        rcases r with ⟨start, st⟩
        rcases search_some re s start st hs with ⟨h1, h2⟩
        have hsuf : st.1 <:+ start := by
          have := run_suffix re (start, []) st (List.mem_of_mem_head? h1)
          simpa using this
        have l1 := hsuf.length_le
        have l2 := h2.length_le
        simp only
        split
        · split
          · rfl
          · next c t hst =>
            have : t.length < st.1.length := by rw [hst]; simp
            rw [ih fuel' t false (by omega) (by omega)]
        · rw [ih fuel' st.1 true (by omega) (by omega)]

theorem collapse_length : ∀ (p : Str),
    (ReplaceAll p [' ', ' '] [' ']).length ≤ p.length ∧
      (Contains p [' ', ' '] = true → (ReplaceAll p [' ', ' '] [' ']).length < p.length)
  | [] => by simp [ReplaceAll, ReplaceAll.go, Contains, HasPrefix]
  | [c] => by simp [ReplaceAll, ReplaceAll.go, Contains, HasPrefix]
  | c :: d :: t => by
    have ih1 := collapse_length (d :: t)
    have ih2 := collapse_length t
    unfold ReplaceAll at ih1 ih2 ⊢
    simp only [List.length_cons] at ih1 ih2 ⊢
    by_cases hp : HasPrefix (c :: d :: t) [' ', ' '] = true
    · have e : ReplaceAll.go [' ', ' '] [' '] 0 (c :: d :: t) =
          ' ' :: ReplaceAll.go [' ', ' '] [' '] 0 t := by
        rw [ReplaceAll.go, if_pos hp]
        rfl
      rw [e]
      simp only [List.length_cons]
      omega
    · have e : ReplaceAll.go [' ', ' '] [' '] 0 (c :: d :: t) =
          c :: ReplaceAll.go [' ', ' '] [' '] 0 (d :: t) := by
        rw [ReplaceAll.go, if_neg hp]
      have ec : Contains (c :: d :: t) [' ', ' '] = Contains (d :: t) [' ', ' '] := by
        rw [Contains]
        simp only [Bool.not_eq_true] at hp
        rw [hp]
        rfl
      rw [e, ec]
      simp only [List.length_cons]
      constructor
      · omega
      · intro h
        have := ih1.2 h
        omega

/-- The loop that collapses the spaces ends because no two spaces are left, not
because its bound is reached. -/
theorem collapseSpaces_no_double_space : ∀ (fuel : Nat) (p : Str), p.length ≤ fuel →
    Contains (collapseSpaces fuel p) "  ".toList = false := by
  intro fuel
  induction fuel with
  | zero =>
    intro p h
    have : p = [] := List.length_eq_zero.mp (by omega)
    subst this
    decide
  | succ fuel ih =>
    intro p h
    rw [collapseSpaces]
    split
    · next hc =>
      have hlt : (ReplaceAll p "  ".toList " ".toList).length < p.length :=
        (collapse_length p).2 hc
      exact ih _ (by omega)
    · next hc => simpa using hc

theorem cleanPrice_no_double_space (rawPrice : Str) :
    Contains (cleanPrice rawPrice) "  ".toList = false :=
  collapseSpaces_no_double_space _ _ (Nat.le_refl _)

/-- The page loop gives the same result for every bound of at least the number
of pages left: the bound `maxPages` of `SearchCars` is never what ends it. -/
theorem SearchCars_loop_bound (fetch : Str → Except Str (List Offer)) (b : CarBrand)
    (ms : List Str) (maxPages : Int) :
    ∀ (fuel fuel' : Nat) (page : Int) (st : SearchState),
      (maxPages + 1 - page).toNat ≤ fuel → (maxPages + 1 - page).toNat ≤ fuel' →
      SearchCars.loop fetch b ms maxPages fuel page st =
        SearchCars.loop fetch b ms maxPages fuel' page st := by
  have hdone : ∀ (fuel : Nat) (page : Int) (st : SearchState), ¬ page ≤ maxPages →
      SearchCars.loop fetch b ms maxPages fuel page st = st := by
    intro fuel page st h
    cases fuel with
    | zero => rfl
    | succ fuel => rw [SearchCars.loop, if_neg h]
  intro fuel
  induction fuel with
  | zero =>
    intro fuel' page st h _
    rw [hdone 0 page st (by omega), hdone fuel' page st (by omega)]
  | succ fuel ih =>
    intro fuel' page st h h'
    by_cases hle : page ≤ maxPages
    · cases fuel' with
      | zero => omega
      | succ fuel' =>
        rw [SearchCars.loop, SearchCars.loop, if_pos hle, if_pos hle]
        dsimp only
        cases fetch (calcUrl b page ms) with
        | error err =>
          dsimp only
          exact ih fuel' (page + 1) _ (by omega) (by omega)
        | ok offersOnPage =>
          dsimp only
          split
          · rfl
          · exact ih fuel' (page + 1) _ (by omega) (by omega)
    · rw [hdone _ page st hle, hdone fuel' page st hle]

/-! ## The cleaned text -/

theorem TrimSpace_eq_nil_iff (s : Str) : TrimSpace s = [] ↔ ∀ c ∈ s, isSpace c = true := by
  have e : TrimSpace s = (s.dropWhile isSpace).rdropWhile isSpace := rfl
  rw [e, List.rdropWhile_eq_nil_iff]
  constructor
  · intro h
    cases hd : s.dropWhile isSpace with
    | nil => exact List.dropWhile_eq_nil_iff.mp hd
    | cons x xs =>
      have h1 := List.head_dropWhile_not isSpace s (by rw [hd]; simp)
      have h2 := h ((s.dropWhile isSpace).head (by rw [hd]; simp)) (List.head_mem _)
      rw [h1] at h2
      exact absurd h2 (by simp)
  · intro h
    rw [List.dropWhile_eq_nil_iff.mpr h]
    simp

theorem TrimSpace_head (s : Str) (c : Char) (h : (TrimSpace s).head? = some c) :
    isSpace c = false := by
  have e : TrimSpace s = (s.dropWhile isSpace).rdropWhile isSpace := rfl
  have hne : TrimSpace s ≠ [] := by
    intro h0
    rw [h0] at h
    simp at h
  have hp : TrimSpace s <+: s.dropWhile isSpace := by
    rw [e]
    exact List.rdropWhile_prefix _ _
  have hd : s.dropWhile isSpace ≠ [] := by
    intro h0
    rw [h0, List.prefix_nil] at hp
    exact hne hp
  have h1 := List.head_dropWhile_not isSpace s hd
  have h2 := hp.head hne
  rw [List.head?_eq_head hne, Option.some.injEq] at h
  rw [← h, h2]
  exact h1

theorem TrimSpace_last (s : Str) (c : Char) (h : (TrimSpace s).getLast? = some c) :
    isSpace c = false := by
  have e : TrimSpace s = (s.dropWhile isSpace).rdropWhile isSpace := rfl
  have hne : TrimSpace s ≠ [] := by
    intro h0
    rw [h0] at h
    simp at h
  have h1 := List.rdropWhile_last_not isSpace (s.dropWhile isSpace) (by rw [← e]; exact hne)
  rw [List.getLast?_eq_getLast _ hne, Option.some.injEq] at h
  rw [← h]
  simpa using h1

theorem ReplaceAll_single (a b : Char) : ∀ (s : Str),
    ReplaceAll s [a] [b] = s.map fun c => if c = a then b else c := by
  intro s
  unfold ReplaceAll
  induction s with
  | nil => rfl
  | cons c s ih =>
    by_cases hc : c = a
    · subst hc
      simp only [ReplaceAll.go, HasPrefix, beq_self_eq_true, Bool.and_self, if_true,
        List.length_singleton, Nat.sub_self, List.map_cons]
      rw [ih]
      rfl
    · have hb : (c == a) = false := by rw [beq_eq_false_iff_ne]; exact hc
      simp only [ReplaceAll.go, HasPrefix, hb, Bool.false_and, Bool.false_eq_true, if_false,
        List.map_cons, hc]
      rw [ih]

/-- One turn of the loop that collapses the spaces keeps the first and the last
rune, and brings in no rune that was not there. -/
theorem collapse_step : ∀ (p : Str),
    (ReplaceAll p [' ', ' '] [' ']).head? = p.head? ∧
      (ReplaceAll p [' ', ' '] [' ']).getLast? = p.getLast? ∧
      ∀ x ∈ ReplaceAll p [' ', ' '] [' '], x ∈ p
  | [] => by simp [ReplaceAll, ReplaceAll.go]
  | [c] => by simp [ReplaceAll, ReplaceAll.go, HasPrefix]
  | c :: d :: t => by
    have ih1 := collapse_step (d :: t)
    have ih2 := collapse_step t
    unfold ReplaceAll at ih1 ih2 ⊢
    by_cases hp : HasPrefix (c :: d :: t) [' ', ' '] = true
    · have e : ReplaceAll.go [' ', ' '] [' '] 0 (c :: d :: t) =
          ' ' :: ReplaceAll.go [' ', ' '] [' '] 0 t := by
        rw [ReplaceAll.go, if_pos hp]
        rfl
      simp only [HasPrefix, Bool.and_true, Bool.and_eq_true, beq_iff_eq] at hp
      rcases hp with ⟨rfl, rfl⟩
      rw [e]
      refine ⟨rfl, ?_, ?_⟩
      · cases t with
        | nil => simp [ReplaceAll.go]
        | cons x t =>
          have hne : ReplaceAll.go [' ', ' '] [' '] 0 (x :: t) ≠ [] := by
            intro h0
            have := ih2.1
            rw [h0] at this
            simp at this
          rw [List.getLast?_cons_cons, List.getLast?_cons_cons, ← ih2.2.1]
          cases hk : ReplaceAll.go [' ', ' '] [' '] 0 (x :: t) with
          | nil => exact absurd hk hne
          | cons y ys => rw [List.getLast?_cons_cons]
      · intro x hx
        simp only [List.mem_cons] at hx ⊢
        rcases hx with rfl | hx
        · exact Or.inl rfl
        · exact Or.inr (Or.inr (ih2.2.2 x hx))
    · have e : ReplaceAll.go [' ', ' '] [' '] 0 (c :: d :: t) =
          c :: ReplaceAll.go [' ', ' '] [' '] 0 (d :: t) := by
        rw [ReplaceAll.go, if_neg hp]
      rw [e]
      refine ⟨rfl, ?_, ?_⟩
      · have hne : ReplaceAll.go [' ', ' '] [' '] 0 (d :: t) ≠ [] := by
          intro h0
          have := ih1.1
          rw [h0] at this
          simp at this
        rw [List.getLast?_cons_cons, ← ih1.2.1]
        cases hk : ReplaceAll.go [' ', ' '] [' '] 0 (d :: t) with
        | nil => exact absurd hk hne
        | cons y ys => rw [List.getLast?_cons_cons]
      · intro x hx
        simp only [List.mem_cons] at hx
        rcases hx with rfl | hx
        · exact List.mem_cons_self _ _
        · exact List.mem_cons_of_mem _ (ih1.2.2 x hx)

theorem collapseSpaces_keeps : ∀ (fuel : Nat) (p : Str),
    (collapseSpaces fuel p).head? = p.head? ∧ (collapseSpaces fuel p).getLast? = p.getLast? ∧
      ∀ x ∈ collapseSpaces fuel p, x ∈ p := by
  intro fuel
  induction fuel with
  | zero => intro p; exact ⟨rfl, rfl, fun _ h => h⟩
  | succ fuel ih =>
    intro p
    rw [collapseSpaces]
    split
    · have h1 := ih (ReplaceAll p "  ".toList " ".toList)
      have h2 : (ReplaceAll p "  ".toList " ".toList).head? = p.head? ∧
          (ReplaceAll p "  ".toList " ".toList).getLast? = p.getLast? ∧
          ∀ x ∈ ReplaceAll p "  ".toList " ".toList, x ∈ p := collapse_step p
      exact ⟨h1.1.trans h2.1, h1.2.1.trans h2.2.1, fun x hx => h2.2.2 x (h1.2.2 x hx)⟩
    · exact ⟨rfl, rfl, fun _ h => h⟩

theorem cleanPrice_eq (rawPrice : Str) :
    cleanPrice rawPrice =
      collapseSpaces
        (((TrimSpace rawPrice).map fun c => if c = '\n' then ' ' else c).map
          fun c => if c = '\t' then ' ' else c).length
        (((TrimSpace rawPrice).map fun c => if c = '\n' then ' ' else c).map
          fun c => if c = '\t' then ' ' else c) := by
  unfold cleanPrice
  have e1 : ReplaceAll (TrimSpace rawPrice) "\n".toList " ".toList =
      (TrimSpace rawPrice).map fun c => if c = '\n' then ' ' else c :=
    ReplaceAll_single '\n' ' ' _
  have e2 : ∀ s : Str, ReplaceAll s "\t".toList " ".toList =
      s.map fun c => if c = '\t' then ' ' else c := ReplaceAll_single '\t' ' '
  simp only [e1, e2]

theorem unspace_of_not_space (h : Char) (hs : isSpace h = false) :
    (if (if h = '\n' then ' ' else h) = '\t' then ' ' else (if h = '\n' then ' ' else h)) = h := by
  have h1 : h ≠ '\n' := by
    intro e
    rw [e] at hs
    exact absurd hs (by decide)
  have h2 : h ≠ '\t' := by
    intro e
    rw [e] at hs
    exact absurd hs (by decide)
  simp [h1, h2]

theorem cleanPrice_head (rawPrice : Str) (c : Char)
    (h : (cleanPrice rawPrice).head? = some c) : isSpace c = false := by
  rw [cleanPrice_eq, (collapseSpaces_keeps _ _).1] at h
  simp only [List.head?_map, Option.map_eq_some'] at h
  rcases h with ⟨b, ⟨a, ha, rfl⟩, rfl⟩
  have hs := TrimSpace_head rawPrice a ha
  rw [unspace_of_not_space a hs]
  exact hs

theorem cleanPrice_last (rawPrice : Str) (c : Char)
    (h : (cleanPrice rawPrice).getLast? = some c) : isSpace c = false := by
  rw [cleanPrice_eq, (collapseSpaces_keeps _ _).2.1] at h
  simp only [List.getLast?_map, Option.map_eq_some'] at h
  rcases h with ⟨b, ⟨a, ha, rfl⟩, rfl⟩
  have hs := TrimSpace_last rawPrice a ha
  rw [unspace_of_not_space a hs]
  exact hs

theorem cleanPrice_no_newline_tab (rawPrice : Str) :
    '\n' ∉ cleanPrice rawPrice ∧ '\t' ∉ cleanPrice rawPrice := by
  have key : ∀ x ∈ cleanPrice rawPrice, x ≠ '\n' ∧ x ≠ '\t' := by
    intro x hx
    rw [cleanPrice_eq] at hx
    have hx' := (collapseSpaces_keeps _ _).2.2 x hx
    simp only [List.mem_map] at hx'
    rcases hx' with ⟨b, ⟨a, _, rfl⟩, rfl⟩
    by_cases h1 : a = '\n'
    · simp [h1]
    · by_cases h2 : a = '\t'
      · simp [h2]
      · simp [h1, h2]
  exact ⟨fun h => (key _ h).1 rfl, fun h => (key _ h).2 rfl⟩

theorem cleanPrice_eq_nil_iff (rawPrice : Str) :
    cleanPrice rawPrice = [] ↔ ∀ c ∈ rawPrice, isSpace c = true := by
  rw [← TrimSpace_eq_nil_iff]
  constructor
  · intro h
    have h1 : (cleanPrice rawPrice).head? = none := by rw [h]; rfl
    rw [cleanPrice_eq, (collapseSpaces_keeps _ _).1] at h1
    simpa using h1
  · intro h
    rw [cleanPrice_eq, h]
    rfl

/-- C13, as stated, fails: a text made of a form feed is not made of spaces,
tabs and newlines only, yet `parsePrice` takes the short-circuit on it and
returns the sentinel; the same holds for a carriage return and for a no-break
space. -/
theorem parsePrice_sentinel_counterexample :
    (∃ c ∈ "\x0c".toList, isPlainSpace c = false) ∧
      shortCircuits "\x0c".toList = true ∧
      parsePrice "\x0c".toList = priceNotAvailable ∧
      shortCircuits "\r".toList = true ∧
      shortCircuits "\u00a0".toList = true ∧
      ¬ ∀ rawPrice : Str,
        (shortCircuits rawPrice = true ↔ ∀ c ∈ rawPrice, isPlainSpace c = true) := by
  refine ⟨⟨Char.ofNat 0x0C, by decide, by decide⟩, by decide, by decide, by decide,
    by decide, ?_⟩
  intro h
  have h1 := (h "\x0c".toList).mp (by decide)
  exact absurd (h1 (Char.ofNat 0x0C) (by decide)) (by decide)

/-- C13, amended: `parsePrice` takes the short-circuit exactly on the texts made
only of white space in the sense of `strings.TrimSpace` (space, tab, newline,
vertical tab, form feed, carriage return, no-break space and the other Unicode
spaces), the empty text included, and then returns `Price not available`; in
particular it does so on every text of spaces, tabs and newlines. -/
theorem parsePrice_sentinel (rawPrice : Str) :
    (shortCircuits rawPrice = true ↔ ∀ c ∈ rawPrice, isSpace c = true) ∧
      (shortCircuits rawPrice = true → parsePrice rawPrice = priceNotAvailable) ∧
      ((∀ c ∈ rawPrice, isPlainSpace c = true) → parsePrice rawPrice = priceNotAvailable) := by
  have h1 : shortCircuits rawPrice = true ↔ ∀ c ∈ rawPrice, isSpace c = true := by
    unfold shortCircuits
    rw [decide_eq_true_eq]
    exact cleanPrice_eq_nil_iff rawPrice
  have h2 : shortCircuits rawPrice = true → parsePrice rawPrice = priceNotAvailable := by
    intro h
    unfold shortCircuits at h
    rw [decide_eq_true_eq] at h
    unfold parsePrice
    simp only [h, if_true]
    rfl
  refine ⟨h1, h2, ?_⟩
  intro h
  apply h2
  rw [h1]
  intro c hc
  have := h c hc
  simp only [isPlainSpace, Bool.or_eq_true, decide_eq_true_eq] at this
  rcases this with (rfl | rfl) | rfl <;> decide

/-- C13 on a text of spaces, tabs and newlines, and on a text with a letter. -/
theorem parsePrice_sentinel_witness :
    parsePrice "  \t\n ".toList = priceNotAvailable ∧
      shortCircuits " a ".toList = false :=
  ⟨(parsePrice_sentinel "  \t\n ".toList).2.2 (by decide), by
    have h := (parsePrice_sentinel " a ".toList).1
    cases hs : shortCircuits " a ".toList with
    | false => rfl
    | true => exact absurd (h.mp hs 'a' (by decide)) (by decide)⟩

theorem forall₂_right_mem {α β : Type} (R : α → β → Prop) (l₁ : List α) (l₂ : List β)
    (h : List.Forall₂ R l₁ l₂) : ∀ b ∈ l₂, ∃ a ∈ l₁, R a b := by
  induction h with
  | nil => intro b hb; simp at hb
  | cons hab _ ih =>
    intro b hb
    rcases List.mem_cons.mp hb with rfl | hb
    · exact ⟨_, List.mem_cons_self _ _, hab⟩
    · rcases ih b hb with ⟨a, ha, hr⟩
      exact ⟨a, List.mem_cons_of_mem _ ha, hr⟩

theorem isListingRoot_dataItem (n : Node) (h : isListingRoot n = true) :
    attrValue "data-item".toList n.attrs ≠ [] := by
  rcases n with ⟨ty, data, attr, cs⟩
  simp only [isListingRoot, Bool.and_eq_true, decide_eq_true_eq] at h
  exact h.2

/-- C14: every offer returned by `ExtractAllOffers` has a non-empty `DataItem`. -/
theorem ExtractAllOffers_dataItem_ne_nil (doc : Node) (o : Offer)
    (h : o ∈ ExtractAllOffers doc) : o.DataItem ≠ [] := by
  rcases forall₂_right_mem _ _ _ (forall₂_rootPaths doc) o h with ⟨p, _, n, _, hr, rfl⟩
  exact isListingRoot_dataItem n hr

/-- C14 on the page with three listings. -/
theorem ExtractAllOffers_dataItem_ne_nil_witness :
    offerOf (listingDiv "d3" []) ∈ ExtractAllOffers threeListings ∧
      (offerOf (listingDiv "d3" [])).DataItem ≠ [] :=
  ⟨by decide, ExtractAllOffers_dataItem_ne_nil threeListings _ (by decide)⟩

/-! ## The resolver -/

/-- C15: two names that are equal after lower-casing resolve to the same brand
and to the same model codes. -/
theorem resolver_case_insensitive (lower : Char → Char) (s t : Str)
    (h : ToLower lower s = ToLower lower t) :
    BrandNameToID lower s = BrandNameToID lower t ∧
      ModelNameToIDs lower s = ModelNameToIDs lower t := by
  unfold BrandNameToID ModelNameToIDs
  rw [h]
  exact ⟨rfl, rfl⟩

/-- C15, the example: `bmw`, `BMW` and `Bmw` all resolve to `BrandBMW`, which
is 10. -/
theorem resolver_case_insensitive_witness :
    BrandNameToID asciiLower "bmw".toList = 10 ∧
      BrandNameToID asciiLower "BMW".toList = BrandNameToID asciiLower "bmw".toList ∧
      BrandNameToID asciiLower "Bmw".toList = BrandNameToID asciiLower "bmw".toList ∧
      ModelNameToIDs asciiLower "5SERIES".toList = ModelNameToIDs asciiLower "5series".toList :=
  ⟨by decide,
    (resolver_case_insensitive asciiLower "BMW".toList "bmw".toList (by decide)).1,
    (resolver_case_insensitive asciiLower "Bmw".toList "bmw".toList (by decide)).1,
    (resolver_case_insensitive asciiLower "5SERIES".toList "5series".toList (by decide)).2⟩

/-- C16: a name whose lower-cased form is not a known brand resolves to
`BrandUnknown`, which is 0, and a name whose lower-cased form is not a known
model resolves to no model codes; both functions return on every input. -/
theorem resolver_miss (lower : Char → Char) (name : Str) :
    (ToLower lower name ∉ knownBrands → BrandNameToID lower name = BrandUnknown) ∧
      (ToLower lower name ∉ knownModels → ModelNameToIDs lower name = []) ∧
      BrandUnknown = 0 := by
  refine ⟨?_, ?_, rfl⟩
  · intro h
    simp only [knownBrands, List.mem_cons, List.mem_singleton, List.not_mem_nil, or_false,
      not_or] at h
    unfold BrandNameToID
    simp only [h.1, h.2.1, h.2.2.1, h.2.2.2, if_false, or_self]
  · intro h
    simp only [knownModels, List.mem_cons, List.mem_singleton, List.not_mem_nil, or_false,
      not_or] at h
    unfold ModelNameToIDs modelNameToIDs
    have e1 : (ToLower lower name == "5series".toList) = false := by
      rw [beq_eq_false_iff_ne]; exact h.1
    have e2 : (ToLower lower name == "5-series".toList) = false := by
      rw [beq_eq_false_iff_ne]; exact h.2.1
    have e3 : (ToLower lower name == "5".toList) = false := by
      rw [beq_eq_false_iff_ne]; exact h.2.2
    simp only [List.lookup, e1, e2, e3]
    rfl

/-- C16 on an unknown brand and an unknown model. -/
theorem resolver_miss_witness :
    BrandNameToID asciiLower "Tesla".toList = BrandUnknown ∧
      ModelNameToIDs asciiLower "X5".toList = [] :=
  ⟨(resolver_miss asciiLower "Tesla".toList).1 (by decide),
    (resolver_miss asciiLower "X5".toList).2.1 (by decide)⟩

theorem loop_no_listings (fetch : Str → Except Str (List Offer)) (b : CarBrand) (ms : List Str)
    (maxPages : Int) : ∀ (fuel : Nat) (page : Int) (st : SearchState),
    (∀ j : Int, page ≤ j → j ≤ maxPages → listingsOf (pageResult fetch b ms j) = []) →
    (SearchCars.loop fetch b ms maxPages fuel page st).allOffers = st.allOffers := by
  intro fuel
  induction fuel with
  | zero => intro page st _; rfl
  | succ fuel ih =>
    intro page st h
    rw [SearchCars.loop]
    split
    · next hle =>
      have h0 := h page (le_refl _) hle
      unfold pageResult at h0
      dsimp only
      cases hr : fetch (calcUrl b page ms) with
      | error err =>
        dsimp only
        rw [ih (page + 1) _ fun j hj hj' => h j (by omega) hj']
      | ok offersOnPage =>
        rw [hr] at h0
        simp only [listingsOf] at h0
        subst h0
        simp
    · rfl

/-- C17: `SearchCars` always returns a `nil` error; when `maxPages` is not
positive, or when no page among `1..maxPages` yields a listing (each fetch fails
or gives no offers), the returned sequence is empty. -/
theorem SearchCars_no_error (lower : Char → Char) (fetch : Str → Except Str (List Offer))
    (maxPages : Int) (brand model : Str) :
    (SearchCars lower fetch maxPages brand model).2.1 = none ∧
      (maxPages ≤ 0 → (SearchCars lower fetch maxPages brand model).1 = []) ∧
      ((∀ j : Int, 1 ≤ j → j ≤ maxPages →
          listingsOf (pageResult fetch (BrandNameToID lower brand)
            (ModelNameToIDs lower model) j) = []) →
        (SearchCars lower fetch maxPages brand model).1 = []) := by
  have key : (∀ j : Int, 1 ≤ j → j ≤ maxPages →
      listingsOf (pageResult fetch (BrandNameToID lower brand)
        (ModelNameToIDs lower model) j) = []) →
      (SearchCars lower fetch maxPages brand model).1 = [] := by
    intro h
    simp only [SearchCars]
    rw [loop_no_listings _ _ _ _ _ _ _ h]
  refine ⟨rfl, ?_, key⟩
  intro h0
  exact key fun j h1 h2 => by omega

/-- C17 on a network where every fetch fails, and with `maxPages = 0`. -/
theorem SearchCars_no_error_witness :
    SearchCars id (fun _ => .error "timeout".toList) 3 [] [] =
        ([], none, [Event.scraping 1 (calcUrl 0 1 []), Event.failed 1 "timeout".toList,
          Event.scraping 2 (calcUrl 0 2 []), Event.failed 2 "timeout".toList,
          Event.scraping 3 (calcUrl 0 3 []), Event.failed 3 "timeout".toList]) ∧
      (SearchCars id (fun _ => .error "timeout".toList) 3 [] []).1 = [] ∧
      (SearchCars id (sampleNet 100 200) 0 [] []).1 = [] :=
  ⟨by decide,
    (SearchCars_no_error id (fun _ => .error "timeout".toList) 3 [] []).2.2
      (fun _ _ _ => rfl),
    (SearchCars_no_error id (sampleNet 100 200) 0 [] []).2.1 (by decide)⟩

/-! ## The first price element -/

theorem mem_preorder_children (cs : List Node) (c : Node) (hc : c ∈ cs) :
    ∀ m ∈ preorder c, m ∈ preorder.children cs := by
  induction cs with
  | nil => simp at hc
  | cons d cs ih =>
    intro m hm
    rw [preorder.children, List.mem_append]
    rcases List.mem_cons.mp hc with rfl | hc
    · exact Or.inl hm
    · exact Or.inr (ih hc m hm)

theorem textLeaves_child (ty : NodeType) (data : Str) (attr : List Attribute) (cs : List Node)
    (h : textLeaves (.mk ty data attr cs)) : ∀ c ∈ cs, textLeaves c := by
  intro c hc m hm
  apply h
  rw [preorder]
  exact List.mem_cons_of_mem _ (mem_preorder_children cs c hc m hm)

theorem getTextContent_children_nil (cs : List Node) (h : getTextContent.children cs = []) :
    ∀ c ∈ cs, getTextContent c = [] := by
  induction cs with
  | nil => intro c hc; simp at hc
  | cons d cs ih =>
    intro c hc
    rw [getTextContent.children, List.append_eq_nil] at h
    rcases List.mem_cons.mp hc with rfl | hc
    · exact h.1
    · exact ih h.2 c hc

theorem mem_preorder_children_iff (cs : List Node) (m : Node) :
    m ∈ preorder.children cs ↔ ∃ c ∈ cs, m ∈ preorder c := by
  induction cs with
  | nil => simp [preorder.children]
  | cons d cs ih =>
    rw [preorder.children, List.mem_append, ih]
    simp

/-- In a tree whose text nodes are leaves, a node with empty text content has
only nodes with empty text content below it. -/
theorem getTextContent_nil_below : ∀ (n : Node), textLeaves n → getTextContent n = [] →
    ∀ m ∈ preorder n, getTextContent m = [] := by
  intro n
  induction n using Node.induct with
  | h ty data attr cs ih =>
    intro hw ht m hm
    rw [preorder, List.mem_cons] at hm
    rcases hm with rfl | hm
    · exact ht
    · by_cases hty : ty = .TextNode
      · have := hw (.mk ty data attr cs) (mem_preorder_self _) hty
        simp only [Node.children, List.isEmpty_iff] at this
        subst this
        simp [preorder.children] at hm
      · rw [getTextContent, if_neg hty] at ht
        rcases (mem_preorder_children_iff cs m).mp hm with ⟨c, hc, hmc⟩
        exact ih c hc (textLeaves_child ty data attr cs hw c hc)
          (getTextContent_children_nil cs ht c hc) m hmc

theorem findPrice_children_skip : ∀ (cs : List Node) (price : Str), price ≠ [] →
    findPrice.children cs price = price := by
  intro cs
  induction cs with
  | nil => intro price _; rfl
  | cons c cs ih =>
    intro price h
    rw [findPrice.children, if_neg h]
    exact ih price h

theorem firstFilledPriceText_append (l₁ l₂ : List Node) :
    firstFilledPriceText (l₁ ++ l₂) =
      if firstFilledPriceText l₁ = [] then firstFilledPriceText l₂
      else firstFilledPriceText l₁ := by
  unfold firstFilledPriceText
  rw [List.find?_append]
  cases h : l₁.find? isFilledPriceElement with
  | none => simp
  | some m =>
    have hm := List.find?_some h
    simp only [isFilledPriceElement, Bool.and_eq_true, Bool.not_eq_true', List.isEmpty_eq_false]
      at hm
    simp [hm.2]

theorem findPrice_children_first (cs : List Node)
    (ih : ∀ c ∈ cs, textLeaves c → findPrice.f c [] = firstFilledPriceText (preorder c)) :
    (∀ c ∈ cs, textLeaves c) →
      findPrice.children cs [] = firstFilledPriceText (preorder.children cs) := by
  induction cs with
  | nil => intro _; rfl
  | cons c cs ihc =>
    intro hw
    have hc := ih c (List.mem_cons_self _ _) (hw c (List.mem_cons_self _ _))
    have hcs := ihc (fun x hx => ih x (List.mem_cons_of_mem _ hx))
      (fun x hx => hw x (List.mem_cons_of_mem _ hx))
    rw [findPrice.children, if_pos rfl, preorder.children, firstFilledPriceText_append, hc]
    split
    · next h0 => rw [h0]; exact hcs
    · next h0 => exact findPrice_children_skip cs _ h0

theorem findPrice_f_first : ∀ (n : Node), textLeaves n →
    findPrice.f n [] = firstFilledPriceText (preorder n) := by
  intro n
  induction n using Node.induct with
  | h ty data attr cs ih =>
    intro hw
    have hch := findPrice_children_first cs ih (textLeaves_child ty data attr cs hw)
    have hpre : preorder (.mk ty data attr cs) = [.mk ty data attr cs] ++ preorder.children cs := by
      rw [preorder]
      rfl
    rw [findPrice.f, hpre, firstFilledPriceText_append]
    split
    · next hc =>
      have hp : isPriceElement (.mk ty data attr cs) = true := by
        simp [isPriceElement, hc.1, hc.2.1, hc.2.2]
      by_cases ht : getTextContent (.mk ty data attr cs) = []
      · have h1 : firstFilledPriceText [.mk ty data attr cs] = [] := by
          simp [firstFilledPriceText, isFilledPriceElement, ht]
        have h2 : firstFilledPriceText (preorder.children cs) = [] := by
          unfold firstFilledPriceText
          have : (preorder.children cs).find? isFilledPriceElement = none := by
            rw [List.find?_eq_none]
            intro m hm
            have hm' : m ∈ preorder (.mk ty data attr cs) := by
              rw [preorder]
              exact List.mem_cons_of_mem _ hm
            simp [isFilledPriceElement, getTextContent_nil_below _ hw ht m hm']
          rw [this]
        rw [h1, if_pos rfl, h2, ht]
      · have h1 : firstFilledPriceText [.mk ty data attr cs] =
            getTextContent (.mk ty data attr cs) := by
          simp [firstFilledPriceText, isFilledPriceElement, hp, ht]
        rw [h1, if_neg ht]
    · next hc =>
      have hp : isPriceElement (.mk ty data attr cs) = false := by
        cases hq : isPriceElement (.mk ty data attr cs) with
        | false => rfl
        | true =>
          simp only [isPriceElement, Bool.and_eq_true, decide_eq_true_eq] at hq
          exact absurd ⟨hq.1.1, hq.1.2, hq.2⟩ hc
      have h1 : firstFilledPriceText [.mk ty data attr cs] = [] := by
        simp [firstFilledPriceText, isFilledPriceElement, hp]
      rw [h1, if_pos rfl]
      exact hch

theorem find?_filled_of_find? : ∀ (l : List Node) (m : Node),
    l.find? isPriceElement = some m → getTextContent m ≠ [] →
    l.find? isFilledPriceElement = some m := by
  intro l
  induction l with
  | nil => intro m h; simp at h
  | cons x l ih =>
    intro m h ht
    rw [List.find?_cons] at h ⊢
    cases hx : isPriceElement x with
    | true =>
      rw [hx] at h
      simp only [Option.some.injEq] at h
      subst h
      have : isFilledPriceElement x = true := by
        simp [isFilledPriceElement, hx, ht]
      rw [this]
    | false =>
      rw [hx] at h
      have : isFilledPriceElement x = false := by
        simp [isFilledPriceElement, hx]
      rw [this]
      exact ih m h ht

theorem find?_filled_none (l : List Node) (h : l.find? isPriceElement = none) :
    l.find? isFilledPriceElement = none := by
  rw [List.find?_eq_none] at h ⊢
  intro m hm
  have := h m hm
  simp only [Bool.not_eq_true] at this
  simp [isFilledPriceElement, this]

/-- C18, as stated, fails: in `emptyFirstPrice` the first price element has no
text and the second holds `100 лв.`; `findPrice` returns `100 BGN`, not the
result for the text of the first price element (the sentinel). -/
theorem findPrice_first_match_counterexample :
    textLeaves emptyFirstPrice ∧
      firstPriceText emptyFirstPrice = [] ∧
      findPrice emptyFirstPrice = "100 BGN".toList ∧
      findPrice emptyFirstPrice ≠ parsePrice (firstPriceText emptyFirstPrice) := by
  refine ⟨?_, by decide, by decide, by decide⟩
  unfold textLeaves
  decide

/-- C18, amended: in a tree whose text nodes are leaves, `findPrice` returns
`parsePrice` of the text content of the first price `h6` in document order
whose text content is not empty (a price element without text is passed over);
so when the first price element has text, that element alone decides, and with
no price element the result is `parsePrice ""`. -/
theorem findPrice_first_filled (n : Node) (hw : textLeaves n) :
    findPrice n = parsePrice (firstFilledPriceText (preorder n)) ∧
      (∀ m, (preorder n).find? isPriceElement = some m → getTextContent m ≠ [] →
        findPrice n = parsePrice (getTextContent m)) ∧
      ((preorder n).find? isPriceElement = none → findPrice n = parsePrice []) := by
  have h : findPrice n = parsePrice (firstFilledPriceText (preorder n)) := by
    unfold findPrice
    rw [findPrice_f_first n hw]
  refine ⟨h, ?_, ?_⟩
  · intro m hm ht
    rw [h]
    unfold firstFilledPriceText
    rw [find?_filled_of_find? _ m hm ht]
  · intro hn
    rw [h]
    unfold firstFilledPriceText
    rw [find?_filled_none _ hn]

/-- C18 on a listing with a full price element and on the listing whose first
price element is empty. -/
theorem findPrice_first_filled_witness :
    findPrice (listingDiv "d1" fullFields) = "12,500 BGN".toList ∧
      findPrice emptyFirstPrice = parsePrice "100 лв.".toList :=
  ⟨((findPrice_first_filled (listingDiv "d1" fullFields)
      (by unfold textLeaves; decide)).1).trans (by decide),
    ((findPrice_first_filled emptyFirstPrice (by unfold textLeaves; decide)).1).trans
      (by decide)⟩

/-! ## The image URL -/

theorem urlRegex_eq : urlRegex =
    .cat (Regex.str "url(".toList)
      (.cat (.opt (.cls isQuote))
        (.cat (.group 1 (Regex.plus (.cls isUrlRune)))
          (.cat (.opt (.cls isQuote)) (.lit ')')))) := rfl

theorem run_cls_cons (p : Char → Bool) (c : Char) (t : Str) (caps : Caps) :
    run (.cls p) (c :: t, caps) = if p c then [(t, caps)] else [] := rfl

theorem run_lit_cons (a c : Char) (t : Str) (caps : Caps) :
    run (.lit a) (c :: t, caps) = if c = a then [(t, caps)] else [] := rfl

theorem take_append_length_sub (a r : Str) :
    List.take ((a ++ r).length - r.length) (a ++ r) = a := by
  simp

/-- The rest of the URL pattern, after `url(` and the opening quote: the URL,
the closing quote and the bracket. -/
theorem run_url_tail_head (q X : Str) (caps : Caps)
    (hq : q = [] ∨ q = ['\''] ∨ q = ['"']) (hX : X ≠ [])
    (hfree : ∀ c ∈ X, isUrlRune c = true) :
    (run (.cat (.group 1 (Regex.plus (.cls isUrlRune))) (.cat (.opt (.cls isQuote)) (.lit ')')))
      (X ++ (q ++ [')']), caps)).head? = some ([], (1, X) :: caps) := by
  cases X with
  | nil => exact absurd rfl hX
  | cons x X =>
    have hrest : ∀ c r, q ++ [')'] = c :: r → isUrlRune c = false := by
      intro c r h
      rcases hq with rfl | rfl | rfl <;>
        · simp only [List.nil_append, List.cons_append, List.cons.injEq] at h
          rw [← h.1]
          decide
    rw [run_cat]
    refine head?_flatMap_of_head? _ _ (q ++ [')'], (1, x :: X) :: caps) _ ?_ ?_
    · rw [run_group, List.head?_map]
      have h1 : (run (Regex.plus (.cls isUrlRune)) (x :: X ++ (q ++ [')']), caps)).head? =
          some (q ++ [')'], caps) := by
        unfold Regex.plus
        rw [run_cat, List.cons_append, run_cls_cons, if_pos (hfree x (List.mem_cons_self _ _))]
        simp only [List.flatMap_cons, List.flatMap_nil, List.append_nil]
        rw [run_star]
        exact starLoop_cls_head isUrlRune X _ caps _
          (fun c hc => hfree c (List.mem_cons_of_mem _ hc)) hrest (by simp)
      rw [h1]
      simp only [Option.map_some', take_append_length_sub]
    · rw [run_cat]
      refine head?_flatMap_of_head? _ _ ([')'], (1, x :: X) :: caps) _ ?_ ?_
      · rw [run_opt]
        rcases hq with rfl | rfl | rfl <;> rfl
      · rfl

/-- The URL pattern on `url(X)`, `url('X')` or `url("X")`: the whole text
matches and the group is `X`. -/
theorem matchAt_urlRegex (q X : Str) (hq : q = [] ∨ q = ['\''] ∨ q = ['"']) (hX : X ≠ [])
    (hfree : ∀ c ∈ X, isUrlRune c = true) :
    matchAt urlRegex ("url(".toList ++ (q ++ (X ++ (q ++ [')'])))) = some ([], [(1, X)]) := by
  unfold matchAt
  rw [urlRegex_eq, run_cat, run_str_append _ (by decide)]
  simp only [List.flatMap_cons, List.flatMap_nil, List.append_nil]
  rw [run_cat]
  refine head?_flatMap_of_head? _ _ (X ++ (q ++ [')']), []) _ ?_
    (run_url_tail_head q X [] hq hX hfree)
  rw [run_opt]
  rcases hq with rfl | rfl | rfl
  · cases X with
    | nil => exact absurd rfl hX
    | cons x X =>
      have hx : isQuote x = false := by
        have := hfree x (List.mem_cons_self _ _)
        simp only [isUrlRune, Bool.not_eq_true', Bool.or_eq_false_iff] at this
        exact this.1
      rw [List.nil_append, List.cons_append, run_cls_cons, hx]
      rfl
  · rfl
  · rfl

theorem search_cons_of_none (re : Regex) (c : Char) (t : Str)
    (h : matchAt re (c :: t) = none) : search re (c :: t) = search re t := by
  rw [search, h]

theorem search_cons_of_some (re : Regex) (c : Char) (t : Str) (st : MState)
    (h : matchAt re (c :: t) = some st) : search re (c :: t) = some (c :: t, st) := by
  rw [search, h]

theorem matchAt_urlRegex_none (c d : Char) (t : Str) (h : ¬ (c = 'u' ∧ d = 'r')) :
    matchAt urlRegex (c :: d :: t) = none := by
  unfold matchAt
  rw [urlRegex_eq, run_cat]
  have : run (Regex.str "url(".toList) (c :: d :: t, []) = [] := by
    by_cases hc : c = 'u'
    · have hd : d ≠ 'r' := fun hd => h ⟨hc, hd⟩
      simp [Regex.str, run, hc, hd]
    · simp [Regex.str, run, hc]
  rw [this]
  rfl

/-- The first match of the URL pattern in a style `background-image: url(X)`,
with or without quotes around `X`: the group is `X`. -/
theorem FindStringSubmatch_backgroundImage (q X : Str)
    (hq : q = [] ∨ q = ['\''] ∨ q = ['"']) (hX : X ≠ [])
    (hfree : ∀ c ∈ X, isUrlRune c = true) :
    FindStringSubmatch urlRegex 1 (backgroundImage q X) =
      ["url(".toList ++ (q ++ (X ++ (q ++ [')']))), X] := by
  have hm := matchAt_urlRegex q X hq hX hfree
  have hs : search urlRegex (backgroundImage q X) =
      some ("url(".toList ++ (q ++ (X ++ (q ++ [')']))), ([], [(1, X)])) := by
    show search urlRegex ('b' :: 'a' :: 'c' :: 'k' :: 'g' :: 'r' :: 'o' :: 'u' :: 'n' :: 'd' ::
      '-' :: 'i' :: 'm' :: 'a' :: 'g' :: 'e' :: ':' :: ' ' :: 'u' :: 'r' :: 'l' :: '(' ::
      (q ++ (X ++ (q ++ [')'])))) = _
    repeat rw [search_cons_of_none _ _ _ (matchAt_urlRegex_none _ _ _ (by decide))]
    exact search_cons_of_some _ _ _ _ hm
  unfold FindStringSubmatch
  rw [hs]
  simp [submatches, List.range, List.range.loop, List.lookup]

theorem findImageURL_attrs_find : ∀ (attrs : List Attribute) (a : Attribute) (url : Str),
    attrs.find? isStyleImage = some a →
    (∃ full rest, FindStringSubmatch urlRegex 1 a.Val = full :: url :: rest) →
    findImageURL.attrs attrs = some url := by
  intro attrs
  induction attrs with
  | nil => intro a url h; simp at h
  | cons x attrs ih =>
    intro a url h hr
    rw [List.find?_cons] at h
    rw [findImageURL.attrs]
    cases hx : isStyleImage x with
    | true =>
      rw [hx] at h
      simp only [Option.some.injEq] at h
      subst h
      simp only [isStyleImage, Bool.and_eq_true, decide_eq_true_eq] at hx
      rw [if_pos hx]
      rcases hr with ⟨full, rest, hr⟩
      rw [hr]
    | false =>
      rw [hx] at h
      rw [if_neg]
      · exact ih a url h hr
      · intro hc
        have : isStyleImage x = true := by
          simp only [isStyleImage, Bool.and_eq_true, decide_eq_true_eq]
          exact hc
        rw [hx] at this
        exact absurd this (by simp)

theorem findImageURL_children_skip : ∀ (cs : List Node) (url : Str), url ≠ [] →
    findImageURL.children cs url = url := by
  intro cs
  induction cs with
  | nil => intro url _; rfl
  | cons c cs ih =>
    intro url h
    rw [findImageURL.children, if_neg h]
    exact ih url h

theorem findImageURL_children_first (cs : List Node) (m : Node) (url : Str) (hurl : url ≠ [])
    (hattr : findImageURL.attrs m.attrs = some url)
    (ih : ∀ c ∈ cs, (preorder c).find? isImageElement = some m → findImageURL.f c [] = url) :
    (preorder.children cs).find? isImageElement = some m →
      findImageURL.children cs [] = url := by
  induction cs with
  | nil => intro h; simp [preorder.children] at h
  | cons c cs ihc =>
    intro h
    rw [preorder.children, List.find?_append] at h
    rw [findImageURL.children, if_pos rfl]
    cases hc : (preorder c).find? isImageElement with
    | some m' =>
      rw [hc] at h
      have h' : m' = m := by simpa using h
      subst h'
      rw [ih c (List.mem_cons_self _ _) hc]
      exact findImageURL_children_skip cs url hurl
    | none =>
      rw [hc] at h
      simp only [Option.none_or] at h
      have hnone : ∀ x ∈ preorder c, isImageElement x = false := by
        intro x hx
        have := List.find?_eq_none.mp hc x hx
        simpa using this
      rw [findImageURL_f_none c hnone []]
      exact ihc (fun x hx => ih x (List.mem_cons_of_mem _ hx)) h

theorem findImageURL_f_first (m : Node) (url : Str) (hurl : url ≠ [])
    (hattr : findImageURL.attrs m.attrs = some url) : ∀ (n : Node),
    (preorder n).find? isImageElement = some m → findImageURL.f n [] = url := by
  intro n
  induction n using Node.induct with
  | h ty data attr cs ih =>
    intro h
    rw [preorder, List.find?_cons] at h
    cases hn : isImageElement (.mk ty data attr cs) with
    | true =>
      rw [hn] at h
      simp only [Option.some.injEq] at h
      subst h
      simp only [isImageElement, Bool.and_eq_true, decide_eq_true_eq] at hn
      simp only [Node.attrs] at hattr
      rw [findImageURL.f, if_pos hn.1, hattr]
    | false =>
      rw [hn] at h
      have hch := findImageURL_children_first cs m url hurl hattr ih h
      rw [findImageURL.f]
      split
      · next hc =>
        have hnone : findImageURL.attrs attr = none := by
          apply findImageURL_attrs_none
          simpa [isImageElement, hc.1, hc.2] using hn
        rw [hnone]
        exact hch
      · exact hch

/-- C19: when the first `div` in document order whose `style` attribute mentions
`background-image` has the style `background-image: url(X)`, with `X` bare or
between two single or two double quotes, `X` not empty and free of quotes and
brackets, `findImageURL` returns `X`; and it returns the empty text when the
subtree has no such `div`. -/
theorem findImageURL_backgroundImage (n : Node) :
    (∀ (m : Node) (a : Attribute) (q X : Str),
        (preorder n).find? isImageElement = some m →
        m.attrs.find? isStyleImage = some a →
        (q = [] ∨ q = ['\''] ∨ q = ['"']) →
        X ≠ [] → (∀ c ∈ X, c ≠ '\'' ∧ c ≠ '"' ∧ c ≠ '(' ∧ c ≠ ')') →
        a.Val = backgroundImage q X →
        findImageURL n = X) ∧
      ((preorder n).find? isImageElement = none → findImageURL n = []) := by
  constructor
  · intro m a q X hfirst hattr hq hX hfree hval
    have hfree' : ∀ c ∈ X, isUrlRune c = true := by
      intro c hc
      have := hfree c hc
      simp [isUrlRune, isQuote, this.1, this.2.1, this.2.2.2]
    have hre := FindStringSubmatch_backgroundImage q X hq hX hfree'
    have hattrs : findImageURL.attrs m.attrs = some X :=
      findImageURL_attrs_find m.attrs a X hattr ⟨_, [], by rw [hval]; exact hre⟩
    exact findImageURL_f_first m X hX hattrs n hfirst
  · intro hnone
    refine findImageURL_f_none n ?_ []
    intro x hx
    have := List.find?_eq_none.mp hnone x hx
    simpa using this

/-- C19 on a listing whose image `div` has a quoted URL, and on a listing without
sub-elements. -/
theorem findImageURL_backgroundImage_witness :
    findImageURL (listingDiv "d1" fullFields) = "/img/1.jpg".toList ∧
      findImageURL (listingDiv "d3" []) = [] :=
  ⟨(findImageURL_backgroundImage (listingDiv "d1" fullFields)).1
      (.mk .ElementNode "div".toList
        [⟨[], "style".toList, "background-image: url('/img/1.jpg')".toList⟩] [])
      ⟨[], "style".toList, "background-image: url('/img/1.jpg')".toList⟩
      ['\''] "/img/1.jpg".toList rfl (by decide) (by decide) (by decide) (by decide)
      (by decide),
    (findImageURL_backgroundImage (listingDiv "d3" [])).2 rfl⟩

/-! ## The whitespace of the result -/

theorem Contains_two_spaces_of_not_mem : ∀ (s : Str), ' ' ∉ s →
    Contains s "  ".toList = false := by
  intro s
  induction s with
  | nil => intro _; rfl
  | cons c s ih =>
    intro h
    simp only [List.mem_cons, not_or] at h
    have hc : (c == ' ') = false := by
      rw [beq_eq_false_iff_ne]
      exact fun hca => h.1 hca.symm
    rw [Contains, ih h.2]
    simp [HasPrefix, hc]

/-- The text amount, space, currency is in whitespace normal form when the
amount and the currency are not empty and hold no space, newline or tab. -/
theorem whitespaceNormal_render (A C : Str) (hA : A ≠ []) (hC : C ≠ [])
    (hA' : ' ' ∉ A ∧ '\n' ∉ A ∧ '\t' ∉ A) (hC' : ' ' ∉ C ∧ '\n' ∉ C ∧ '\t' ∉ C) :
    whitespaceNormal (A ++ " ".toList ++ C) := by
  have e : A ++ " ".toList ++ C = A ++ ' ' :: C := by simp
  rw [e]
  refine ⟨?_, ?_, ?_, ?_, ?_⟩
  · simp only [List.mem_append, List.mem_cons, not_or]
    exact ⟨hA'.2.1, by decide, hC'.2.1⟩
  · simp only [List.mem_append, List.mem_cons, not_or]
    exact ⟨hA'.2.2, by decide, hC'.2.2⟩
  · cases C with
    | nil => exact absurd rfl hC
    | cons x r =>
      refine Contains_two_spaces_append A hA'.1 x r ?_ (Contains_two_spaces_of_not_mem _ hC'.1)
      intro hx
      exact hC'.1 (by rw [hx]; exact List.mem_cons_self _ _)
  · cases A with
    | nil => exact absurd rfl hA
    | cons a A =>
      simp only [List.cons_append, List.head?_cons, ne_eq, Option.some.injEq]
      intro ha
      exact hA'.1 (by rw [ha]; exact List.mem_cons_self _ _)
  · cases C with
    | nil => exact absurd rfl hC
    | cons x r =>
      have hne : x :: r ≠ [] := by simp
      have e2 : A ++ ' ' :: x :: r = (A ++ [' ']) ++ (x :: r) := by simp
      rw [e2, List.getLast?_append, List.getLast?_eq_getLast _ hne]
      intro hl
      have hl' : (x :: r).getLast hne = ' ' := by simpa [Option.or] using hl
      exact hC'.1 (by rw [← hl']; exact List.getLast_mem hne)

theorem commas_for_spaces (A : Str) (hA : A ≠ []) (hn : '\n' ∉ A) (ht : '\t' ∉ A) :
    ReplaceAll A " ".toList ",".toList ≠ [] ∧ ' ' ∉ ReplaceAll A " ".toList ",".toList ∧
      '\n' ∉ ReplaceAll A " ".toList ",".toList ∧ '\t' ∉ ReplaceAll A " ".toList ",".toList := by
  have e : ReplaceAll A " ".toList ",".toList = A.map fun c => if c = ' ' then ',' else c :=
    ReplaceAll_single ' ' ',' A
  rw [e]
  refine ⟨by simpa using hA, ?_, ?_, ?_⟩
  · simp only [List.mem_map, not_exists, not_and]
    intro c _ h
    by_cases hc : c = ' '
    · rw [if_pos hc] at h
      exact absurd h (by decide)
    · rw [if_neg hc] at h
      exact hc h
  · simp only [List.mem_map, not_exists, not_and]
    intro c hc h
    by_cases hs : c = ' '
    · rw [if_pos hs] at h
      exact absurd h (by decide)
    · rw [if_neg hs] at h
      exact hn (by rw [← h]; exact hc)
  · simp only [List.mem_map, not_exists, not_and]
    intro c hc h
    by_cases hs : c = ' '
    · rw [if_pos hs] at h
      exact absurd h (by decide)
    · rw [if_neg hs] at h
      exact ht (by rw [← h]; exact hc)

theorem currencyToken_plain (C : Str) (h : C ∈ currencyTokens) :
    C ≠ [] ∧ ' ' ∉ C ∧ '\n' ∉ C ∧ '\t' ∉ C := by
  simp only [currencyTokens, List.mem_cons, List.mem_singleton, List.not_mem_nil, or_false] at h
  rcases h with rfl | rfl | rfl | rfl <;> decide

theorem run_amountPattern_shorter (st st' : MState) (h : st' ∈ run amountPattern st) :
    st'.1.length < st.1.length := by
  unfold amountPattern Regex.plus at h
  rw [run_cat, run_cat] at h
  simp only [List.mem_flatMap] at h
  rcases h with ⟨st2, ⟨st1, h1, h2⟩, h3⟩
  have k1 := run_cls_shorter _ _ _ h1
  have k2 := (run_suffix _ _ _ h2).length_le
  have k3 := (run_suffix _ _ _ h3).length_le
  omega

/-- The text a pattern has read, when it read something: not empty, and made of
runes of the text it was run on. -/
theorem consumed_text (start rest : Str) (hl : rest.length < start.length) :
    start.take (start.length - rest.length) ≠ [] ∧
      ∀ c ∈ start.take (start.length - rest.length), c ∈ start := by
  constructor
  · intro h
    rw [List.take_eq_nil_iff] at h
    rcases h with h | h
    · omega
    · rw [h] at hl
      simp at hl
  · intro c hc
    exact List.mem_of_mem_take hc

theorem whitespaceNormal_renderPrice (s a c : Str) (hn : '\n' ∉ s) (ht : '\t' ∉ s)
    (ha : a ≠ []) (has : ∀ x ∈ a, x ∈ s) (hc : c ≠ [] ∧ ' ' ∉ c ∧ '\n' ∉ c ∧ '\t' ∉ c) :
    whitespaceNormal (renderPrice a c) := by
  have h := commas_for_spaces a ha (fun h => hn (has _ h)) (fun h => ht (has _ h))
  exact whitespaceNormal_render _ c h.1 hc.1 h.2 hc.2

/-- Every structured match holds a non-empty amount made of runes of the text,
and a currency token. -/
theorem FindAll_priceRegex_amount_mem (s : Str) (m : List Str)
    (h : m ∈ FindAllStringSubmatch priceRegex 2 s) :
    ∃ full amount cur, m = [full, amount, cur] ∧ cur ∈ currencyTokens ∧ amount ≠ [] ∧
      ∀ c ∈ amount, c ∈ s := by
  rcases findAllLoop_mem priceRegex 2 _ s false m h with ⟨start, st, h1, h2, h3⟩
  have hm := List.mem_of_mem_head? h1
  unfold priceRegex at hm
  rw [run_cat, run_group] at hm
  simp only [List.mem_flatMap, List.mem_map, run_cat, run_group, run_star] at hm
  rcases hm with ⟨st1, ⟨st0, h0, rfl⟩, st2, hst2, st3, hst3, rfl⟩
  have c0 := run_caps amountPattern amountPattern_groupFree _ _ h0
  have c2 := starLoop_caps _ (run_caps (.cls isReSpace) rfl) _ _ _ hst2
  rcases run_currencyPattern_mem _ _ hst3 with ⟨tok, htok, k1, k2⟩
  have hshort := run_amountPattern_shorter _ _ h0
  have hcons := consumed_text start st0.1 hshort
  refine ⟨List.take (start.length - st3.1.length) start,
    List.take (start.length - st0.1.length) start, tok, ?_, htok, hcons.1, ?_⟩
  · rw [h3]
    simp only [submatches, List.range, List.range.loop, List.map]
    simp [k2, c2, c0, k1, List.lookup]
  · intro c hc
    exact h2.subset (hcons.2 c hc)

theorem FindAllString_numberRegex_mem (s N : Str) (h : N ∈ FindAllString numberRegex 1 s) :
    N ≠ [] ∧ ∀ c ∈ N, c ∈ s := by
  unfold FindAllString at h
  rw [List.mem_map] at h
  rcases h with ⟨m, hm, rfl⟩
  rcases findAllLoop_mem numberRegex 1 _ s false m hm with ⟨start, st, h1, h2, rfl⟩
  have hst := List.mem_of_mem_head? h1
  unfold numberRegex at hst
  rw [run_group, List.mem_map] at hst
  rcases hst with ⟨st0, h0, rfl⟩
  have hshort := run_amountPattern_shorter _ _ h0
  have hcons := consumed_text start st0.1 hshort
  simp only [submatches, List.headD_cons]
  exact ⟨hcons.1, fun c hc => h2.subset (hcons.2 c hc)⟩

theorem FindAllString_currencyRegex_mem (s C : Str) (h : C ∈ FindAllString currencyRegex 1 s) :
    C ∈ currencyTokens := by
  unfold FindAllString at h
  rw [List.mem_map] at h
  rcases h with ⟨m, hm, rfl⟩
  rcases findAllLoop_mem currencyRegex 1 _ s false m hm with ⟨start, st, h1, _, rfl⟩
  have hst := List.mem_of_mem_head? h1
  unfold currencyRegex at hst
  rw [run_group, List.mem_map] at hst
  rcases hst with ⟨st0, h0, rfl⟩
  rcases run_currencyPattern_mem _ _ h0 with ⟨tok, htok, k1, _⟩
  simp only at k1
  simp only [submatches, List.headD_cons, k1]
  simpa using htok

theorem normalized_currency_plain (C : Str) (h : C ∈ currencyTokens) :
    (if Contains C "лв".toList = true then "BGN".toList else C) ≠ [] ∧
      ' ' ∉ (if Contains C "лв".toList = true then "BGN".toList else C) ∧
      '\n' ∉ (if Contains C "лв".toList = true then "BGN".toList else C) ∧
      '\t' ∉ (if Contains C "лв".toList = true then "BGN".toList else C) := by
  simp only [currencyTokens, List.mem_cons, List.mem_singleton, List.not_mem_nil, or_false] at h
  rcases h with rfl | rfl | rfl | rfl <;> decide

/-- C20: for every input the result of `parsePrice` has no newline, no tab and
no two consecutive spaces, and neither begins nor ends with a space. -/
theorem parsePrice_whitespace_normal (rawPrice : Str) :
    whitespaceNormal (parsePrice rawPrice) := by
  have hnt := cleanPrice_no_newline_tab rawPrice
  unfold parsePrice
  by_cases hne : cleanPrice rawPrice = []
  · simp only [hne, if_true]
    unfold whitespaceNormal
    decide
  · simp only [hne, if_false]
    cases hm : FindAllStringSubmatch priceRegex 2 (cleanPrice rawPrice) with
    | cons m0 ms =>
      have hall : ∀ x ∈ m0 :: ms, ∃ full amount cur, x = [full, amount, cur] ∧
          cur ∈ currencyTokens ∧ amount ≠ [] ∧ ∀ c ∈ amount, c ∈ cleanPrice rawPrice := by
        intro x hx
        rw [← hm] at hx
        exact FindAll_priceRegex_amount_mem _ x hx
      have hp := preferBGN_eq_find (m0 :: ms) fun x hx => by
        rcases hall x hx with ⟨f, a, c, h1, h2, _⟩
        exact ⟨f, a, c, h2, h1⟩
      rcases hall m0 (List.mem_cons_self _ _) with ⟨f0, a0, c0, rfl, hc0, ha0, has0⟩
      simp only [hp]
      cases hf : List.find? isLevMatch ([f0, a0, c0] :: ms) with
      | some x =>
        rcases hall x (List.mem_of_find?_eq_some hf) with ⟨f, a, c, rfl, _, ha, has⟩
        simp only [Option.map_some', List.getD_cons_succ, List.getD_cons_zero]
        exact whitespaceNormal_renderPrice _ a _ hnt.1 hnt.2 ha has (by decide)
      | none =>
        simp only [Option.map_none']
        exact whitespaceNormal_renderPrice _ a0 c0 hnt.1 hnt.2 ha0 has0
          (currencyToken_plain c0 hc0)
    | nil =>
      simp only []
      cases hN : FindAllString numberRegex 1 (cleanPrice rawPrice) with
      | nil =>
        simp only []
        exact ⟨hnt.1, hnt.2, cleanPrice_no_double_space rawPrice,
          fun h => absurd (cleanPrice_head rawPrice ' ' h) (by decide),
          fun h => absurd (cleanPrice_last rawPrice ' ' h) (by decide)⟩
      | cons N restN =>
        cases hC : FindAllString currencyRegex 1 (cleanPrice rawPrice) with
        | nil =>
          simp only []
          exact ⟨hnt.1, hnt.2, cleanPrice_no_double_space rawPrice,
            fun h => absurd (cleanPrice_head rawPrice ' ' h) (by decide),
            fun h => absurd (cleanPrice_last rawPrice ' ' h) (by decide)⟩
        | cons C restC =>
          simp only []
          have hNm := FindAllString_numberRegex_mem (cleanPrice rawPrice) N
            (by rw [hN]; exact List.mem_cons_self _ _)
          have hCm := FindAllString_currencyRegex_mem (cleanPrice rawPrice) C
            (by rw [hC]; exact List.mem_cons_self _ _)
          exact whitespaceNormal_renderPrice _ N _ hnt.1 hnt.2 hNm.1 hNm.2
            (normalized_currency_plain C hCm)

/-! ## The page count of the command -/

/-- C11, as stated, fails: the third argument `50` is not clamped to 10, and
`0` is not clamped to 1; in both cases the page count is the default 2. -/
theorem CarsCommand_clamp_counterexample :
    Atoi "50".toList = some 50 ∧ clampPages 50 = 10 ∧
      (CarsCommand ["bmw".toList, "x5".toList, "50".toList]).2.2 = 2 ∧
      Atoi "0".toList = some 0 ∧ clampPages 0 = 1 ∧
      (CarsCommand ["bmw".toList, "x5".toList, "0".toList]).2.2 = 2 := by
  decide

/-- C11, amended: the page count is the value of the third argument when that
argument is an integer from 1 to 10, and the default 2 in every other case (no
third argument, not an integer, or a value below 1 or above 10, which is not
clamped); it always lies in 1..10. -/
theorem CarsCommand_maxPages (args : List Str) :
    (args.length < 3 → (CarsCommand args).2.2 = 2) ∧
      (∀ third v, args[2]? = some third → Atoi third = some v → 1 ≤ v → v ≤ 10 →
        (CarsCommand args).2.2 = v) ∧
      (∀ third, args[2]? = some third →
        (Atoi third = none ∨ ∃ v, Atoi third = some v ∧ (v < 1 ∨ 10 < v)) →
        (CarsCommand args).2.2 = 2) ∧
      1 ≤ (CarsCommand args).2.2 ∧ (CarsCommand args).2.2 ≤ 10 := by
  have hget : ∀ third, args[2]? = some third → 3 ≤ args.length ∧ args.getD 2 [] = third := by
    intro third h
    have hlen : 2 < args.length := by
      by_contra hc
      rw [List.getElem?_eq_none (by omega)] at h
      simp at h
    exact ⟨hlen, by simp [List.getD, h]⟩
  refine ⟨?_, ?_, ?_, ?_⟩
  · intro h
    simp only [CarsCommand]
    rw [if_neg (by omega)]
  · intro third v h hv h1 h10
    rcases hget third h with ⟨hlen, hg⟩
    simp only [CarsCommand]
    rw [if_pos hlen, hg, hv]
    simp only []
    rw [if_pos ⟨by omega, h10⟩]
  · intro third h hv
    rcases hget third h with ⟨hlen, hg⟩
    simp only [CarsCommand]
    rw [if_pos hlen, hg]
    rcases hv with hv | ⟨v, hv, hr⟩
    · rw [hv]
    · rw [hv]
      simp only []
      rw [if_neg (by omega)]
  · simp only [CarsCommand]
    split
    · split
      · split
        · next h => exact ⟨by omega, h.2⟩
        · exact ⟨by decide, by decide⟩
      · exact ⟨by decide, by decide⟩
    · exact ⟨by decide, by decide⟩

/-- C11 on `!cars BMW X5 5`, on `!cars BMW` and on `!cars BMW X5 many`. -/
theorem CarsCommand_maxPages_witness :
    (CarsCommand ["BMW".toList, "X5".toList, "5".toList]).2.2 = 5 ∧
      (CarsCommand ["BMW".toList]).2.2 = 2 ∧
      (CarsCommand ["BMW".toList, "X5".toList, "many".toList]).2.2 = 2 :=
  ⟨(CarsCommand_maxPages ["BMW".toList, "X5".toList, "5".toList]).2.1 "5".toList 5 rfl
      (by decide) (by decide) (by decide),
    (CarsCommand_maxPages ["BMW".toList]).1 (by decide),
    (CarsCommand_maxPages ["BMW".toList, "X5".toList, "many".toList]).2.2.1 "many".toList rfl
      (Or.inl (by decide))⟩

/-! ## Escaping and unescaping -/

theorem Char_toNat_lt (c : Char) : c.toNat < 0x110000 := by
  have h := c.valid
  unfold UInt32.isValidChar Nat.isValidChar at h
  unfold Char.toNat
  omega

theorem utf8Decode_one (b : Nat) (rest : List Nat) (h : b < 0x80) :
    utf8Decode (b :: rest) = Char.ofNat b :: utf8Decode rest := by
  rcases rest with _ | ⟨x, _ | ⟨y, _ | ⟨z, t⟩⟩⟩ <;> simp [utf8Decode, h]

theorem utf8Decode_two (b b2 : Nat) (rest : List Nat) (h1 : 0x80 ≤ b) (h2 : b < 0xE0) :
    utf8Decode (b :: b2 :: rest) =
      Char.ofNat ((b - 0xC0) * 64 + (b2 - 0x80)) :: utf8Decode rest := by
  have h : ¬ b < 0x80 := by omega
  rcases rest with _ | ⟨x, _ | ⟨y, t⟩⟩ <;> simp [utf8Decode, h, h2]

theorem utf8Decode_three (b b2 b3 : Nat) (rest : List Nat) (h1 : 0xE0 ≤ b) (h2 : b < 0xF0) :
    utf8Decode (b :: b2 :: b3 :: rest) =
      Char.ofNat ((b - 0xE0) * 4096 + (b2 - 0x80) * 64 + (b3 - 0x80)) :: utf8Decode rest := by
  have h : ¬ b < 0x80 := by omega
  have h' : ¬ b < 0xE0 := by omega
  rcases rest with _ | ⟨x, t⟩ <;> simp [utf8Decode, h, h', h2]

theorem utf8Decode_four (b b2 b3 b4 : Nat) (rest : List Nat) (h1 : 0xF0 ≤ b) :
    utf8Decode (b :: b2 :: b3 :: b4 :: rest) =
      Char.ofNat ((b - 0xF0) * 262144 + (b2 - 0x80) * 4096 + (b3 - 0x80) * 64 + (b4 - 0x80)) ::
        utf8Decode rest := by
  have h : ¬ b < 0x80 := by omega
  have h' : ¬ b < 0xE0 := by omega
  have h'' : ¬ b < 0xF0 := by omega
  simp [utf8Decode, h, h', h'']

/-- Decoding the UTF-8 bytes of a code point gives the code point back. -/
theorem utf8Decode_utf8Bytes (c : Char) (rest : List Nat) :
    utf8Decode (utf8Bytes c ++ rest) = c :: utf8Decode rest := by
  have hlt := Char_toNat_lt c
  have hc := Char.ofNat_toNat c
  unfold utf8Bytes
  simp only []
  split
  · next h =>
    rw [List.singleton_append, utf8Decode_one _ _ h, hc]
  · split
    · next h1 h2 =>
      rw [List.cons_append, List.singleton_append, utf8Decode_two _ _ _ (by omega) (by omega)]
      have : (0xC0 + c.toNat / 64 - 0xC0) * 64 + (0x80 + c.toNat % 64 - 0x80) = c.toNat := by
        omega
      rw [this, hc]
    · split
      · next h1 h2 h3 =>
        rw [List.cons_append, List.cons_append, List.singleton_append,
          utf8Decode_three _ _ _ _ (by omega) (by omega)]
        have : (0xE0 + c.toNat / 4096 - 0xE0) * 4096 + (0x80 + c.toNat / 64 % 64 - 0x80) * 64 +
            (0x80 + c.toNat % 64 - 0x80) = c.toNat := by
          omega
        rw [this, hc]
      · next h1 h2 h3 =>
        rw [List.cons_append, List.cons_append, List.cons_append, List.singleton_append,
          utf8Decode_four _ _ _ _ _ (by omega)]
        have : (0xF0 + c.toNat / 262144 - 0xF0) * 262144 +
            (0x80 + c.toNat / 4096 % 64 - 0x80) * 4096 +
            (0x80 + c.toNat / 64 % 64 - 0x80) * 64 + (0x80 + c.toNat % 64 - 0x80) = c.toNat := by
          omega
        rw [this, hc]

theorem utf8Decode_flatMap : ∀ (s : Str), utf8Decode (s.flatMap utf8Bytes) = s := by
  intro s
  induction s with
  | nil => rfl
  | cons c s ih => rw [List.flatMap_cons, utf8Decode_utf8Bytes, ih]

theorem utf8Bytes_lt (c : Char) : ∀ b ∈ utf8Bytes c, b < 256 := by
  have hlt := Char_toNat_lt c
  intro b hb
  unfold utf8Bytes at hb
  simp only [] at hb
  split at hb
  · simp only [List.mem_singleton] at hb
    omega
  · split at hb
    · simp only [List.mem_cons, List.mem_singleton, List.not_mem_nil, or_false] at hb
      rcases hb with rfl | rfl <;> omega
    · split at hb
      · simp only [List.mem_cons, List.mem_singleton, List.not_mem_nil, or_false] at hb
        rcases hb with rfl | rfl | rfl <;> omega
      · simp only [List.mem_cons, List.mem_singleton, List.not_mem_nil, or_false] at hb
        rcases hb with rfl | rfl | rfl | rfl <;> omega

theorem hexValue_hexDigit : ∀ n : Nat, n < 16 → hexValue (hexDigit n) = n := by
  decide

theorem unescapeBytes_percent (h l : Char) (t : Str) :
    unescapeBytes ('%' :: h :: l :: t) = (16 * hexValue h + hexValue l) :: unescapeBytes t := by
  rw [unescapeBytes]

theorem unescapeBytes_plain (c : Char) (t : Str) (hc : c ≠ '%') :
    unescapeBytes (c :: t) = (if c = '+' then 32 else c.toNat) :: unescapeBytes t := by
  rw [unescapeBytes]
  intro h l t' heq
  exact absurd heq hc

theorem unescapeBytes_escaped : ∀ (bs : List Nat) (r : Str), (∀ b ∈ bs, b < 256) →
    unescapeBytes (bs.flatMap (fun b => ['%', hexDigit (b / 16), hexDigit (b % 16)]) ++ r) =
      bs ++ unescapeBytes r := by
  intro bs
  induction bs with
  | nil => intro r _; rfl
  | cons b bs ih =>
    intro r h
    have hb := h b (List.mem_cons_self _ _)
    rw [List.flatMap_cons]
    simp only [List.cons_append, List.nil_append]
    rw [unescapeBytes_percent, hexValue_hexDigit _ (by omega), hexValue_hexDigit _ (by omega),
      ih r fun x hx => h x (List.mem_cons_of_mem _ hx)]
    congr 1
    omega

theorem isUnreserved_ascii (c : Char) (h : isUnreserved c = true) :
    c.toNat < 0x80 ∧ c ≠ '%' ∧ c ≠ '+' ∧ c ≠ '&' ∧ c ≠ '=' := by
  have hn : c.toNat < 0x80 ∧ c.toNat ≠ 37 ∧ c.toNat ≠ 43 ∧ c.toNat ≠ 38 ∧ c.toNat ≠ 61 := by
    simp only [isUnreserved, Bool.or_eq_true, Bool.and_eq_true, decide_eq_true_eq] at h
    rcases h with (((((h | h) | h) | h) | h) | h) | h
    · have h1 : 97 ≤ c.toNat := h.1
      have h2 : c.toNat ≤ 122 := h.2
      omega
    · have h1 : 65 ≤ c.toNat := h.1
      have h2 : c.toNat ≤ 90 := h.2
      omega
    · have h1 : 48 ≤ c.toNat := h.1
      have h2 : c.toNat ≤ 57 := h.2
      omega
    · subst h; decide
    · subst h; decide
    · subst h; decide
    · subst h; decide
  refine ⟨hn.1, ?_, ?_, ?_, ?_⟩
  · intro e; subst e; exact hn.2.1 (by decide)
  · intro e; subst e; exact hn.2.2.1 (by decide)
  · intro e; subst e; exact hn.2.2.2.1 (by decide)
  · intro e; subst e; exact hn.2.2.2.2 (by decide)

/-- The escape of one rune, as `url.QueryEscape` writes it. -/
theorem QueryEscape_cons (c : Char) (s : Str) :
    QueryEscape (c :: s) =
      (if isUnreserved c then [c]
        else if c = ' ' then ['+']
        else (utf8Bytes c).flatMap fun b => ['%', hexDigit (b / 16), hexDigit (b % 16)]) ++
      QueryEscape s := by
  unfold QueryEscape
  rw [List.flatMap_cons]

theorem unescapeBytes_QueryEscape : ∀ (s : Str),
    unescapeBytes (QueryEscape s) = s.flatMap utf8Bytes := by
  intro s
  induction s with
  | nil => rfl
  | cons c s ih =>
    rw [QueryEscape_cons, List.flatMap_cons]
    split
    · next h =>
      have ha := isUnreserved_ascii c h
      rw [List.singleton_append, unescapeBytes_plain _ _ ha.2.1, if_neg ha.2.2.1, ih]
      have : utf8Bytes c = [c.toNat] := by
        unfold utf8Bytes
        simp only []
        rw [if_pos ha.1]
      rw [this]
      rfl
    · split
      · next h1 h2 =>
        subst h2
        rw [List.singleton_append, unescapeBytes_plain _ _ (by decide), if_pos rfl, ih]
        rfl
      · rw [unescapeBytes_escaped _ _ (utf8Bytes_lt c), ih]

/-- Unescaping an escaped text gives the text back. -/
theorem QueryUnescape_QueryEscape (s : Str) : QueryUnescape (QueryEscape s) = s := by
  unfold QueryUnescape
  rw [unescapeBytes_QueryEscape, utf8Decode_flatMap]

theorem hexDigit_plain : ∀ n : Nat, hexDigit n ≠ '&' ∧ hexDigit n ≠ '=' := by
  intro n
  by_cases h : n < 16
  · have : ∀ n : Nat, n < 16 → hexDigit n ≠ '&' ∧ hexDigit n ≠ '=' := by decide
    exact this n h
  · have : hexDigit n = '0' := by
      unfold hexDigit
      rw [List.getD_eq_default]
      show ['0', '1', '2', '3', '4', '5', '6', '7', '8', '9', 'A', 'B', 'C', 'D', 'E', 'F'].length ≤ n
      simp only [List.length_cons, List.length_nil]
      omega
    rw [this]
    decide

/-- An escaped text holds neither `&` nor `=`. -/
theorem QueryEscape_plain : ∀ (s : Str), '&' ∉ QueryEscape s ∧ '=' ∉ QueryEscape s := by
  have key : ∀ (s : Str), ∀ x ∈ QueryEscape s, x ≠ '&' ∧ x ≠ '=' := by
    intro s
    induction s with
    | nil => intro x hx; simp [QueryEscape] at hx
    | cons c s ih =>
      intro x hx
      rw [QueryEscape_cons, List.mem_append] at hx
      rcases hx with hx | hx
      · split at hx
        · next h =>
          simp only [List.mem_singleton] at hx
          subst hx
          exact ⟨(isUnreserved_ascii x h).2.2.2.1, (isUnreserved_ascii x h).2.2.2.2⟩
        · split at hx
          · simp only [List.mem_singleton] at hx
            subst hx
            decide
          · simp only [List.mem_flatMap, List.mem_cons, List.mem_singleton, List.not_mem_nil,
              or_false] at hx
            rcases hx with ⟨b, _, rfl | rfl | rfl⟩
            · decide
            · exact hexDigit_plain _
            · exact hexDigit_plain _
      · exact ih x hx
  intro s
  exact ⟨fun h => (key s _ h).1 rfl, fun h => (key s _ h).2 rfl⟩

theorem cutAt_append (sep : Char) : ∀ (k v : Str), sep ∉ k →
    cutAt sep (k ++ sep :: v) = (k, v) := by
  intro k
  induction k with
  | nil => intro v _; simp [cutAt]
  | cons c k ih =>
    intro v h
    simp only [List.mem_cons, not_or] at h
    have hc : c ≠ sep := fun e => h.1 e.symm
    rw [List.cons_append, cutAt, if_neg hc, ih v h.2]

theorem splitOn_not_mem (sep : Char) : ∀ (w : Str), sep ∉ w → splitOn sep w = [w] := by
  intro w
  induction w with
  | nil => intro _; rfl
  | cons c w ih =>
    intro h
    simp only [List.mem_cons, not_or] at h
    have hc : c ≠ sep := fun e => h.1 e.symm
    rw [splitOn, if_neg hc, ih h.2]

theorem splitOn_append (sep : Char) : ∀ (w rest : Str), sep ∉ w →
    splitOn sep (w ++ sep :: rest) = w :: splitOn sep rest := by
  intro w
  induction w with
  | nil => intro rest _; simp [splitOn]
  | cons c w ih =>
    intro rest h
    simp only [List.mem_cons, not_or] at h
    have hc : c ≠ sep := fun e => h.1 e.symm
    rw [List.cons_append, splitOn, if_neg hc, ih rest h.2]

theorem splitOn_intercalate (sep : Char) : ∀ (l : List Str), l ≠ [] → (∀ w ∈ l, sep ∉ w) →
    splitOn sep (List.intercalate [sep] l) = l := by
  intro l
  induction l with
  | nil => intro h; exact absurd rfl h
  | cons w l ih =>
    intro _ h
    cases l with
    | nil =>
      simp only [List.intercalate, List.intersperse, List.flatten, List.append_nil]
      exact splitOn_not_mem sep w (h w (List.mem_cons_self _ _))
    | cons w2 l =>
      have e : List.intercalate [sep] (w :: w2 :: l) =
          w ++ sep :: List.intercalate [sep] (w2 :: l) := by
        simp [List.intercalate, List.intersperse]
      rw [e, splitOn_append sep w _ (h w (List.mem_cons_self _ _)),
        ih (by simp) fun x hx => h x (List.mem_cons_of_mem _ hx)]

/-! ## The search URL -/

/-- Reading back a query made of escaped pairs gives the pairs. -/
theorem ParseQuery_pairs (l : List (Str × Str)) (hl : l ≠ []) :
    ParseQuery (List.intercalate ['&'] (l.map pairText)) = l := by
  have hamp : ∀ w ∈ l.map pairText, '&' ∉ w := by
    intro w hw
    rw [List.mem_map] at hw
    rcases hw with ⟨kv, _, rfl⟩
    unfold pairText
    simp only [List.mem_append, List.mem_cons, not_or]
    exact ⟨(QueryEscape_plain kv.1).1, by decide, (QueryEscape_plain kv.2).1⟩
  unfold ParseQuery
  rw [splitOn_intercalate '&' _ (by simpa using hl) hamp]
  have hfilter : (l.map pairText).filter (fun piece => !piece.isEmpty) = l.map pairText := by
    rw [List.filter_eq_self]
    intro w hw
    rw [List.mem_map] at hw
    rcases hw with ⟨kv, _, rfl⟩
    simp [pairText]
  rw [hfilter, List.map_map]
  conv => rhs; rw [← List.map_id l]
  refine List.map_congr_left fun kv _ => ?_
  simp only [Function.comp, pairText, id]
  rw [cutAt_append '=' _ _ (QueryEscape_plain kv.1).2]
  simp only [QueryUnescape_QueryEscape]

theorem Values_pairs_append (a b : Values) :
    Values.pairs (a ++ b) = Values.pairs a ++ Values.pairs b := by
  induction a with
  | nil => rfl
  | cons kv a ih =>
    rcases kv with ⟨k, vs⟩
    rw [List.cons_append, Values.pairs, Values.pairs, ih, List.append_assoc]

theorem foldl_Add_acc (key : Str) (pre post : Values)
    (h2 : ∀ acc v, Values.Add (pre ++ (key, acc) :: post) key v =
      pre ++ (key, acc ++ [v]) :: post) :
    ∀ (ms : List Str) (acc : List Str),
      ms.foldl (fun ps mid => Values.Add ps key mid) (pre ++ (key, acc) :: post) =
        pre ++ (key, acc ++ ms) :: post := by
  intro ms
  induction ms with
  | nil => intro acc; simp
  | cons m ms ih =>
    intro acc
    rw [List.foldl_cons, h2, ih]
    simp

theorem foldl_Add_pairs (key : Str) (pre post : Values)
    (h1 : ∀ v, Values.Add (pre ++ post) key v = pre ++ (key, [v]) :: post)
    (h2 : ∀ acc v, Values.Add (pre ++ (key, acc) :: post) key v =
      pre ++ (key, acc ++ [v]) :: post) (ms : List Str) :
    Values.pairs (ms.foldl (fun ps mid => Values.Add ps key mid) (pre ++ post)) =
      Values.pairs pre ++ ms.map (fun v => pairText (key, v)) ++ Values.pairs post := by
  cases ms with
  | nil => simp [Values_pairs_append]
  | cons m ms =>
    rw [List.foldl_cons, h1, foldl_Add_acc key pre post h2, Values_pairs_append]
    simp [Values.pairs, pairText]

/-- The URL of `calcUrl`: the address, a question mark, and the expected
parameters as escaped pairs joined by `&`. -/
theorem calcUrl_eq (brand : CarBrand) (page : Int) (modelIDs : List Str) :
    calcUrl brand page modelIDs =
      "https://www.cars.bg/carslist.php?".toList ++
        List.intercalate ['&']
          ((expectedParams brand (formatInt brand) (formatInt page) modelIDs).map pairText) := by
  have hbase : ∀ q : Str, "https://www.cars.bg/carslist.php".toList ++ "?".toList ++ q =
      "https://www.cars.bg/carslist.php?".toList ++ q := by
    intro q
    rfl
  unfold calcUrl Values.Encode
  simp only []
  rw [hbase]
  congr 1
  congr 1
  by_cases hb : brand = 0
  · subst hb
    simp only [ne_eq, not_true_eq_false, if_false, expectedParams, List.nil_append,
      List.append_nil]
    have e := foldl_Add_pairs "models[]".toList [] [("page".toList, [formatInt page])]
      (fun _ => rfl) (fun _ _ => rfl) modelIDs
    have e0 : Values.Set [] "page".toList (formatInt page) =
        [] ++ [("page".toList, [formatInt page])] := rfl
    rw [e0, e]
    simp [Values.pairs, pairText]
  · simp only [ne_eq, hb, not_false_eq_true, if_true, expectedParams]
    have e := foldl_Add_pairs "models[]".toList
      [("add_search".toList, ["1".toList]), ("brandId".toList, [formatInt brand])]
      [("page".toList, [formatInt page]), ("subm".toList, ["1".toList]),
        ("typeoffer".toList, ["1".toList])]
      (fun _ => rfl) (fun _ _ => rfl) modelIDs
    have e0 : Values.Set (Values.Set (Values.Set (Values.Set (Values.Set [] "subm".toList
        "1".toList) "add_search".toList "1".toList) "typeoffer".toList "1".toList)
        "brandId".toList (formatInt brand)) "page".toList (formatInt page) =
        [("add_search".toList, ["1".toList]), ("brandId".toList, [formatInt brand])] ++
        [("page".toList, [formatInt page]), ("subm".toList, ["1".toList]),
          ("typeoffer".toList, ["1".toList])] := rfl
    rw [e0, e]
    simp [Values.pairs, pairText]

/-- A digit character of `Nat.toDigits` is an ASCII digit and stands for its
number. -/
theorem digitChar_digit : ∀ k, k < 10 →
    isDigit (Nat.digitChar k) = true ∧ (Nat.digitChar k).toNat - 48 = k := by
  decide

/-- The digits that `Nat.toDigits` writes in front of what it was given: one or
more digits whose value is the number, the first of them `0` only for 0. -/
theorem toDigitsCore_numeral : ∀ (fuel n : Nat) (acc : Str), n < fuel →
    ∃ body, Nat.toDigitsCore 10 fuel n acc = body ++ acc ∧ body ≠ [] ∧
      (∀ c ∈ body, isDigit c = true) ∧ digitsValue body = n ∧
      (n = 0 → body = ['0']) ∧ (n ≠ 0 → body.head? ≠ some '0') := by
  intro fuel
  induction fuel with
  | zero =>
    intro n acc h
    omega
  | succ fuel ih =>
    intro n acc h
    have hd := digitChar_digit (n % 10) (Nat.mod_lt _ (by decide))
    rw [Nat.toDigitsCore]
    by_cases h0 : n / 10 = 0
    · simp only [h0, if_true]
      have hn : n % 10 = n := by omega
      refine ⟨[Nat.digitChar (n % 10)], rfl, by simp, ?_, ?_, ?_, ?_⟩
      · intro c hc
        rw [List.mem_singleton] at hc
        rw [hc]
        exact hd.1
      · simp only [digitsValue, List.foldl_cons, List.foldl_nil]
        omega
      · intro hz
        rw [hz]
        rfl
      · intro hz hh
        simp only [List.head?_cons, Option.some.injEq] at hh
        rw [hh] at hd
        have h48 : ('0' : Char).toNat - 48 = 0 := by decide
        omega
    · simp only [h0, if_false]
      rcases ih (n / 10) (Nat.digitChar (n % 10) :: acc) (by omega) with
        ⟨body, e, hne, hdig, hval, _, hhead⟩
      refine ⟨body ++ [Nat.digitChar (n % 10)], ?_, by simp, ?_, ?_, ?_, ?_⟩
      · rw [e]
        simp
      · intro c hc
        rcases List.mem_append.mp hc with hc | hc
        · exact hdig c hc
        · rw [List.mem_singleton] at hc
          rw [hc]
          exact hd.1
      · unfold digitsValue at hval ⊢
        rw [List.foldl_append, hval]
        simp only [List.foldl_cons, List.foldl_nil]
        omega
      · intro hz
        omega
      · intro _
        cases body with
        | nil => exact absurd rfl hne
        | cons b body => exact hhead h0

theorem toDigits_numeral (n : Nat) :
    isNumeral (Nat.toDigits 10 n) = true ∧ digitsValue (Nat.toDigits 10 n) = n := by
  rcases toDigitsCore_numeral (n + 1) n [] (by omega) with ⟨body, e, hne, hdig, hval, hz, hnz⟩
  rw [List.append_nil] at e
  unfold Nat.toDigits
  rw [e]
  refine ⟨?_, hval⟩
  unfold isNumeral
  simp only [Bool.and_eq_true, Bool.or_eq_true, Bool.not_eq_true', List.isEmpty_eq_false,
    List.all_eq_true, bne_iff_ne, beq_iff_eq]
  refine ⟨⟨hne, hdig⟩, ?_⟩
  by_cases h0 : n = 0
  · right
    rw [hz h0]
    rfl
  · left
    exact hnz h0

/-- The text that `%d` gives for an integer is the integer in decimal. -/
theorem formatInt_isDecimalOf (n : Int) : isDecimalOf (formatInt n) n = true := by
  cases n with
  | ofNat m =>
    have h := toDigits_numeral m
    have hn : ¬ Int.ofNat m < 0 := Int.not_lt.mpr (Int.ofNat_nonneg m)
    simp only [isDecimalOf, formatInt, hn, if_false, Bool.and_eq_true, beq_iff_eq]
    exact ⟨h.1, h.2⟩
  | negSucc m =>
    have h := toDigits_numeral (m + 1)
    have hn : Int.negSucc m < 0 := Int.negSucc_lt_zero m
    simp only [isDecimalOf, formatInt, hn, if_true, List.head?_cons, List.tail_cons,
      Bool.and_eq_true, beq_iff_eq]
    exact ⟨⟨trivial, h.1⟩, h.2⟩

theorem digitChar_ofNat : ∀ k, k < 10 → Nat.digitChar k = Char.ofNat (48 + k) := by
  decide

theorem digitChar_toNat (c : Char) (h : isDigit c = true) : Nat.digitChar (c.toNat - 48) = c := by
  have hc := isDigit_toNat c h
  rw [digitChar_ofNat _ (by omega)]
  have e : 48 + (c.toNat - 48) = c.toNat := by omega
  rw [e]
  exact Char.ofNat_toNat c

theorem foldl_digits_pos (r : Str) : ∀ a : Nat, 0 < a →
    0 < r.foldl (fun n c => 10 * n + (c.toNat - 48)) a := by
  induction r with
  | nil => intro a h; exact h
  | cons c r ih =>
    intro a h
    rw [List.foldl_cons]
    exact ih _ (by omega)

/-- A numeral is the text that `Nat.toDigits` writes for its value. -/
theorem toDigitsCore_digitsValue (s : Str) :
    s ≠ [] → (∀ c ∈ s, isDigit c = true) → (s.head? ≠ some '0' ∨ s.length = 1) →
    ∀ (fuel : Nat) (acc : Str), digitsValue s < fuel →
      Nat.toDigitsCore 10 fuel (digitsValue s) acc = s ++ acc := by
  induction s using List.reverseRecOn with
  | nil => intro h; exact absurd rfl h
  | append_singleton body d ih =>
    intro _ hdig hhead fuel acc hf
    have hd := isDigit_toNat d (hdig d (by simp))
    have hv : digitsValue (body ++ [d]) = 10 * digitsValue body + (d.toNat - 48) := by
      simp only [digitsValue, List.foldl_append, List.foldl_cons, List.foldl_nil]
    rw [hv] at hf ⊢
    cases fuel with
    | zero => omega
    | succ fuel =>
      have hmod : (10 * digitsValue body + (d.toNat - 48)) % 10 = d.toNat - 48 := by omega
      have hdiv : (10 * digitsValue body + (d.toNat - 48)) / 10 = digitsValue body := by omega
      rw [Nat.toDigitsCore]
      simp only [hmod, hdiv, digitChar_toNat d (hdig d (by simp))]
      cases body with
      | nil => simp [digitsValue]
      | cons b body =>
        have hb0 : b ≠ '0' := by
          rcases hhead with h | h
          · intro e
            exact h (by simp [e])
          · simp at h
        have hbd := isDigit_toNat b (hdig b (by simp))
        have hb1 : 0 < b.toNat - 48 := by
          have : b.toNat ≠ 48 := by
            intro e
            apply hb0
            rw [← Char.ofNat_toNat b, e]
          omega
        have hpos : 0 < digitsValue (b :: body) := by
          simp only [digitsValue, List.foldl_cons]
          exact foldl_digits_pos body _ (by omega)
        have hne : digitsValue (b :: body) ≠ 0 := by omega
        simp only [hne, if_false]
        rw [ih (by simp) (fun c hc => hdig c (by simp at hc ⊢; tauto))
          (Or.inl (by simp [hb0])) fuel _ (by omega)]
        simp

theorem numeral_eq_toDigits (s : Str) (h : isNumeral s = true) :
    s = Nat.toDigits 10 (digitsValue s) := by
  unfold isNumeral at h
  simp only [Bool.and_eq_true, Bool.or_eq_true, Bool.not_eq_true', List.isEmpty_eq_false,
    List.all_eq_true, bne_iff_ne, beq_iff_eq] at h
  unfold Nat.toDigits
  rw [toDigitsCore_digitsValue s h.1.1 h.1.2 h.2 _ [] (by omega)]
  simp

/-- An integer has one decimal text only. -/
theorem isDecimalOf_unique (s t : Str) (n : Int) (hs : isDecimalOf s n = true)
    (ht : isDecimalOf t n = true) : s = t := by
  unfold isDecimalOf at hs ht
  by_cases hn : n < 0
  · simp only [hn, if_true, Bool.and_eq_true, beq_iff_eq] at hs ht
    have es := numeral_eq_toDigits _ hs.1.2
    have et := numeral_eq_toDigits _ ht.1.2
    rw [hs.2] at es
    rw [ht.2] at et
    cases s with
    | nil => simp at hs
    | cons a s =>
      cases t with
      | nil => simp at ht
      | cons b t =>
        simp only [List.head?_cons, Option.some.injEq, List.tail_cons] at hs ht es et
        rw [hs.1.1, ht.1.1, es, et]
  · simp only [hn, if_false, Bool.and_eq_true, beq_iff_eq] at hs ht
    have es := numeral_eq_toDigits _ hs.1
    have et := numeral_eq_toDigits _ ht.1
    rw [hs.2] at es
    rw [ht.2] at et
    rw [es, et]

/-- C12: the URL built by `calcUrl` is `https://www.cars.bg/carslist.php?`
followed by a query whose decoded parameters are exactly: `add_search` = 1 and
`brandId` = the brand in decimal when the brand is not 0, `models[]` once per
model code in the order of the list, `page` = the page in decimal, and
`subm` = 1 and `typeoffer` = 1 when the brand is not 0. The texts of the brand
and of the page are decimal numerals (digits without a leading zero, after a
minus sign for a negative number) whose value is the brand and the page. -/
theorem calcUrl_params (brand : CarBrand) (page : Int) (modelIDs : List Str) :
    ∃ query brandText pageText,
      calcUrl brand page modelIDs = "https://www.cars.bg/carslist.php?".toList ++ query ∧
      isDecimalOf brandText brand = true ∧ isDecimalOf pageText page = true ∧
      ParseQuery query = expectedParams brand brandText pageText modelIDs := by
  refine ⟨_, formatInt brand, formatInt page, calcUrl_eq brand page modelIDs,
    formatInt_isDecimalOf brand, formatInt_isDecimalOf page, ParseQuery_pairs _ ?_⟩
  unfold expectedParams
  simp

/-- C12, an example: for brand 10, page 2 and the model code `122` the decoded
parameters are `add_search` = 1, `brandId` = 10, `models[]` = 122, `page` = 2,
`subm` = 1 and `typeoffer` = 1; `10`, `2` and `-3` are the decimal texts of 10,
2 and -3, and `02`, `+2`, `3` and the empty text are not those of 2, 2, -3
and 0. -/
theorem calcUrl_params_witness :
    calcUrl 10 2 ["122".toList] =
      "https://www.cars.bg/carslist.php?add_search=1&brandId=10&models%5B%5D=122&page=2&subm=1&typeoffer=1".toList ∧
    expectedParams 10 "10".toList "2".toList ["122".toList] =
      [("add_search".toList, "1".toList), ("brandId".toList, "10".toList),
        ("models[]".toList, "122".toList), ("page".toList, "2".toList),
        ("subm".toList, "1".toList), ("typeoffer".toList, "1".toList)] ∧
    (isDecimalOf "10".toList 10 = true ∧ isDecimalOf "2".toList 2 = true ∧
      isDecimalOf "-3".toList (-3) = true) ∧
    (isDecimalOf "02".toList 2 = false ∧ isDecimalOf "+2".toList 2 = false ∧
      isDecimalOf "3".toList (-3) = false ∧ isDecimalOf [] 0 = false) ∧
    ∃ query brandText pageText,
      calcUrl 10 2 ["122".toList] = "https://www.cars.bg/carslist.php?".toList ++ query ∧
      isDecimalOf brandText 10 = true ∧ isDecimalOf pageText 2 = true ∧
      ParseQuery query = expectedParams 10 brandText pageText ["122".toList] :=
  ⟨by decide, by decide, by decide, by decide, calcUrl_params 10 2 ["122".toList]⟩

/-- The URL for brand 10, page 2 and the model code `122`. -/
theorem calcUrl_example :
    calcUrl 10 2 ["122".toList] =
      "https://www.cars.bg/carslist.php?add_search=1&brandId=10&models%5B%5D=122&page=2&subm=1&typeoffer=1".toList ∧
    calcUrl 0 1 [] = "https://www.cars.bg/carslist.php?page=1".toList := by
  decide

/-! ## The texts the amount pattern reads -/

/-- What a greedy loop has read is a sequence of pieces, one per turn of its
body. -/
theorem starLoop_parse {α : Type} (f : MState → List MState) (render : α → Str)
    (P : α → Prop)
    (hf : ∀ st st', st' ∈ f st → ∃ x, P x ∧ st.1 = render x ++ st'.1) :
    ∀ (n : Nat) (st st' : MState), st' ∈ starLoop f n st →
      ∃ xs : List α, (∀ x ∈ xs, P x) ∧ st.1 = xs.flatMap render ++ st'.1 := by
  intro n
  induction n with
  | zero =>
    intro st st' h
    simp only [starLoop, List.mem_singleton] at h
    subst h
    exact ⟨[], by simp, by simp⟩
  | succ n ih =>
    intro st st' h
    simp only [starLoop, List.mem_append, List.mem_flatMap, List.mem_singleton] at h
    rcases h with ⟨st1, h1, h2⟩ | h
    · rcases hf st st1 h1 with ⟨x, hx, e1⟩
      rcases ih st1 st' h2 with ⟨xs, hxs, e2⟩
      refine ⟨x :: xs, ?_, ?_⟩
      · intro y hy
        rcases List.mem_cons.mp hy with rfl | hy
        · exact hx
        · exact hxs y hy
      · rw [e1, e2, List.flatMap_cons, List.append_assoc]
    · subst h
      exact ⟨[], by simp, by simp⟩

theorem run_groupPattern_mem (st st' : MState) (h : st' ∈ run groupPattern st) :
    ∃ g : Char × Char × Char × Char,
      (isSeparator g.1 = true ∧ isDigit g.2.1 = true ∧ isDigit g.2.2.1 = true ∧
        isDigit g.2.2.2 = true) ∧
      st.1 = renderGroup g ++ st'.1 := by
  unfold groupPattern at h
  rw [run_cat] at h
  simp only [List.mem_flatMap, run_cat] at h
  rcases h with ⟨s1, h1, s2, h2, s3, h3, h4⟩
  rcases run_cls_mem _ _ _ h1 with ⟨c1, p1, e1, _⟩
  rcases run_cls_mem _ _ _ h2 with ⟨c2, p2, e2, _⟩
  rcases run_cls_mem _ _ _ h3 with ⟨c3, p3, e3, _⟩
  rcases run_cls_mem _ _ _ h4 with ⟨c4, p4, e4, _⟩
  refine ⟨(c1, c2, c3, c4), ⟨p1, p2, p3, p4⟩, ?_⟩
  rw [e1, e2, e3, e4]
  rfl

theorem run_fractionPattern_opt_mem (st st' : MState)
    (h : st' ∈ run (.opt fractionPattern) st) :
    ∃ frac : Option (Char × Char),
      (∀ f, frac = some f → isDigit f.1 = true ∧ isDigit f.2 = true) ∧
      st.1 = renderFraction frac ++ st'.1 := by
  rw [run_opt, List.mem_append, List.mem_singleton] at h
  rcases h with h | h
  · unfold fractionPattern at h
    rw [run_cat] at h
    simp only [List.mem_flatMap, run_cat] at h
    rcases h with ⟨s1, h1, s2, h2, h3⟩
    rcases run_lit_mem _ _ _ h1 with ⟨e1, _⟩
    rcases run_cls_mem _ _ _ h2 with ⟨c2, p2, e2, _⟩
    rcases run_cls_mem _ _ _ h3 with ⟨c3, p3, e3, _⟩
    refine ⟨some (c2, c3), ?_, ?_⟩
    · intro f hf
      simp only [Option.some.injEq] at hf
      subst hf
      exact ⟨p2, p3⟩
    · rw [e1, e2, e3]
      rfl
  · subst h
    exact ⟨none, by simp, rfl⟩

/-- A text read by the amount pattern is an amount: leading digits, groups of a
separator and three digits, and an optional fraction. -/
theorem run_amountPattern_mem (st st' : MState) (h : st' ∈ run amountPattern st) :
    ∃ ds groups frac, validAmount ds groups frac ∧
      st.1 = amountText ds groups frac ++ st'.1 := by
  unfold amountPattern Regex.plus at h
  rw [run_cat, run_cat] at h
  simp only [List.mem_flatMap] at h
  rcases h with ⟨s2, ⟨s1, h1, h2⟩, h3⟩
  rw [run_cat] at h3
  simp only [List.mem_flatMap] at h3
  rcases h3 with ⟨s3, h3, h4⟩
  rcases run_cls_mem _ _ _ h1 with ⟨d, pd, e1, _⟩
  rw [run_star] at h2 h3
  rcases starLoop_parse (run (.cls isDigit)) (fun c : Char => [c]) (fun c => isDigit c = true)
    (fun a b hab => by
      rcases run_cls_mem _ _ _ hab with ⟨c, pc, e, _⟩
      exact ⟨c, pc, by rw [e]; rfl⟩) _ _ _ h2 with ⟨ds, hds, e2⟩
  rcases starLoop_parse (run groupPattern) renderGroup
    (fun g => isSeparator g.1 = true ∧ isDigit g.2.1 = true ∧ isDigit g.2.2.1 = true ∧
      isDigit g.2.2.2 = true)
    run_groupPattern_mem _ _ _ h3 with ⟨groups, hg, e3⟩
  rcases run_fractionPattern_opt_mem _ _ h4 with ⟨frac, hf, e4⟩
  refine ⟨d :: ds, groups, frac, ⟨by simp, ?_, hg, hf⟩, ?_⟩
  · intro c hc
    rcases List.mem_cons.mp hc with rfl | hc
    · exact pd
    · exact hds c hc
  · have eds : ∀ l : Str, l.flatMap (fun c : Char => [c]) = l := by
      intro l
      induction l with
      | nil => rfl
      | cons x xs ih =>
        rw [List.flatMap_cons, ih]
        rfl
    have eds := eds ds
    rw [e1, e2, e3, e4, eds]
    simp [amountText]

/-- The text the amount pattern has read from a position is an amount. -/
theorem consumed_amount (start : Str) (caps : Caps) (st0 : MState)
    (h0 : st0 ∈ run amountPattern (start, caps)) :
    ∃ ds groups frac, validAmount ds groups frac ∧
      List.take (start.length - st0.1.length) start = amountText ds groups frac := by
  rcases run_amountPattern_mem _ _ h0 with ⟨ds, groups, frac, hv, e⟩
  refine ⟨ds, groups, frac, hv, ?_⟩
  have e' : start = amountText ds groups frac ++ st0.1 := e
  have h := take_append_length_sub (amountText ds groups frac) st0.1
  rw [← e'] at h
  exact h

/-- Every structured match holds an amount made of runes of the text, and a
currency token. -/
theorem FindAll_priceRegex_valid_mem (s : Str) (m : List Str)
    (h : m ∈ FindAllStringSubmatch priceRegex 2 s) :
    ∃ full ds groups frac cur, m = [full, amountText ds groups frac, cur] ∧
      cur ∈ currencyTokens ∧ validAmount ds groups frac ∧
      ∀ c ∈ amountText ds groups frac, c ∈ s := by
  rcases findAllLoop_mem priceRegex 2 _ s false m h with ⟨start, st, h1, h2, h3⟩
  have hm := List.mem_of_mem_head? h1
  unfold priceRegex at hm
  rw [run_cat, run_group] at hm
  simp only [List.mem_flatMap, List.mem_map, run_cat, run_group, run_star] at hm
  rcases hm with ⟨st1, ⟨st0, h0, rfl⟩, st2, hst2, st3, hst3, rfl⟩
  have c0 := run_caps amountPattern amountPattern_groupFree _ _ h0
  have c2 := starLoop_caps _ (run_caps (.cls isReSpace) rfl) _ _ _ hst2
  rcases run_currencyPattern_mem _ _ hst3 with ⟨tok, htok, k1, k2⟩
  have hshort := run_amountPattern_shorter _ _ h0
  have hcons := consumed_text start st0.1 hshort
  rcases consumed_amount start [] st0 h0 with ⟨ds, groups, frac, hv, ea⟩
  refine ⟨List.take (start.length - st3.1.length) start, ds, groups, frac, tok, ?_, htok, hv, ?_⟩
  · rw [h3, ← ea]
    simp only [submatches, List.range, List.range.loop, List.map]
    simp [k2, c2, c0, k1, List.lookup]
  · intro c hc
    rw [← ea] at hc
    exact h2.subset (hcons.2 c hc)

/-- Every number found in a text is an amount made of runes of the text. -/
theorem FindAllString_numberRegex_valid_mem (s N : Str)
    (h : N ∈ FindAllString numberRegex 1 s) :
    ∃ ds groups frac, N = amountText ds groups frac ∧ validAmount ds groups frac ∧
      ∀ c ∈ N, c ∈ s := by
  unfold FindAllString at h
  rw [List.mem_map] at h
  rcases h with ⟨m, hm, rfl⟩
  rcases findAllLoop_mem numberRegex 1 _ s false m hm with ⟨start, st, h1, h2, rfl⟩
  have hst := List.mem_of_mem_head? h1
  unfold numberRegex at hst
  rw [run_group, List.mem_map] at hst
  rcases hst with ⟨st0, h0, rfl⟩
  have hshort := run_amountPattern_shorter _ _ h0
  have hcons := consumed_text start st0.1 hshort
  rcases consumed_amount start [] st0 h0 with ⟨ds, groups, frac, hv, ea⟩
  simp only [submatches, List.headD_cons]
  exact ⟨ds, groups, frac, ea, hv, fun c hc => h2.subset (hcons.2 c hc)⟩

/-! ## Commas for spaces in an amount -/

theorem isDigit_ne_space (c : Char) (h : isDigit c = true) : c ≠ ' ' := by
  intro e
  subst e
  exact absurd h (by decide)

/-- Replacing the spaces of an amount by commas gives the amount with the same
digits whose space separators are commas. -/
theorem ReplaceAll_amountText (ds : Str) (groups : List (Char × Char × Char × Char))
    (frac : Option (Char × Char)) (hv : validAmount ds groups frac) :
    ReplaceAll (amountText ds groups frac) " ".toList ",".toList =
      amountText ds (groups.map commaGroup) frac := by
  rcases hv with ⟨_, hds, hg, hf⟩
  have e : ReplaceAll (amountText ds groups frac) " ".toList ",".toList =
      (amountText ds groups frac).map fun c => if c = ' ' then ',' else c :=
    ReplaceAll_single ' ' ',' _
  rw [e]
  have hfix : ∀ c : Char, isDigit c = true → (if c = ' ' then ',' else c) = c := by
    intro c hc
    rw [if_neg (isDigit_ne_space c hc)]
  have e1 : ds.map (fun c => if c = ' ' then ',' else c) = ds := by
    have h : ∀ l : Str, (∀ c ∈ l, isDigit c = true) →
        l.map (fun c => if c = ' ' then ',' else c) = l := by
      intro l
      induction l with
      | nil => intro _; rfl
      | cons x xs ih =>
        intro hl
        rw [List.map_cons, ih fun c hc => hl c (List.mem_cons_of_mem _ hc),
          hfix x (hl x (List.mem_cons_self _ _))]
    exact h ds hds
  have e2 : ∀ gs : List (Char × Char × Char × Char),
      (∀ g ∈ gs, isSeparator g.1 = true ∧ isDigit g.2.1 = true ∧ isDigit g.2.2.1 = true ∧
        isDigit g.2.2.2 = true) →
      (gs.flatMap renderGroup).map (fun c => if c = ' ' then ',' else c) =
        (gs.map commaGroup).flatMap renderGroup := by
    intro gs
    induction gs with
    | nil => intro _; rfl
    | cons g gs ih =>
      intro hl
      have hg0 := hl g (List.mem_cons_self _ _)
      rw [List.flatMap_cons, List.map_append, ih fun x hx => hl x (List.mem_cons_of_mem _ hx),
        List.map_cons, List.flatMap_cons]
      congr 1
      simp only [renderGroup, commaGroup, List.map_cons, List.map_nil, hfix _ hg0.2.1,
        hfix _ hg0.2.2.1, hfix _ hg0.2.2.2]
  have e3 : (renderFraction frac).map (fun c => if c = ' ' then ',' else c) =
      renderFraction frac := by
    cases frac with
    | none => rfl
    | some f =>
      rcases f with ⟨a, b⟩
      have h := hf (a, b) rfl
      simp only [renderFraction, List.map_cons, List.map_nil, hfix _ h.1, hfix _ h.2]
      rfl
  simp only [amountText, List.map_append, e1, e2 groups hg, e3]

/-- After the replacement the amount is an amount still, and none of its
separators is a space; a newline or a tab is a separator only if it was one
before. -/
theorem validAmount_commaGroup (ds : Str) (groups : List (Char × Char × Char × Char))
    (frac : Option (Char × Char)) (hv : validAmount ds groups frac) :
    validAmount ds (groups.map commaGroup) frac ∧
      ∀ g ∈ groups.map commaGroup, g.1 ≠ ' ' ∧
        (g.1 = ',' ∨ g.1 ∈ amountText ds groups frac) := by
  rcases hv with ⟨hne, hds, hg, hf⟩
  refine ⟨⟨hne, hds, ?_, hf⟩, ?_⟩
  · intro g hgm
    rw [List.mem_map] at hgm
    rcases hgm with ⟨g', hg', rfl⟩
    have h := hg g' hg'
    refine ⟨?_, h.2⟩
    simp only [commaGroup]
    by_cases hs : g'.1 = ' '
    · rw [if_pos hs]
      decide
    · rw [if_neg hs]
      exact h.1
  · intro g hgm
    rw [List.mem_map] at hgm
    rcases hgm with ⟨g', hg', rfl⟩
    simp only [commaGroup]
    by_cases hs : g'.1 = ' '
    · rw [if_pos hs]
      exact ⟨by decide, Or.inl rfl⟩
    · rw [if_neg hs]
      refine ⟨hs, Or.inr ?_⟩
      simp only [amountText, List.mem_append, List.mem_flatMap]
      exact Or.inr (Or.inl ⟨g', hg', by simp [renderGroup]⟩)

/-! ## The rendered prices are fixed points -/

/-- A rune that is no digit, no full stop and no separator of the amount does
not occur in it. -/
theorem not_mem_amountText (ds : Str) (groups : List (Char × Char × Char × Char))
    (frac : Option (Char × Char)) (hv : validAmount ds groups frac) (a : Char)
    (ha : isDigit a = false) (hdot : a ≠ '.') (hsep : ∀ g ∈ groups, g.1 ≠ a) :
    a ∉ amountText ds groups frac := by
  rcases hv with ⟨_, hds, hg, hf⟩
  have hd : ∀ c : Char, isDigit c = true → a ≠ c := by
    intro c hc e
    rw [e, hc] at ha
    exact absurd ha (by simp)
  intro hc
  simp only [amountText, List.mem_append, List.mem_flatMap] at hc
  rcases hc with hc | ⟨g, hgm, hc⟩ | hc
  · exact hd a (hds a hc) rfl
  · have h := hg g hgm
    simp only [renderGroup, List.mem_cons, List.mem_singleton, List.not_mem_nil, or_false] at hc
    rcases hc with e | e | e | e
    · exact hsep g hgm e.symm
    · exact hd _ h.2.1 e
    · exact hd _ h.2.2.1 e
    · exact hd _ h.2.2.2 e
  · cases frac with
    | none => simp [renderFraction] at hc
    | some f =>
      rcases f with ⟨x, y⟩
      have h := hf (x, y) rfl
      simp only [renderFraction, List.mem_cons, List.mem_singleton, List.not_mem_nil,
        or_false] at hc
      rcases hc with e | e | e
      · exact hdot e
      · exact hd _ h.1 e
      · exact hd _ h.2 e

/-- An amount with no space, newline or tab, a space and `BGN` or `EUR`: the
first lines of `parsePrice` leave this text as it is. -/
theorem cleanPrice_amount (ds : Str) (groups : List (Char × Char × Char × Char))
    (frac : Option (Char × Char)) (cur : Str) (hv : validAmount ds groups frac)
    (hsp : ' ' ∉ amountText ds groups frac) (hnl : '\n' ∉ amountText ds groups frac)
    (htab : '\t' ∉ amountText ds groups frac)
    (hcur : cur = "BGN".toList ∨ cur = "EUR".toList) :
    cleanPrice (amountText ds groups frac ++ ' ' :: cur) =
      amountText ds groups frac ++ ' ' :: cur := by
  have htrim : TrimSpace (amountText ds groups frac ++ ' ' :: cur) =
      amountText ds groups frac ++ ' ' :: cur := by
    apply TrimSpace_eq_self
    · rcases hv with ⟨hne, hds, _, _⟩
      cases ds with
      | nil => exact absurd rfl hne
      | cons d ds =>
        intro c r h
        simp only [amountText, List.cons_append, List.cons.injEq] at h
        rw [← h.1]
        exact isDigit_not_space d (hds d (List.mem_cons_self _ _))
    · intro c r h
      rcases hcur with rfl | rfl
      · simp only [List.reverse_append, List.reverse_cons, String.toList,
          List.reverse_nil, List.nil_append, List.cons_append, List.cons.injEq,
          List.append_assoc] at h
        rw [← h.1]
        decide
      · simp only [List.reverse_append, List.reverse_cons, String.toList,
          List.reverse_nil, List.nil_append, List.cons_append, List.cons.injEq,
          List.append_assoc] at h
        rw [← h.1]
        decide
  have hcurmem : ∀ a : Char, a = '\n' ∨ a = '\t' → a ∉ cur := by
    intro a ha
    rcases hcur with rfl | rfl <;> rcases ha with rfl | rfl <;> decide
  have hnl' : '\n' ∉ amountText ds groups frac ++ ' ' :: cur := by
    simp only [List.mem_append, List.mem_cons, not_or]
    exact ⟨hnl, by decide, hcurmem _ (Or.inl rfl)⟩
  have htab' : '\t' ∉ amountText ds groups frac ++ ' ' :: cur := by
    simp only [List.mem_append, List.mem_cons, not_or]
    exact ⟨htab, by decide, hcurmem _ (Or.inr rfl)⟩
  have hsp' : Contains (amountText ds groups frac ++ ' ' :: cur) "  ".toList = false := by
    rcases hcur with rfl | rfl
    · exact Contains_two_spaces_append _ hsp 'B' _ (by decide) (by decide)
    · exact Contains_two_spaces_append _ hsp 'E' _ (by decide) (by decide)
  unfold cleanPrice
  simp only [htrim]
  have e1 : ReplaceAll (amountText ds groups frac ++ ' ' :: cur) "\n".toList " ".toList =
      amountText ds groups frac ++ ' ' :: cur := ReplaceAll_single_eq_self '\n' _ _ hnl'
  have e2 : ReplaceAll (amountText ds groups frac ++ ' ' :: cur) "\t".toList " ".toList =
      amountText ds groups frac ++ ' ' :: cur := ReplaceAll_single_eq_self '\t' _ _ htab'
  rw [e1, e2]
  exact collapseSpaces_eq_self _ _ hsp'

/-- An amount with no space, newline or tab, a space and `BGN` or `EUR`:
`parsePrice` returns this text unchanged. -/
theorem parsePrice_amount (ds : Str) (groups : List (Char × Char × Char × Char))
    (frac : Option (Char × Char)) (cur : Str) (hv : validAmount ds groups frac)
    (hsp : ' ' ∉ amountText ds groups frac) (hnl : '\n' ∉ amountText ds groups frac)
    (htab : '\t' ∉ amountText ds groups frac)
    (hcur : cur = "BGN".toList ∨ cur = "EUR".toList) :
    parsePrice (amountText ds groups frac ++ ' ' :: cur) =
      amountText ds groups frac ++ ' ' :: cur := by
  have hclean := cleanPrice_amount ds groups frac cur hv hsp hnl htab hcur
  have hall := FindAll_priceRegex_amount ds groups frac cur hv hcur
  have hrep : ReplaceAll (amountText ds groups frac) " ".toList ",".toList =
      amountText ds groups frac := ReplaceAll_single_eq_self ' ' _ _ hsp
  have hne : amountText ds groups frac ++ ' ' :: cur ≠ [] := by simp
  unfold parsePrice
  simp only [hclean, hne, if_false]
  rw [hall]
  rcases hcur with rfl | rfl
  · simp only [preferBGN]
    rw [hrep]
    simp
  · have hno : Contains "EUR".toList "лв".toList = false := by decide
    simp only [preferBGN]
    rw [hrep, hno]
    simp

/-- The text built from an amount of the cleaned text and `BGN` or `EUR` is
returned unchanged by `parsePrice`. -/
theorem parsePrice_renderPrice (ds : Str) (groups : List (Char × Char × Char × Char))
    (frac : Option (Char × Char)) (cur : Str) (hv : validAmount ds groups frac)
    (hnl : '\n' ∉ amountText ds groups frac) (htab : '\t' ∉ amountText ds groups frac)
    (hcur : cur = "BGN".toList ∨ cur = "EUR".toList) :
    parsePrice (renderPrice (amountText ds groups frac) cur) =
      renderPrice (amountText ds groups frac) cur := by
  have hc := validAmount_commaGroup ds groups frac hv
  have e : renderPrice (amountText ds groups frac) cur =
      amountText ds (groups.map commaGroup) frac ++ ' ' :: cur := by
    unfold renderPrice
    rw [ReplaceAll_amountText ds groups frac hv]
    simp
  rw [e]
  apply parsePrice_amount ds _ frac cur hc.1 _ _ _ hcur
  · exact not_mem_amountText ds _ frac hc.1 ' ' (by decide) (by decide)
      fun g hg => (hc.2 g hg).1
  · apply not_mem_amountText ds _ frac hc.1 '\n' (by decide) (by decide)
    intro g hg e
    rcases (hc.2 g hg).2 with h | h
    · rw [e] at h
      exact absurd h (by decide)
    · rw [e] at h
      exact hnl h
  · apply not_mem_amountText ds _ frac hc.1 '\t' (by decide) (by decide)
    intro g hg e
    rcases (hc.2 g hg).2 with h | h
    · rw [e] at h
      exact absurd h (by decide)
    · rw [e] at h
      exact htab h

/-! ## Idempotence -/

/-- The first lines of `parsePrice` change nothing in a text they have
produced. -/
theorem cleanPrice_idem (x : Str) : cleanPrice (cleanPrice x) = cleanPrice x := by
  have hnt := cleanPrice_no_newline_tab x
  have hds := cleanPrice_no_double_space x
  have htrim : TrimSpace (cleanPrice x) = cleanPrice x := by
    apply TrimSpace_eq_self
    · intro c r h
      exact cleanPrice_head x c (by rw [h]; rfl)
    · intro c r h
      apply cleanPrice_last x c
      rw [← List.head?_reverse, h]
      rfl
  generalize cleanPrice x = p at hnt hds htrim ⊢
  unfold cleanPrice
  simp only [htrim]
  have e1 : ReplaceAll p "\n".toList " ".toList = p := ReplaceAll_single_eq_self '\n' _ _ hnt.1
  have e2 : ReplaceAll p "\t".toList " ".toList = p := ReplaceAll_single_eq_self '\t' _ _ hnt.2
  rw [e1, e2]
  exact collapseSpaces_eq_self _ _ hds

/-- The result of `parsePrice` depends on the cleaned text only. -/
theorem parsePrice_congr (x y : Str) (h : cleanPrice y = cleanPrice x) :
    parsePrice y = parsePrice x := by
  unfold parsePrice
  simp only [h]

theorem currencyToken_not_lev (f a c : Str) (hc : c ∈ currencyTokens)
    (h : isLevMatch [f, a, c] = false) : c = "EUR".toList := by
  simp only [currencyTokens, List.mem_cons, List.mem_singleton, List.not_mem_nil, or_false] at hc
  rcases hc with rfl | rfl | rfl | rfl
  · exact absurd h (by simp [isLevMatch])
  · rfl
  · exact absurd h (by simp [isLevMatch])
  · exact absurd h (by simp [isLevMatch])

theorem normalized_currency (C : Str) (h : C ∈ currencyTokens) :
    (if Contains C "лв".toList = true then "BGN".toList else C) = "BGN".toList ∨
      (if Contains C "лв".toList = true then "BGN".toList else C) = "EUR".toList := by
  simp only [currencyTokens, List.mem_cons, List.mem_singleton, List.not_mem_nil, or_false] at h
  rcases h with rfl | rfl | rfl | rfl <;> decide

/-- The three shapes of a result of `parsePrice`: the sentinel, a text built
from an amount of the cleaned text and `BGN` or `EUR`, or the cleaned text. -/
theorem parsePrice_cases (x : Str) :
    parsePrice x = priceNotAvailable ∨
      (∃ ds groups frac cur, validAmount ds groups frac ∧
        '\n' ∉ amountText ds groups frac ∧ '\t' ∉ amountText ds groups frac ∧
        (cur = "BGN".toList ∨ cur = "EUR".toList) ∧
        parsePrice x = renderPrice (amountText ds groups frac) cur) ∨
      parsePrice x = cleanPrice x := by
  have hnt := cleanPrice_no_newline_tab x
  unfold parsePrice
  by_cases hne : cleanPrice x = []
  · simp only [hne, if_true]
    exact Or.inl rfl
  · simp only [hne, if_false]
    cases hm : FindAllStringSubmatch priceRegex 2 (cleanPrice x) with
    | cons m0 ms =>
      have hall : ∀ y ∈ m0 :: ms, ∃ full ds groups frac cur,
          y = [full, amountText ds groups frac, cur] ∧ cur ∈ currencyTokens ∧
          validAmount ds groups frac ∧ ∀ c ∈ amountText ds groups frac, c ∈ cleanPrice x := by
        intro y hy
        rw [← hm] at hy
        exact FindAll_priceRegex_valid_mem _ y hy
      have hp := preferBGN_eq_find (m0 :: ms) fun y hy => by
        rcases hall y hy with ⟨f, ds, groups, frac, c, h1, h2, _⟩
        exact ⟨f, _, c, h2, h1⟩
      rcases hall m0 (List.mem_cons_self _ _) with ⟨f0, ds0, g0, fr0, c0, rfl, hc0, hv0, has0⟩
      simp only [hp]
      cases hf : List.find? isLevMatch ([f0, amountText ds0 g0 fr0, c0] :: ms) with
      | some y =>
        rcases hall y (List.mem_of_find?_eq_some hf) with ⟨f, ds, groups, frac, c, rfl, _, hv, has⟩
        simp only [Option.map_some', List.getD_cons_succ, List.getD_cons_zero]
        exact Or.inr (Or.inl ⟨ds, groups, frac, _, hv, fun h => hnt.1 (has _ h),
          fun h => hnt.2 (has _ h), Or.inl rfl, rfl⟩)
      | none =>
        simp only [Option.map_none']
        have hlev : isLevMatch [f0, amountText ds0 g0 fr0, c0] = false := by
          have h := List.find?_eq_none.mp hf _ (List.mem_cons_self _ _)
          simpa using h
        have hc := currencyToken_not_lev _ _ _ hc0 hlev
        exact Or.inr (Or.inl ⟨ds0, g0, fr0, c0, hv0, fun h => hnt.1 (has0 _ h),
          fun h => hnt.2 (has0 _ h), Or.inr hc, rfl⟩)
    | nil =>
      simp only []
      cases hN : FindAllString numberRegex 1 (cleanPrice x) with
      | nil =>
        simp only []
        exact Or.inr (Or.inr trivial)
      | cons N restN =>
        cases hC : FindAllString currencyRegex 1 (cleanPrice x) with
        | nil =>
          simp only []
          exact Or.inr (Or.inr trivial)
        | cons C restC =>
          simp only []
          rcases FindAllString_numberRegex_valid_mem (cleanPrice x) N
            (by rw [hN]; exact List.mem_cons_self _ _) with ⟨ds, groups, frac, rfl, hv, has⟩
          have hCm := FindAllString_currencyRegex_mem (cleanPrice x) C
            (by rw [hC]; exact List.mem_cons_self _ _)
          exact Or.inr (Or.inl ⟨ds, groups, frac, _, hv, fun h => hnt.1 (has _ h),
            fun h => hnt.2 (has _ h), normalized_currency C hCm, rfl⟩)

/-- C21: `parsePrice` is idempotent: for every text, applying `parsePrice` to
its result gives that result again. -/
theorem parsePrice_idempotent (x : Str) : parsePrice (parsePrice x) = parsePrice x := by
  rcases parsePrice_cases x with h | ⟨ds, groups, frac, cur, hv, hnl, htab, hcur, h⟩ | h
  · rw [h]
    decide
  · rw [h]
    exact parsePrice_renderPrice ds groups frac cur hv hnl htab hcur
  · have e := parsePrice_congr x (cleanPrice x) (cleanPrice_idem x)
    rw [h] at e ⊢
    exact e

end Scraper
